import Mathlib

/-!
# gob: chain reconstruction and the decryption filter

A shallow embedding of the three command line tools of the repository,

* `gob-cat`   (src/gob-cat.c, flat store, Variant A),
* `sb-cat`    (src/sb-cat.c, sharded store, Variant B),
* `sb-decrypt` (src/sb-decrypt.c, the counter-nonce AEAD filter),

together with theorems about the reconstruction and verification protocol.

Conventions of the embedding.

* A C `char` or `unsigned char` is a natural number; text is a list of
  character codes, so `'>'` is 62, `'\n'` is 10, `' '` is 32 and `'\0'` is 0.
* `size_t` and `long` are the 64 bit types of an LP64 platform; every
  operation that can leave the range carries its reduction explicitly.
* `config.h` is not part of the sources: `HASH_LEN` and `BLOCK_LEN` are
  parameters, and so are the library primitives (`crypto_generichash`, the
  AEAD `decrypt`, the file system behind `open_block`, `openat`, `read_key`).
* The incremental hash `init / update* / final` is the one-shot hash of the
  concatenation of everything passed to `update`.
* A run is described by its exit, the bytes it wrote to standard output and
  the block names it tried to open, in order.
* A path on which the C program reads outside of a buffer or dereferences a
  null pointer ends in `Exit.undefined`.
-/

namespace Gob

/-! ## Bytes and C strings -/

/-- The character codes of a string literal. -/
def bytesOf (s : String) : List Nat := s.toList.map Char.toNat

/-- The C string held in a buffer: the bytes before the first NUL. -/
def cstr (buf : List Nat) : List Nat := buf.takeWhile (fun c => c != 0)

/-- The literal "0123456789abcdef" used by `strspn` and `strchr` in the sources. -/
def hexdigits : List Nat :=
  [48, 49, 50, 51, 52, 53, 54, 55, 56, 57, 97, 98, 99, 100, 101, 102]

/-- `strspn(s, accept)`: length of the initial segment of `s` made of bytes of `accept`. -/
def strspn (s accept : List Nat) : Nat :=
  (s.takeWhile (fun c => accept.contains c)).length

/-- `strchr(set, h) != NULL`: the terminating NUL of `set` counts as part of it. -/
def strchr (set : List Nat) (h : Nat) : Bool := h == 0 || set.contains h

/-- `isspace` in the C locale. -/
def isspace (c : Nat) : Bool := c == 32 || (decide (9 ≤ c) && decide (c ≤ 13))

/-- `isdigit`. -/
def isdigit (c : Nat) : Bool := decide (48 ≤ c) && decide (c ≤ 57)

/-- `LONG_MAX` on LP64. -/
def LONG_MAX : Nat := 2 ^ 63 - 1

/-- One more than `SIZE_MAX` on LP64. -/
def SIZE_MOD : Nat := 2 ^ 64

/-- The digit loop of `strtol` in base 10: the value of the leading run of digits. -/
def strtol_digits : List Nat → Nat → Nat
  | [], acc => acc
  | c :: cs, acc => if isdigit c then strtol_digits cs (acc * 10 + (c - 48)) else acc

/-- `strtol(s, NULL, 10)`: leading white space is skipped, an optional sign is
read, then the leading run of digits; a value out of the range of `long` is
clamped to `LONG_MAX` or `LONG_MIN`; without digits the result is 0. -/
def strtol (s : List Nat) : Int :=
  let t := s.dropWhile isspace
  if t.head? = some 45 then
    let v := strtol_digits t.tail 0
    if LONG_MAX + 1 < v then -((LONG_MAX + 1 : Nat) : Int) else -(v : Int)
  else
    let v := strtol_digits (if t.head? = some 43 then t.tail else t) 0
    if LONG_MAX < v then (LONG_MAX : Int) else (v : Int)

/-- Conversion of a `long` to `size_t` (the assignment `*datalen_out = strtol(...)`). -/
def to_size_t (v : Int) : Nat := (v % (SIZE_MOD : Int)).toNat

/-- `MIN(x, y)` of sb-cat.c. -/
def MIN (x y : Nat) : Nat := if x ≤ y then x else y

/-! ## Helpers of common.h whose bodies are not in the sources -/

/-- Value of one lowercase hexadecimal digit. -/
def hexval (c : Nat) : Option Nat :=
  if 48 ≤ c ∧ c ≤ 57 then some (c - 48)
  else if 97 ≤ c ∧ c ≤ 102 then some (c - 87)
  else none

/-- Decoding of hexadecimal digits two by two. -/
def hex2bin_pairs : List Nat → Option (List Nat)
  | [] => some []
  | [_] => none
  | a :: b :: rest =>
    match hexval a, hexval b, hex2bin_pairs rest with
    | some x, some y, some r => some ((16 * x + y) :: r)
    | _, _, _ => none

/-- Modelled from the spec: `hex2bin(out, outlen, in, inlen)` of common.h, whose body is
not in the sources. A digest is written as exactly 2 x HASH_LEN lowercase hex
characters; any other length or a non-hex character is an error (a negative
return, here `none`). `inp` is the `inlen` characters passed in. -/
def hex2bin (outlen : Nat) (inp : List Nat) : Option (List Nat) :=
  if inp.length ≠ 2 * outlen then none else hex2bin_pairs inp

/-- The lowercase hexadecimal digit of a value below 16. -/
def hexdigit (n : Nat) : Nat := if n < 10 then 48 + n else 87 + n

/-- Modelled from the spec: `bin2hex` of common.h, whose body is not in the sources: the
external representation of a digest, two lowercase hex characters per byte,
high nibble first. -/
def bin2hex : List Nat → List Nat
  | [] => []
  | b :: bs => hexdigit (b / 16) :: hexdigit (b % 16) :: bin2hex bs

/-- What a block file of a store yields when it has been opened. -/
inductive File where
  | unreadable
  | content (bytes : List Nat)
  deriving DecidableEq

/-- Modelled from the spec: `read_bytes(fd, buf, buflen)` of common.h, whose body is not
in the sources, on a block file: it returns up to `buflen` bytes of the file
from its start, or an error (a negative count, here `none`). -/
def read_bytes (f : File) (buflen : Nat) : Option (List Nat) :=
  match f with
  | File.unreadable => none
  | File.content bs => some (bs.take buflen)

/-- Decimal digits of a number, most significant first, with a bound on the
number of digits. -/
def decimal_fuel : Nat → Nat → List Nat
  | 0, _ => []
  | fuel + 1, n =>
    if n < 10 then [48 + n] else decimal_fuel fuel (n / 10) ++ [48 + n % 10]

/-- The decimal representation `decimal(n)` used in a trailer line. -/
def decimal (n : Nat) : List Nat := decimal_fuel (n + 1) n

/-! ## Runs -/

/-- The diagnostics of the three tools, one constructor per `die` call. -/
inductive Diag where
  /-- Diagnostic "USAGE: ...". -/
  | usage
  /-- Diagnostic of gob-cat: "Unable to open store". -/
  | unable_to_open_store
  /-- Diagnostic of gob-cat: "Invalid index hash '%s'". -/
  | invalid_index_hash (line : List Nat)
  /-- Diagnostic of gob-cat, sb-cat: "Unable to open block '%s'". -/
  | unable_to_open_block (line : List Nat)
  /-- Diagnostic of gob-cat, sb-cat: "Unable to read block '%s'". -/
  | unable_to_read_block (line : List Nat)
  /-- Diagnostic of gob-cat, sb-cat: "Unable to write block '%s'". -/
  | unable_to_write_block (line : List Nat)
  /-- Diagnostic of gob-cat: "Unable to read index". -/
  | unable_to_read_index
  /-- Diagnostic of gob-cat, sb-cat: "Last line is not a trailer line". -/
  | last_line_not_trailer
  /-- Diagnostic of gob-cat: "Trailer is too short". -/
  | trailer_too_short
  /-- Diagnostic of gob-cat, sb-cat: "Unable to decode trailer hash". -/
  | unable_to_decode_trailer_hash
  /-- Diagnostic of gob-cat, sb-cat: "No separator between trailer hash and length". -/
  | no_separator
  /-- Diagnostic of gob-cat, sb-cat: "Invalid data length in trailer". -/
  | invalid_data_length
  /-- Diagnostic of gob-cat: "Size mismatch". -/
  | size_mismatch
  /-- Diagnostic of gob-cat: "Hash mismatch". -/
  | hash_mismatch
  /-- Diagnostic of sb-cat: "Unable to open storage '%s'". -/
  | unable_to_open_storage
  /-- Diagnostic of sb-cat: "Unable to read from stdin"; sb-decrypt: "Unable to read from stdin". -/
  | unable_to_read_stdin
  /-- Diagnostic of sb-cat: "Invalid input without trailer". -/
  | invalid_input_without_trailer
  /-- Diagnostic of sb-cat: "Invalid trailer hash". -/
  | invalid_trailer_hash
  /-- Diagnostic of sb-cat: "More lines, but all data read". -/
  | more_lines_but_all_data_read
  /-- Diagnostic of sb-cat: "Unable to decode hash". -/
  | unable_to_decode_hash
  /-- Diagnostic of sb-cat: "Unable to open sharding directory '%s'". -/
  | unable_to_open_shard (shard : List Nat)
  /-- Diagnostic of sb-cat: "Premature end of chain". -/
  | premature_end_of_chain
  /-- Diagnostic of sb-cat: "Trailer hash does not match computed hash". -/
  | trailer_hash_mismatch
  /-- Diagnostic of sb-decrypt: "Unable to initialize libsodium". -/
  | unable_to_init_sodium
  /-- Diagnostic of sb-decrypt: "Unable to read keyfile '%s'". -/
  | unable_to_read_keyfile
  /-- Diagnostic of sb-decrypt: "Unable to encrypt plaintext" (the message of a failed decryption). -/
  | unable_to_decrypt
  /-- Diagnostic of sb-decrypt: "Unable to write ciphertext to stdout". -/
  | unable_to_write_stdout
  deriving DecidableEq

/-- How a process ends. -/
inductive Exit where
  /-- `return 0` at the end of `main`. -/
  | success
  /-- `version(name)`: the banner is printed and the process exits with status 0. -/
  | version
  /-- `die` or `die_errno`: one diagnostic on standard error, non-zero status. -/
  | die (d : Diag)
  /-- The program left the behaviour defined by C (read outside of a buffer). -/
  | undefined
  deriving DecidableEq

instance {ε α : Type} [DecidableEq ε] [DecidableEq α] : DecidableEq (Except ε α) :=
  fun a b =>
    match a, b with
    | Except.ok x, Except.ok y =>
      if h : x = y then isTrue (congrArg Except.ok h)
      else isFalse (fun h1 => h (Except.ok.inj h1))
    | Except.error x, Except.error y =>
      if h : x = y then isTrue (congrArg Except.error h)
      else isFalse (fun h1 => h (Except.error.inj h1))
    | Except.ok _, Except.error _ => isFalse (fun h => Except.noConfusion h)
    | Except.error _, Except.ok _ => isFalse (fun h => Except.noConfusion h)

/-- Standard input and standard output of a process. -/
structure Streams where
  /-- The bytes that standard input delivers. -/
  stdin : List Nat
  /-- The read that follows the last byte reports an error instead of end of file. -/
  stdin_error : Bool
  /-- Whether `write_bytes(STDOUT_FILENO, buf, len)` succeeds, given the number
  of bytes written before and `len`. -/
  stdout_ok : Nat → Nat → Bool

/-- The observable behaviour of a run of gob-cat or sb-cat. -/
structure Run where
  exit : Exit
  /-- Bytes written to standard output, in order. -/
  out : List Nat
  /-- Names of the blocks the run tried to open, in order. -/
  opened : List (List Nat)
  deriving DecidableEq

/-- Successive results of `getline` on a byte stream: each line keeps its
terminating newline; the last one may lack it. -/
def getlines : List Nat → List (List Nat)
  | [] => []
  | b :: bs =>
    if b = 10 then [10] :: getlines bs
    else
      match getlines bs with
      | [] => [[b]]
      | l :: ls => (b :: l) :: ls

/-- The statement `if (line[linelen - 1] == '\n') line[--linelen] = '\0';`. -/
def chomp (line : List Nat) : List Nat :=
  if line.getLast? = some 10 then line.dropLast else line

/-! ## gob-cat (src/gob-cat.c) -/

namespace GobCat

/-- Everything gob-cat depends on besides its arguments. -/
structure Env where
  /-- `HASH_LEN` of config.h. -/
  HASH_LEN : Nat
  /-- `BLOCK_LEN` of config.h. -/
  BLOCK_LEN : Nat
  /-- `crypto_generichash` without key and with an output of `HASH_LEN` bytes. -/
  hash : List Nat → List Nat
  /-- `open_store(path)` followed by `open_block(storefd, name, 0)`: a store that
  can be opened maps a block name to the file opened for it, if any. -/
  open_store : List Nat → Option (List Nat → Option File)
  /-- Standard input and output. -/
  io : Streams

/-- `parse_trailer(hash_out, datalen_out, trailer)` of gob-cat.c, on the C string
`trailer`; the result is the pair `(hash_out, datalen_out)`. -/
def parse_trailer (HASH_LEN : Nat) (trailer : List Nat) : Except Diag (List Nat × Nat) :=
  if trailer.head? ≠ some 62 then Except.error Diag.last_line_not_trailer
  else
    let t := trailer.tail
    if t.length < HASH_LEN * 2 then Except.error Diag.trailer_too_short
    else
      match hex2bin HASH_LEN (t.take (HASH_LEN * 2)) with
      | none => Except.error Diag.unable_to_decode_trailer_hash
      | some hash_out =>
        let t := t.drop (HASH_LEN * 2)
        if t.head? ≠ some 32 then Except.error Diag.no_separator
        else
          let datalen_out := to_size_t (strtol t.tail)
          if datalen_out = 0 then Except.error Diag.invalid_data_length
          else Except.ok (hash_out, datalen_out)

/-- The variables of `main` that change in the loop, and the effects so far. -/
structure State where
  /-- Everything passed to `crypto_generichash_update` so far. -/
  hashed : List Nat
  /-- The counter `total`. -/
  total : Nat
  /-- Bytes written to standard output so far. -/
  out : List Nat
  /-- Block names passed to `open_block` so far. -/
  opened : List (List Nat)

/-- The part of `main` after the loop, for a loop that ended without a read
error: `line` is the C string in the line buffer. -/
def finish (env : Env) (st : State) (line : List Nat) : Run :=
  match parse_trailer env.HASH_LEN line with
  | Except.error d => ⟨Exit.die d, st.out, st.opened⟩
  | Except.ok (expected_trailer, expected_len) =>
    if st.total ≠ expected_len then ⟨Exit.die Diag.size_mismatch, st.out, st.opened⟩
    else if env.hash st.hashed ≠ expected_trailer then
      ⟨Exit.die Diag.hash_mismatch, st.out, st.opened⟩
    else ⟨Exit.success, st.out, st.opened⟩

/-- The loop `while ((linelen = getline(&line, &n, stdin)) > 0)` of `main` and
what follows it. The first argument lists the lines still to be read, `buf` is
the C string left in the line buffer by the previous iteration (`none` before
the first call of `getline`). -/
def loop (env : Env) (store : List Nat → Option File) :
    List (List Nat) → Option (List Nat) → State → Run
  | [], buf, st =>
    if env.io.stdin_error then ⟨Exit.die Diag.unable_to_read_index, st.out, st.opened⟩
    else
      match buf with
      | none => ⟨Exit.undefined, st.out, st.opened⟩
      | some line => finish env st line
  | raw :: rest, _, st =>
    if raw.head? = some 62 then finish env st (cstr raw)
    else
      let line := cstr (chomp raw)
      if strspn line hexdigits ≠ 2 * env.HASH_LEN then
        ⟨Exit.die (Diag.invalid_index_hash line), st.out, st.opened⟩
      else
        match store line with
        | none => ⟨Exit.die (Diag.unable_to_open_block line), st.out, st.opened ++ [line]⟩
        | some blockfd =>
          match read_bytes blockfd env.BLOCK_LEN with
          | none => ⟨Exit.die (Diag.unable_to_read_block line), st.out, st.opened ++ [line]⟩
          | some block =>
            if block.length = 0 then
              ⟨Exit.die (Diag.unable_to_read_block line), st.out, st.opened ++ [line]⟩
            else if env.io.stdout_ok st.out.length block.length = false then
              ⟨Exit.die (Diag.unable_to_write_block line), st.out, st.opened ++ [line]⟩
            else
              loop env store rest (some line)
                { hashed := st.hashed ++ block
                  total := (st.total + block.length) % SIZE_MOD
                  out := st.out ++ block
                  opened := st.opened ++ [line] }

/-- The state at the entry of the loop. -/
def State.init : State := ⟨[], 0, [], []⟩

/-- `main(argc, argv)` of gob-cat.c; `argv` includes the program name. -/
def main (env : Env) (argv : List (List Nat)) : Run :=
  if argv.length ≠ 2 then ⟨Exit.die Diag.usage, [], []⟩
  else if argv.get? 1 = some (bytesOf "--version") then ⟨Exit.version, [], []⟩
  else
    match env.open_store (argv.getD 1 []) with
    | none => ⟨Exit.die Diag.unable_to_open_store, [], []⟩
    | some store => loop env store (getlines env.io.stdin) none State.init

end GobCat

/-! ## sb-cat (src/sb-cat.c) -/

namespace SbCat

/-- Everything sb-cat depends on besides its arguments. -/
structure Env where
  /-- `HASH_LEN` of config.h. -/
  HASH_LEN : Nat
  /-- `BLOCK_LEN` of config.h. -/
  BLOCK_LEN : Nat
  /-- `crypto_generichash` without key and with an output of `HASH_LEN` bytes. -/
  hash : List Nat → List Nat
  /-- `open(path, O_DIRECTORY)`: a storage directory that can be opened maps a
  shard name to the shard directory (`openat(dirfd, shard, O_DIRECTORY)`), which
  maps a file name to the file opened for it (`openat(shardfd, name, O_RDONLY)`). -/
  open_dir : List Nat → Option (List Nat → Option (List Nat → Option File))
  /-- Standard input and output. -/
  io : Streams

/-- The result of `find_last_line`. -/
inductive Line where
  /-- The function read outside of the string and its result depends on what it found. -/
  | undefined
  /-- The null pointer. -/
  | null
  /-- A pointer into the string, as an offset from its start. -/
  | at (offset : Nat)
  deriving DecidableEq

/-- The loop `while (*end == '\n') end--;` entered with `end = string + e`: the
offset at which it stops, or `none` when it steps below the start of the string. -/
def skip_newlines (string : List Nat) : Nat → Option Nat
  | 0 => if string.get? 0 = some 10 then none else some 0
  | e + 1 => if string.get? (e + 1) = some 10 then skip_newlines string e else some (e + 1)

/-- The loop `while (end[-1] != '\n' && end > string) end--;` entered with
`end = string + e`: the offset at which it stops. At `end == string` the byte
before the string is read, but whatever it is the loop stops there. -/
def line_start (string : List Nat) : Nat → Nat
  | 0 => 0
  | e + 1 => if string.get? e ≠ some 10 then line_start string e else e + 1

/-- `find_last_line(string)` of sb-cat.c. -/
def find_last_line (string : List Nat) : Line :=
  if string = [] then Line.undefined
  else
    match skip_newlines string (string.length - 1) with
    | none => Line.undefined
    | some e =>
      let e := line_start string e
      if e = 0 then Line.null else Line.at e

/-- The loop of `parse_trailer` that copies `n` characters of the trailer into
`hash`, on the memory `mem` that starts at the pointer `trailer`; the result is
`hash` and the memory that starts at the advanced pointer. -/
def read_trailer_hash : Nat → List Nat → Except Exit (List Nat × List Nat)
  | 0, mem => Except.ok ([], mem)
  | _ + 1, [] => Except.error Exit.undefined
  | n + 1, h :: mem =>
    if strchr hexdigits h = false then Except.error (Exit.die Diag.invalid_trailer_hash)
    else
      match read_trailer_hash n mem with
      | Except.error e => Except.error e
      | Except.ok (hash, rest) => Except.ok (h :: hash, rest)

/-- `parse_trailer(hash_out, datalen_out, chain)` of sb-cat.c. The buffer `chain`
holds the bytes of standard input followed by one NUL; the result is the pair
`(hash_out, datalen_out)`. -/
def parse_trailer (HASH_LEN : Nat) (stdin : List Nat) : Except Exit (List Nat × Nat) :=
  match find_last_line (cstr stdin) with
  | Line.undefined => Except.error Exit.undefined
  | Line.null => Except.error (Exit.die Diag.invalid_input_without_trailer)
  | Line.at offset =>
    let trailer := (stdin ++ [0]).drop offset
    if trailer.head? ≠ some 62 then Except.error (Exit.die Diag.last_line_not_trailer)
    else
      match read_trailer_hash (HASH_LEN * 2) trailer.tail with
      | Except.error e => Except.error e
      | Except.ok (hash, trailer) =>
        match trailer with
        | [] => Except.error Exit.undefined
        | c :: _ =>
          if c ≠ 32 then Except.error (Exit.die Diag.no_separator)
          else
            let datalen_out := to_size_t (strtol (cstr trailer))
            if datalen_out = 0 then Except.error (Exit.die Diag.invalid_data_length)
            else
              match hex2bin HASH_LEN hash with
              | none => Except.error (Exit.die Diag.unable_to_decode_trailer_hash)
              | some hash_out => Except.ok (hash_out, datalen_out)

/-- The pieces of a string between newlines, empty pieces included. -/
def split_newline : List Nat → List (List Nat)
  | [] => [[]]
  | b :: bs =>
    if b = 10 then [] :: split_newline bs
    else
      match split_newline bs with
      | [] => [[b]]
      | t :: ts => (b :: t) :: ts

/-- The successive non-null results of `strtok(chain, "\n")`, `strtok(NULL, "\n")`, ...:
the maximal non-empty runs of bytes other than newline. -/
def strtok_all (chain : List Nat) : List (List Nat) :=
  (split_newline chain).filter (fun t => !t.isEmpty)

/-- `read_block(out, dirfd, hash)` of sb-cat.c; the result is `out->data`. -/
def read_block (BLOCK_LEN : Nat) (dirfd : List Nat → Option (List Nat → Option File))
    (hash : List Nat) : Except Diag (List Nat) :=
  let shard := hash.take 2
  match dirfd shard with
  | none => Except.error (Diag.unable_to_open_shard shard)
  | some shardfd =>
    match shardfd (hash.drop 2) with
    | none => Except.error (Diag.unable_to_open_block hash)
    | some fd =>
      match read_bytes fd BLOCK_LEN with
      | none => Except.error (Diag.unable_to_read_block hash)
      | some data =>
        if data.length ≠ BLOCK_LEN then Except.error (Diag.unable_to_read_block hash)
        else Except.ok data

/-- The variables of `main` that change in the loop, and the effects so far. -/
structure State where
  /-- Everything passed to `crypto_generichash_update` so far. -/
  hashed : List Nat
  /-- The variable `data_len`: the declared length not yet written. -/
  data_len : Nat
  /-- Bytes written to standard output so far. -/
  out : List Nat
  /-- Block names passed to `read_block` so far. -/
  opened : List (List Nat)

/-- The part of `main` after the loop. -/
def finish (env : Env) (trailer_hash : List Nat) (st : State) : Run :=
  if st.data_len ≠ 0 then ⟨Exit.die Diag.premature_end_of_chain, st.out, st.opened⟩
  else if env.hash st.hashed ≠ trailer_hash then
    ⟨Exit.die Diag.trailer_hash_mismatch, st.out, st.opened⟩
  else ⟨Exit.success, st.out, st.opened⟩

/-- The loop `while ((hash = strtok(haystack, "\n")) != NULL)` of `main` and what
follows it; the first list holds the tokens still to come. -/
def loop (env : Env) (dirfd : List Nat → Option (List Nat → Option File))
    (trailer_hash : List Nat) : List (List Nat) → State → Run
  | [], st => finish env trailer_hash st
  | hash :: rest, st =>
    let blocklen := MIN st.data_len env.BLOCK_LEN
    if hash.head? = some 62 then finish env trailer_hash st
    else if st.data_len = 0 then
      ⟨Exit.die Diag.more_lines_but_all_data_read, st.out, st.opened⟩
    else
      match hex2bin env.HASH_LEN hash with
      | none => ⟨Exit.die Diag.unable_to_decode_hash, st.out, st.opened⟩
      | some _ =>
        match read_block env.BLOCK_LEN dirfd hash with
        | Except.error d => ⟨Exit.die d, st.out, st.opened ++ [hash]⟩
        | Except.ok data =>
          if env.io.stdout_ok st.out.length blocklen = false then
            ⟨Exit.die (Diag.unable_to_write_block hash), st.out, st.opened ++ [hash]⟩
          else
            loop env dirfd trailer_hash rest
              { hashed := st.hashed ++ data
                data_len := st.data_len - blocklen
                out := st.out ++ data.take blocklen
                opened := st.opened ++ [hash] }

/-- `main(argc, argv)` of sb-cat.c; `argv` includes the program name. -/
def main (env : Env) (argv : List (List Nat)) : Run :=
  if argv.length ≠ 2 then ⟨Exit.die Diag.usage, [], []⟩
  else
    match env.open_dir (argv.getD 1 []) with
    | none => ⟨Exit.die Diag.unable_to_open_storage, [], []⟩
    | some dirfd =>
      if env.io.stdin_error then ⟨Exit.die Diag.unable_to_read_stdin, [], []⟩
      else
        match parse_trailer env.HASH_LEN env.io.stdin with
        | Except.error e => ⟨e, [], []⟩
        | Except.ok (trailer_hash, data_len) =>
          loop env dirfd trailer_hash (strtok_all (cstr env.io.stdin)) ⟨[], data_len, [], []⟩

end SbCat

/-! ## sb-decrypt (src/sb-decrypt.c) -/

namespace SbDecrypt

/-- Everything sb-decrypt depends on besides its arguments. -/
structure Env where
  /-- `BLOCK_LEN` of config.h. -/
  BLOCK_LEN : Nat
  /-- `crypto_aead_chacha20poly1305_NPUBBYTES`. -/
  NPUBBYTES : Nat
  /-- Whether `sodium_init()` succeeds. -/
  sodium_init : Bool
  /-- `read_key(key, sizeof(key), file)`: the key read from a key file, if any. -/
  read_key : List Nat → Option (List Nat)
  /-- `crypto_aead_chacha20poly1305_decrypt` without associated data, as a
  function of key, nonce and ciphertext: the plaintext (of the recovered
  length `plainlen`), or `none` when authentication fails. -/
  decrypt : List Nat → List Nat → List Nat → Option (List Nat)
  /-- Standard input and output. -/
  io : Streams

/-- The observable behaviour of a run of sb-decrypt. -/
structure Run where
  exit : Exit
  /-- Bytes written to standard output, in order. -/
  out : List Nat
  /-- The calls of the decryption primitive, in order: nonce and ciphertext. -/
  calls : List (List Nat × List Nat)
  /-- The nonce buffer when the process ends. -/
  nonce : List Nat
  deriving DecidableEq

/-- The loop of `sodium_increment` entered with carry `c`:
`c += n[i]; n[i] = (unsigned char) c; c >>= 8`. -/
def sodium_increment_carry : List Nat → Nat → List Nat
  | [], _ => []
  | b :: bs, c => ((c + b) % 256) :: sodium_increment_carry bs ((c + b) / 256)

/-- Modelled from the spec: `sodium_increment(n, nlen)` is a function of libsodium and
not part of the sources. It increments the buffer by one, as an unsigned
little-endian integer spanning the whole buffer: a byte-wise addition that
starts with carry 1. -/
def sodium_increment (n : List Nat) : List Nat := sodium_increment_carry n 1

/-- Modelled from the spec: the successive non-empty results of
`read_bytes(STDIN_FILENO, cipher, BLOCK_LEN)` (the body of `read_bytes` is not in
the sources): chunks of `BLOCK_LEN` bytes, the last one possibly shorter; the
first argument bounds the number of chunks. -/
def read_chunks (BLOCK_LEN : Nat) : Nat → List Nat → List (List Nat)
  | 0, _ => []
  | fuel + 1, s =>
    if BLOCK_LEN = 0 ∨ s = [] then []
    else s.take BLOCK_LEN :: read_chunks BLOCK_LEN fuel (s.drop BLOCK_LEN)

/-- The variables of `main` that change in the loop, and the effects so far. -/
structure State where
  /-- The buffer `nonce`. -/
  nonce : List Nat
  /-- Bytes written to standard output so far. -/
  out : List Nat
  /-- Calls of the decryption primitive so far. -/
  calls : List (List Nat × List Nat)

/-- The loop `while ((cipherlen = read_bytes(STDIN_FILENO, cipher, BLOCK_LEN)) > 0)`
of `main` and what follows it; the list holds the chunks still to be read. -/
def loop (env : Env) (key : List Nat) : List (List Nat) → State → Run
  | [], st =>
    if env.io.stdin_error then ⟨Exit.die Diag.unable_to_read_stdin, st.out, st.calls, st.nonce⟩
    else ⟨Exit.success, st.out, st.calls, st.nonce⟩
  | cipher :: rest, st =>
    match env.decrypt key st.nonce cipher with
    | none =>
      ⟨Exit.die Diag.unable_to_decrypt, st.out, st.calls ++ [(st.nonce, cipher)], st.nonce⟩
    | some plain =>
      if env.io.stdout_ok st.out.length plain.length = false then
        ⟨Exit.die Diag.unable_to_write_stdout, st.out, st.calls ++ [(st.nonce, cipher)], st.nonce⟩
      else
        loop env key rest
          { nonce := sodium_increment st.nonce
            out := st.out ++ plain
            calls := st.calls ++ [(st.nonce, cipher)] }

/-- The chunks that the loop of `main` reads from standard input. -/
def chunks (env : Env) : List (List Nat) :=
  read_chunks env.BLOCK_LEN env.io.stdin.length env.io.stdin

/-- `main(argc, argv)` of sb-decrypt.c; `argv` includes the program name. -/
def main (env : Env) (argv : List (List Nat)) : Run :=
  if argv.length < 2 then ⟨Exit.die Diag.usage, [], [], []⟩
  else if env.sodium_init = false then ⟨Exit.die Diag.unable_to_init_sodium, [], [], []⟩
  else
    match env.read_key (argv.getD 1 []) with
    | none => ⟨Exit.die Diag.unable_to_read_keyfile, [], [], []⟩
    | some key => loop env key (chunks env) ⟨List.replicate env.NPUBBYTES 0, [], []⟩

end SbDecrypt

/-! ## Vocabulary of the specification -/

/-- A line of exactly `2 * H` lowercase hexadecimal characters. -/
def IsHashLine (H : Nat) (l : List Nat) : Prop :=
  l.length = 2 * H ∧ ∀ c ∈ l, c ∈ hexdigits

/-- A non-empty line of text: no newline and no NUL in it. -/
def IsLine (l : List Nat) : Prop :=
  l ≠ [] ∧ ∀ c ∈ l, c ≠ 10 ∧ c ≠ 0

instance (l : List Nat) : Decidable (IsLine l) := by
  unfold IsLine; infer_instance

instance (H : Nat) (l : List Nat) : Decidable (IsHashLine H l) := by
  unfold IsHashLine; infer_instance

/-- The chain text made of the given lines, each ended by a newline, followed
by `tail` (the trailer line and whatever comes after it). -/
def chain_text (lines : List (List Nat)) (tail : List Nat) : List Nat :=
  (lines.map (fun l => l ++ [10])).flatten ++ tail

/-- The trailer line `'>' || hex(digest) || ' ' || decimal(length)` with its newline. -/
def trailer_line (digest : List Nat) (length : Nat) : List Nat :=
  62 :: (bin2hex digest ++ 32 :: (decimal length ++ [10]))

/-- The store in which the byte at position `i` of the block named `name` is
replaced by `v`. -/
def tamper (store : List Nat → Option File) (name : List Nat) (i v : Nat) :
    List Nat → Option File :=
  fun m =>
    if m = name then
      match store m with
      | some (File.content bs) => some (File.content (bs.set i v))
      | other => other
    else store m

namespace GobCat

/-- The store that a run of gob-cat with arguments `argv` works on. -/
def store_of (env : Env) (argv : List (List Nat)) : List Nat → Option File :=
  match env.open_store (argv.getD 1 []) with
  | some store => store
  | none => fun _ => none

/-- The bytes that gob-cat obtains from a store for a block name: what
`read_bytes` returns on the file that `open_block` opens (nothing if either fails). -/
def fetch (BLOCK_LEN : Nat) (store : List Nat → Option File) (name : List Nat) : List Nat :=
  match store name with
  | some f => (read_bytes f BLOCK_LEN).getD []
  | none => []

/-- The bytes that a run of gob-cat with arguments `argv` obtains for a block name. -/
def block_of (env : Env) (argv : List (List Nat)) (name : List Nat) : List Nat :=
  fetch env.BLOCK_LEN (store_of env argv) name

/-- The environment in which one byte of one stored block is changed. -/
def Env.tamper (env : Env) (name : List Nat) (i v : Nat) : Env :=
  { env with open_store := fun p => (env.open_store p).map (fun s => Gob.tamper s name i v) }

end GobCat

/-! ## Concrete environments

`config.h` and the hash function are parameters of the embedding; the concrete
runs below use `HASH_LEN = 2`, `BLOCK_LEN = 4` and a checksum in place of the
hash function. -/

/-- A checksum standing in for the hash function in concrete runs: `n` copies
of the sum of the bytes modulo 256. -/
def checksum (n : Nat) (bs : List Nat) : List Nat := List.replicate n (bs.sum % 256)

namespace GobCat

/-- A flat store with the blocks `[1, 2, 3, 4]` and `[5, 6]` under the hex
checksums of their contents. -/
def store_a : List Nat → Option File := fun name =>
  if name = bytesOf "0a0a" then some (File.content [1, 2, 3, 4])
  else if name = bytesOf "0b0b" then some (File.content [5, 6])
  else none

/-- An environment of gob-cat over `store_a`, found under the path "store",
with the given chain text on standard input. -/
def env_a (stdin : List Nat) : Env :=
  { HASH_LEN := 2
    BLOCK_LEN := 4
    hash := checksum 2
    open_store := fun p => if p = bytesOf "store" then some store_a else none
    io := ⟨stdin, false, fun _ _ => true⟩ }

/-- The store `store_a` with one more block, under a name that is a hex digest
followed by the letter z. -/
def store_z : List Nat → Option File := fun name =>
  if name = bytesOf "0a0az" then some (File.content [7, 8]) else store_a name

/-- An environment of gob-cat over `store_z`, found under the path "store". -/
def env_z (stdin : List Nat) : Env :=
  { HASH_LEN := 2
    BLOCK_LEN := 4
    hash := checksum 2
    open_store := fun p => if p = bytesOf "store" then some store_z else none
    io := ⟨stdin, false, fun _ _ => true⟩ }

/-- An environment of gob-cat with `HASH_LEN = 32` and `BLOCK_LEN = 4096` over an
empty store. -/
def env_h32 (stdin : List Nat) : Env :=
  { HASH_LEN := 32
    BLOCK_LEN := 4096
    hash := checksum 32
    open_store := fun _ => some (fun _ => none)
    io := ⟨stdin, false, fun _ _ => true⟩ }

/-- A line of 64 hex digits followed by the letter z. -/
def line_z : List Nat :=
  bytesOf "0123456789abcdef0123456789abcdef0123456789abcdef0123456789abcdefz"

/-- The arguments of the concrete runs of gob-cat. -/
def argv_a : List (List Nat) := [bytesOf "gob-cat", bytesOf "store"]

end GobCat

namespace SbDecrypt

/-- The unsigned little-endian encoding of `v` modulo `256 ^ w` over `w` bytes. -/
def le_bytes : Nat → Nat → List Nat
  | 0, _ => []
  | w + 1, v => (v % 256) :: le_bytes w (v / 256)

/-- The number that a byte string encodes in little-endian order. -/
def le_value : List Nat → Nat
  | [] => 0
  | b :: bs => b + 256 * le_value bs

/-- A stand-in for the AEAD primitive in concrete runs: the first byte of a
chunk is its tag, valid when it is the sum of the key bytes and the value of
the nonce plus one, modulo 256; the rest of the chunk is the plaintext. -/
def tag_decrypt (key nonce cipher : List Nat) : Option (List Nat) :=
  match cipher with
  | [] => none
  | t :: body => if t = (key.sum + le_value nonce + 1) % 256 then some body else none

/-- An environment of sb-decrypt with chunks of 4 bytes, nonces of 2 bytes and
the key `[7]` in the key file "key". -/
def env_d (stdin : List Nat) : Env :=
  { BLOCK_LEN := 4
    NPUBBYTES := 2
    sodium_init := true
    read_key := fun p => if p = bytesOf "key" then some [7] else none
    decrypt := tag_decrypt
    io := ⟨stdin, false, fun _ _ => true⟩ }

/-- The arguments of the concrete runs of sb-decrypt. -/
def argv_d : List (List Nat) := [bytesOf "sb-decrypt", bytesOf "key"]

end SbDecrypt

namespace SbCat

/-- The sharded store holds under `name` a block file whose content `data` is
exactly `BLOCK_LEN` bytes long. -/
def Stored (BLOCK_LEN : Nat) (dirfd : List Nat → Option (List Nat → Option File))
    (name data : List Nat) : Prop :=
  ∃ shardfd, dirfd (name.take 2) = some shardfd ∧
    shardfd (name.drop 2) = some (File.content data) ∧ data.length = BLOCK_LEN

/-- A shard directory holding the blocks `[1, 2, 3, 4]` under "cd" and
`[5, 6, 7, 8]` under "ce". -/
def shard_ab : List Nat → Option File := fun name =>
  if name = bytesOf "cd" then some (File.content [1, 2, 3, 4])
  else if name = bytesOf "ce" then some (File.content [5, 6, 7, 8])
  else none

/-- A sharded store whose only shard is "ab", the directory `shard_ab`. -/
def dir_b : List Nat → Option (List Nat → Option File) := fun shard =>
  if shard = bytesOf "ab" then some shard_ab else none

/-- An environment of sb-cat over `dir_b`, found under the path "store", with
the given chain text on standard input. -/
def env_b (stdin : List Nat) : Env :=
  { HASH_LEN := 2
    BLOCK_LEN := 4
    hash := checksum 2
    open_dir := fun p => if p = bytesOf "store" then some dir_b else none
    io := ⟨stdin, false, fun _ _ => true⟩ }

/-- The arguments of the concrete runs of sb-cat. -/
def argv_b : List (List Nat) := [bytesOf "sb-cat", bytesOf "store"]

end SbCat

end Gob

namespace Gob

/-! ## Decimal numbers -/

/-- The number that a string of decimal digits denotes. -/
def digits_value (ds : List Nat) : Nat := ds.foldl (fun a c => a * 10 + (c - 48)) 0

/-- A decimal number: a non-empty string of decimal digits. -/
def IsDecimal (s : List Nat) : Prop := s ≠ [] ∧ ∀ c ∈ s, isdigit c = true

instance (s : List Nat) : Decidable (IsDecimal s) := by
  unfold IsDecimal; infer_instance

end Gob

namespace Gob

/-! ## Lines of a text -/

/-- The text has a line that begins with '>': it begins with '>', or a '>'
follows a newline somewhere in it. -/
def HasTrailerLine (t : List Nat) : Prop :=
  t.head? = some 62 ∨ (10, 62) ∈ t.zip t.tail

instance (t : List Nat) : Decidable (HasTrailerLine t) := by
  unfold HasTrailerLine; infer_instance

end Gob

namespace Gob

/-- The environment of gob-cat with another text on standard input. -/
def GobCat.Env.with_stdin (env : GobCat.Env) (t : List Nat) : GobCat.Env :=
  { env with io := { env.io with stdin := t } }

/-- The environment of sb-cat with another text on standard input. -/
def SbCat.Env.with_stdin (env : SbCat.Env) (t : List Nat) : SbCat.Env :=
  { env with io := { env.io with stdin := t } }

end Gob

namespace Gob
namespace SbCat

/-! ## The iterations of the loop of sb-cat -/

/-- One iteration of the loop of `main` of sb-cat that runs to its end, from
`size_t blocklen = MIN(data_len, BLOCK_LEN)` to `data_len -= blocklen`, as a
function of the line `hash` and of the variables at its start; `none` when
the iteration leaves the loop (`break`) or ends the process (`die`). -/
def step (env : Env) (dirfd : List Nat → Option (List Nat → Option File))
    (hash : List Nat) (st : State) : Option State :=
  let blocklen := MIN st.data_len env.BLOCK_LEN
  if hash.head? = some 62 then none
  else if st.data_len = 0 then none
  else
    match hex2bin env.HASH_LEN hash with
    | none => none
    | some _ =>
      match read_block env.BLOCK_LEN dirfd hash with
      | Except.error _ => none
      | Except.ok data =>
        if env.io.stdout_ok st.out.length blocklen = false then none
        else
          some
            { hashed := st.hashed ++ data
              data_len := st.data_len - blocklen
              out := st.out ++ data.take blocklen
              opened := st.opened ++ [hash] }

/-- The variables of `main` at the start of each iteration of the loop over the
given lines, in order, followed by their values when the loop ends because the
lines are exhausted. -/
def states (env : Env) (dirfd : List Nat → Option (List Nat → Option File)) :
    List (List Nat) → State → List State
  | [], st => [st]
  | hash :: rest, st =>
    st :: (match step env dirfd hash st with
      | none => []
      | some st' => states env dirfd rest st')

end SbCat
end Gob

namespace Gob

/-! ## Malformed trailers -/

/-- A length field from which `strtol` reads no number other than zero: the
field does not begin with white space or a sign, and its leading run of decimal
digits is empty or has the value zero. -/
def NoLength (field : List Nat) : Prop :=
  (∀ c ∈ field.take 1, isspace c = false ∧ c ≠ 43 ∧ c ≠ 45) ∧
  digits_value (field.takeWhile isdigit) = 0

/-- A line that is not a well-formed trailer for digests of `H` bytes: it does
not begin with '>', or fewer than 2 * H characters follow the '>', or one of
the 2 * H characters of the hash segment is not a hex character, or the
character after the hash segment is not a space, or the length field after
that space holds no number other than zero. -/
def MalformedTrailer (H : Nat) (line : List Nat) : Prop :=
  line.head? ≠ some 62 ∨
  line.tail.length < 2 * H ∨
  (∃ c ∈ line.tail.take (2 * H), c ∉ hexdigits) ∨
  (line.tail.drop (2 * H)).head? ≠ some 32 ∨
  NoLength (line.tail.drop (2 * H + 1))

/-- The text ends inside the hash segment of its last line: no newline follows
the line, which begins with '>' and goes on with fewer than 2 * H characters,
all of them hex characters. -/
def EndsInHash (H : Nat) (line nls : List Nat) : Prop :=
  nls = [] ∧ line.head? = some 62 ∧ line.tail.length < 2 * H ∧
    ∀ c ∈ line.tail, c ∈ hexdigits

instance (H : Nat) (line nls : List Nat) : Decidable (EndsInHash H line nls) := by
  unfold EndsInHash; infer_instance

instance (field : List Nat) : Decidable (NoLength field) := by
  unfold NoLength; infer_instance

instance (H : Nat) (line : List Nat) : Decidable (MalformedTrailer H line) := by
  unfold MalformedTrailer; infer_instance

end Gob

/-! # Theorems -/

namespace Gob

/-! ## Hexadecimal text -/

theorem mem_hexdigits_iff (c : Nat) :
    c ∈ hexdigits ↔ (48 ≤ c ∧ c ≤ 57) ∨ (97 ≤ c ∧ c ≤ 102) := by
  simp only [hexdigits, List.mem_cons, List.mem_singleton, List.mem_nil_iff, or_false]
  omega

theorem hexdigit_mem (n : Nat) (h : n < 16) : hexdigit n ∈ hexdigits := by
  rw [mem_hexdigits_iff]
  unfold hexdigit
  split <;> omega

theorem hexval_hexdigit (n : Nat) (h : n < 16) : hexval (hexdigit n) = some n := by
  unfold hexval hexdigit
  by_cases h10 : n < 10
  · have h1 : 48 ≤ 48 + n ∧ 48 + n ≤ 57 := by omega
    simp [h10, h1]
  · have h1 : ¬ (48 ≤ 87 + n ∧ 87 + n ≤ 57) := by omega
    have h2 : 97 ≤ 87 + n ∧ 87 + n ≤ 102 := by omega
    simp [h10, h1, h2]

theorem length_bin2hex (bs : List Nat) : (bin2hex bs).length = 2 * bs.length := by
  induction bs with
  | nil => rfl
  | cons b bs ih => simp [bin2hex, ih]; omega

theorem bin2hex_mem (bs : List Nat) (hb : ∀ b ∈ bs, b < 256) :
    ∀ c ∈ bin2hex bs, c ∈ hexdigits := by
  induction bs with
  | nil => intro c hc; simp [bin2hex] at hc
  | cons b bs ih =>
    intro c hc
    have hb0 : b < 256 := hb b (List.mem_cons_self _ _)
    simp only [bin2hex, List.mem_cons] at hc
    rcases hc with hc | hc | hc
    · subst hc; exact hexdigit_mem _ (by omega)
    · subst hc; exact hexdigit_mem _ (by omega)
    · exact ih (fun x hx => hb x (List.mem_cons_of_mem _ hx)) c hc

theorem hex2bin_pairs_bin2hex (bs : List Nat) (hb : ∀ b ∈ bs, b < 256) :
    hex2bin_pairs (bin2hex bs) = some bs := by
  induction bs with
  | nil => rfl
  | cons b bs ih =>
    have hb0 : b < 256 := hb b (List.mem_cons_self _ _)
    have ih1 := ih (fun x hx => hb x (List.mem_cons_of_mem _ hx))
    have e : 16 * (b / 16) + b % 16 = b := by omega
    simp [bin2hex, hex2bin_pairs, hexval_hexdigit (b / 16) (by omega),
      hexval_hexdigit (b % 16) (by omega), ih1, e]

theorem hex2bin_bin2hex (n : Nat) (bs : List Nat) (hl : bs.length = n)
    (hb : ∀ b ∈ bs, b < 256) : hex2bin n (bin2hex bs) = some bs := by
  unfold hex2bin
  simp [length_bin2hex, hl, hex2bin_pairs_bin2hex bs hb]

theorem isHashLine_bin2hex (n : Nat) (bs : List Nat) (hl : bs.length = n)
    (hb : ∀ b ∈ bs, b < 256) : IsHashLine n (bin2hex bs) :=
  ⟨by rw [length_bin2hex, hl], bin2hex_mem bs hb⟩

theorem takeWhile_eq_self_of_all {α : Type} (p : α → Bool) (l : List α) (h : ∀ a ∈ l, p a = true) :
    l.takeWhile p = l := by
  induction l with
  | nil => rfl
  | cons a l ih =>
    rw [List.takeWhile_cons_of_pos (h a (List.mem_cons_self _ _)),
      ih (fun x hx => h x (List.mem_cons_of_mem _ hx))]

theorem hex_ne_zero (c : Nat) (h : c ∈ hexdigits) : c ≠ 0 := by
  rw [mem_hexdigits_iff] at h; omega

theorem hex_ne_newline (c : Nat) (h : c ∈ hexdigits) : c ≠ 10 := by
  rw [mem_hexdigits_iff] at h; omega

theorem hex_ne_gt (c : Nat) (h : c ∈ hexdigits) : c ≠ 62 := by
  rw [mem_hexdigits_iff] at h; omega

theorem cstr_of_no_nul (l : List Nat) (h : ∀ c ∈ l, c ≠ 0) : cstr l = l := by
  unfold cstr
  apply takeWhile_eq_self_of_all
  intro a ha
  simpa using h a ha

theorem strspn_hex_all (l : List Nat) (h : ∀ c ∈ l, c ∈ hexdigits) :
    strspn l hexdigits = l.length := by
  unfold strspn
  rw [takeWhile_eq_self_of_all]
  intro a ha
  simpa using h a ha

/-! ## Decimal text and `strtol` -/

theorem strtol_digits_append (ds rest : List Nat) (acc : Nat)
    (hd : ∀ c ∈ ds, isdigit c = true) :
    strtol_digits (ds ++ rest) acc =
      strtol_digits rest (ds.foldl (fun a c => a * 10 + (c - 48)) acc) := by
  induction ds generalizing acc with
  | nil => rfl
  | cons d ds ih =>
    have h0 : isdigit d = true := hd d (List.mem_cons_self _ _)
    simp only [List.cons_append, strtol_digits, h0, if_true, List.foldl_cons]
    exact ih _ (fun x hx => hd x (List.mem_cons_of_mem _ hx))

theorem decimal_fuel_spec (fuel n : Nat) (h : n < fuel) :
    (∀ c ∈ decimal_fuel fuel n, isdigit c = true) ∧
    (decimal_fuel fuel n).foldl (fun a c => a * 10 + (c - 48)) 0 = n ∧
    decimal_fuel fuel n ≠ [] := by
  induction fuel generalizing n with
  | zero => omega
  | succ fuel ih =>
    unfold decimal_fuel
    by_cases h10 : n < 10
    · simp only [h10, if_true]
      refine ⟨?_, ?_, by simp⟩
      · intro c hc
        simp only [List.mem_singleton] at hc
        subst hc
        simp [isdigit]; omega
      · simp
    · simp only [h10, if_false]
      have hlt : n / 10 < fuel := by omega
      obtain ⟨h1, h2, _⟩ := ih (n / 10) hlt
      refine ⟨?_, ?_, by simp⟩
      · intro c hc
        rw [List.mem_append] at hc
        rcases hc with hc | hc
        · exact h1 c hc
        · simp only [List.mem_singleton] at hc
          subst hc
          simp [isdigit]; omega
      · rw [List.foldl_append, h2]
        simp only [List.foldl_cons, List.foldl_nil]
        omega

theorem decimal_digits (n : Nat) : ∀ c ∈ decimal n, isdigit c = true :=
  (decimal_fuel_spec (n + 1) n (by omega)).1

theorem decimal_value (n : Nat) :
    (decimal n).foldl (fun a c => a * 10 + (c - 48)) 0 = n :=
  (decimal_fuel_spec (n + 1) n (by omega)).2.1

theorem decimal_ne_nil (n : Nat) : decimal n ≠ [] :=
  (decimal_fuel_spec (n + 1) n (by omega)).2.2

theorem strtol_digits_stop (rest : List Nat) (acc : Nat)
    (h : ∀ c, rest.head? = some c → isdigit c = false) : strtol_digits rest acc = acc := by
  cases rest with
  | nil => rfl
  | cons c cs => simp [strtol_digits, h c rfl]

theorem strtol_decimal (n : Nat) (rest : List Nat) (hn : n ≤ LONG_MAX)
    (h : ∀ c, rest.head? = some c → isdigit c = false) :
    strtol (decimal n ++ rest) = (n : Int) := by
  obtain ⟨d, ds, hd⟩ := List.exists_cons_of_ne_nil (decimal_ne_nil n)
  have hdig := decimal_digits n
  have hval := decimal_value n
  have hd0 : isdigit d = true := by
    apply hdig; rw [hd]; exact List.mem_cons_self _ _
  have hsp : isspace d = false := by
    simp only [isdigit, Bool.and_eq_true, decide_eq_true_eq] at hd0
    simp only [isspace, Bool.or_eq_false_iff, Bool.and_eq_false_iff, beq_eq_false_iff_ne,
      decide_eq_false_iff_not]
    omega
  have h45 : d ≠ 45 := by
    simp only [isdigit, Bool.and_eq_true, decide_eq_true_eq] at hd0; omega
  have h43 : d ≠ 43 := by
    simp only [isdigit, Bool.and_eq_true, decide_eq_true_eq] at hd0; omega
  have hdrop : (decimal n ++ rest).dropWhile isspace = decimal n ++ rest := by
    rw [hd, List.cons_append, List.dropWhile_cons_of_neg (by simp [hsp])]
  unfold strtol
  simp only [hdrop]
  have hhead : (decimal n ++ rest).head? = some d := by rw [hd]; rfl
  simp only [hhead, Option.some.injEq, h45, h43, if_false]
  rw [strtol_digits_append _ _ _ hdig, hval, strtol_digits_stop _ _ h]
  have : ¬ LONG_MAX < n := by omega
  simp [this]

theorem to_size_t_natCast (n : Nat) (h : n < SIZE_MOD) : to_size_t (n : Int) = n := by
  unfold to_size_t
  have : ((n : Int) % (SIZE_MOD : Int)) = (n : Int) := by
    apply Int.emod_eq_of_lt
    · exact Int.natCast_nonneg n
    · exact_mod_cast h
  rw [this]; simp

/-! ## Lines -/

theorem getlines_cons_of_ne (b : Nat) (bs : List Nat) (h : b ≠ 10) :
    getlines (b :: bs) = match getlines bs with
      | [] => [[b]]
      | l :: ls => (b :: l) :: ls := by
  simp [getlines, h]

theorem getlines_line (l rest : List Nat) (h : ∀ c ∈ l, c ≠ 10) :
    getlines (l ++ 10 :: rest) = (l ++ [10]) :: getlines rest := by
  induction l with
  | nil => simp [getlines]
  | cons a l ih =>
    have ha : a ≠ 10 := h a (List.mem_cons_self _ _)
    rw [List.cons_append, getlines_cons_of_ne _ _ ha,
      ih (fun x hx => h x (List.mem_cons_of_mem _ hx))]
    rfl

theorem getlines_last (l : List Nat) (hne : l ≠ []) (h : ∀ c ∈ l, c ≠ 10) :
    getlines l = [l] := by
  induction l with
  | nil => exact absurd rfl hne
  | cons a l ih =>
    have ha : a ≠ 10 := h a (List.mem_cons_self _ _)
    rw [getlines_cons_of_ne _ _ ha]
    cases l with
    | nil => rfl
    | cons b l =>
      rw [ih (by simp) (fun x hx => h x (List.mem_cons_of_mem _ hx))]

end Gob

namespace Gob
namespace GobCat

theorem isHashLine_head (H : Nat) (l : List Nat) (h : IsHashLine H l) :
    (l ++ [10]).head? ≠ some 62 := by
  cases l with
  | nil => simp
  | cons a l => 
    have := hex_ne_gt a (h.2 a (List.mem_cons_self _ _))
    simpa using this

theorem chomp_line (l : List Nat) : chomp (l ++ [10]) = l := by
  simp [chomp]

/-- One iteration of the loop on a valid hash line whose block can be read. -/
theorem loop_step (env : Env) (store : List Nat → Option File) (name block : List Nat)
    (more : List (List Nat)) (buf : Option (List Nat)) (st : State) (f : File)
    (hname : IsHashLine env.HASH_LEN name)
    (hopen : store name = some f) (hread : read_bytes f env.BLOCK_LEN = some block)
    (hne : block ≠ [])
    (hout : ∀ a b, env.io.stdout_ok a b = true) :
    loop env store ((name ++ [10]) :: more) buf st =
      loop env store more (some name)
        { hashed := st.hashed ++ block
          total := (st.total + block.length) % SIZE_MOD
          out := st.out ++ block
          opened := st.opened ++ [name] } := by
  have hc : cstr name = name := cstr_of_no_nul _ (fun c hc => hex_ne_zero c (hname.2 c hc))
  have hs : strspn name hexdigits = 2 * env.HASH_LEN := by
    rw [strspn_hex_all _ hname.2, hname.1]
  have hl : block.length ≠ 0 := by
    intro h; exact hne (List.length_eq_zero.mp h)
  rw [loop]
  simp only [isHashLine_head _ _ hname, if_false, chomp_line, hc, hs, ne_eq, not_true_eq_false,
    hopen, hread, hl, hout]
  simp

/-- The loop on a run of valid hash lines whose blocks can all be read. -/
theorem loop_blocks (env : Env) (store : List Nat → Option File)
    (items : List (List Nat × List Nat)) (more : List (List Nat))
    (buf : Option (List Nat)) (st : State)
    (hname : ∀ it ∈ items, IsHashLine env.HASH_LEN it.1)
    (hread : ∀ it ∈ items, ∃ f, store it.1 = some f ∧
      read_bytes f env.BLOCK_LEN = some it.2 ∧ it.2 ≠ [])
    (hout : ∀ a b, env.io.stdout_ok a b = true)
    (ht : st.total < SIZE_MOD) :
    loop env store (items.map (fun it => it.1 ++ [10]) ++ more) buf st =
      loop env store more
        (match items.getLast? with
          | none => buf
          | some it => some it.1)
        { hashed := st.hashed ++ (items.map Prod.snd).flatten
          total := (st.total + (items.map Prod.snd).flatten.length) % SIZE_MOD
          out := st.out ++ (items.map Prod.snd).flatten
          opened := st.opened ++ items.map Prod.fst } := by
  induction items generalizing buf st with
  | nil => simp [Nat.mod_eq_of_lt ht]
  | cons it items ih =>
    obtain ⟨f, hf, hr, hne⟩ := hread it (List.mem_cons_self _ _)
    rw [List.map_cons, List.cons_append,
      loop_step env store it.1 it.2 _ buf st f (hname it (List.mem_cons_self _ _)) hf hr hne hout]
    rw [ih _ _ (fun x hx => hname x (List.mem_cons_of_mem _ hx))
      (fun x hx => hread x (List.mem_cons_of_mem _ hx)) (Nat.mod_lt _ (by decide))]
    congr 1
    · cases items with
      | nil => rfl
      | cons a l =>
        rw [List.getLast?_cons_cons]
        cases h : (a :: l).getLast? with
        | none => simp at h
        | some x => rfl
    · simp [List.append_assoc, Nat.add_assoc]

end GobCat
end Gob

namespace Gob

theorem getlines_chain_text (lines : List (List Nat)) (tail : List Nat)
    (h : ∀ l ∈ lines, ∀ c ∈ l, c ≠ 10) :
    getlines (chain_text lines tail) = lines.map (fun l => l ++ [10]) ++ getlines tail := by
  unfold chain_text
  induction lines with
  | nil => simp
  | cons l lines ih =>
    simp only [List.map_cons, List.flatten_cons, List.append_assoc, List.singleton_append,
      List.cons_append]
    rw [getlines_line _ _ (h l (List.mem_cons_self _ _)), List.nil_append,
      ih (fun x hx => h x (List.mem_cons_of_mem _ hx))]

theorem isdigit_ne (c : Nat) (h : isdigit c = true) : c ≠ 10 ∧ c ≠ 0 := by
  simp only [isdigit, Bool.and_eq_true, decide_eq_true_eq] at h; omega

theorem getlines_trailer_line (digest : List Nat) (n : Nat) (hb : ∀ b ∈ digest, b < 256) :
    getlines (trailer_line digest n) = [trailer_line digest n] := by
  have e : trailer_line digest n = (62 :: (bin2hex digest ++ 32 :: decimal n)) ++ 10 :: [] := by
    simp [trailer_line]
  rw [e, getlines_line]
  · simp [getlines]
  · intro c hc
    simp only [List.mem_cons, List.mem_append] at hc
    rcases hc with hc | hc | hc | hc
    · omega
    · exact hex_ne_newline c (bin2hex_mem digest hb c hc)
    · omega
    · exact (isdigit_ne c (decimal_digits n c hc)).1

theorem cstr_trailer_line (digest : List Nat) (n : Nat) (hb : ∀ b ∈ digest, b < 256) :
    cstr (trailer_line digest n) = trailer_line digest n := by
  apply cstr_of_no_nul
  intro c hc
  simp only [trailer_line, List.mem_cons, List.mem_append, List.mem_singleton,
    List.mem_nil_iff, or_false] at hc
  rcases hc with hc | hc | hc | hc | hc
  · omega
  · exact hex_ne_zero c (bin2hex_mem digest hb c hc)
  · omega
  · exact (isdigit_ne c (decimal_digits n c hc)).2
  · omega

namespace GobCat

theorem parse_trailer_line (H : Nat) (digest : List Nat) (n : Nat)
    (hl : digest.length = H) (hb : ∀ b ∈ digest, b < 256)
    (h0 : n ≠ 0) (hn : n ≤ LONG_MAX) :
    parse_trailer H (trailer_line digest n) = Except.ok (digest, n) := by
  have hlen : (bin2hex digest).length = H * 2 := by rw [length_bin2hex, hl, Nat.mul_comm]
  have hst : strtol (decimal n ++ [10]) = (n : Int) :=
    strtol_decimal n [10] hn (by intro c hc; simp at hc; subst hc; decide)
  have hsz : to_size_t (n : Int) = n := to_size_t_natCast n (by
    have : LONG_MAX < SIZE_MOD := by decide
    omega)
  unfold parse_trailer trailer_line
  simp only [List.head?_cons, ne_eq, not_true_eq_false, if_false, List.tail_cons]
  have h1 : ¬ (bin2hex digest ++ 32 :: (decimal n ++ [10])).length < H * 2 := by
    simp only [List.length_append, hlen]; omega
  simp only [h1, if_false, List.take_left' hlen, hex2bin_bin2hex H digest hl hb,
    List.drop_left' hlen, List.head?_cons, List.tail_cons, hst, hsz, h0]
  simp

end GobCat
end Gob

namespace Gob
namespace GobCat

theorem main_eq_loop (env : Env) (prog dir : List Nat) (store : List Nat → Option File)
    (hdir : dir ≠ bytesOf "--version") (hstore : env.open_store dir = some store) :
    main env [prog, dir] = loop env store (getlines env.io.stdin) none State.init := by
  simp [main, hdir, hstore]

/-- C1. Round trip of gob-cat: for a non-empty list of blocks of between 1 and
BLOCK_LEN bytes, stored under the hex digests of their contents, the chain
text made of these digests in order and the trailer line of the digest and
length of the concatenation P makes gob-cat exit successfully with exactly P
on standard output, having opened exactly these blocks in order. The hash
returns HASH_LEN bytes, writes to standard output succeed, and the length of
P fits in a `long`. -/
theorem round_trip (env : Env) (prog dir : List Nat) (store : List Nat → Option File)
    (blocks : List (List Nat))
    (hdir : dir ≠ bytesOf "--version")
    (hstore : env.open_store dir = some store)
    (hne : blocks ≠ [])
    (hlen : ∀ b ∈ blocks, 1 ≤ b.length ∧ b.length ≤ env.BLOCK_LEN)
    (hhash : ∀ x, (env.hash x).length = env.HASH_LEN ∧ ∀ c ∈ env.hash x, c < 256)
    (hmap : ∀ b ∈ blocks, store (bin2hex (env.hash b)) = some (File.content b))
    (hin : env.io.stdin = chain_text (blocks.map (fun b => bin2hex (env.hash b)))
      (trailer_line (env.hash blocks.flatten) blocks.flatten.length))
    (hout : ∀ a b, env.io.stdout_ok a b = true)
    (hsize : blocks.flatten.length ≤ LONG_MAX) :
    main env [prog, dir] =
      ⟨Exit.success, blocks.flatten, blocks.map (fun b => bin2hex (env.hash b))⟩ := by
  have hD := hhash blocks.flatten
  rw [main_eq_loop env prog dir store hdir hstore, hin, getlines_chain_text,
    getlines_trailer_line _ _ hD.2]
  · have hitems := loop_blocks env store (blocks.map (fun b => (bin2hex (env.hash b), b)))
      [trailer_line (env.hash blocks.flatten) blocks.flatten.length] none State.init
      (by
        intro it hit
        obtain ⟨b, _, rfl⟩ := List.mem_map.mp hit
        exact isHashLine_bin2hex _ _ (hhash b).1 (hhash b).2)
      (by
        intro it hit
        obtain ⟨b, hb, rfl⟩ := List.mem_map.mp hit
        refine ⟨File.content b, hmap b hb, ?_, ?_⟩
        · simp [read_bytes, List.take_of_length_le (hlen b hb).2]
        · intro h
          have h1 := (hlen b hb).1
          have h2 : b = [] := h
          rw [h2] at h1
          exact absurd h1 (by decide))
      hout (by decide)
    simp only [List.map_map, Function.comp_def, List.map_id'] at hitems ⊢
    rw [hitems]
    have hP0 : blocks.flatten.length ≠ 0 := by
      obtain ⟨b, bs, rfl⟩ := List.exists_cons_of_ne_nil hne
      have := (hlen b (List.mem_cons_self _ _)).1
      simp only [List.flatten_cons, List.length_append]
      omega
    have hmod : blocks.flatten.length % SIZE_MOD = blocks.flatten.length := by
      apply Nat.mod_eq_of_lt
      have : LONG_MAX < SIZE_MOD := by decide
      omega
    have htl : (trailer_line (env.hash blocks.flatten) blocks.flatten.length).head? = some 62 :=
      rfl
    rw [loop]
    simp only [htl, if_true]
    rw [cstr_trailer_line _ _ hD.2, finish,
      parse_trailer_line env.HASH_LEN (env.hash blocks.flatten) blocks.flatten.length
        hD.1 hD.2 hP0 hsize]
    simp only [State.init, List.nil_append, Nat.zero_add, hmod, ne_eq, not_true_eq_false,
      if_false]
  · intro l hl c hc
    obtain ⟨b, _, rfl⟩ := List.mem_map.mp hl
    exact hex_ne_newline c (bin2hex_mem _ (hhash b).2 c hc)

theorem checksum_spec (n : Nat) (x : List Nat) :
    (checksum n x).length = n ∧ ∀ c ∈ checksum n x, c < 256 := by
  refine ⟨by simp [checksum], ?_⟩
  intro c hc
  simp only [checksum, List.mem_replicate] at hc
  omega

/-- The round trip on the two blocks of `store_a`. -/
theorem round_trip_witness :
    main (env_a (bytesOf "0a0a\n0b0b\n>1515 6\n")) [bytesOf "gob-cat", bytesOf "store"] =
      ⟨Exit.success, [1, 2, 3, 4, 5, 6], [bytesOf "0a0a", bytesOf "0b0b"]⟩ :=
  round_trip (env_a (bytesOf "0a0a\n0b0b\n>1515 6\n")) (bytesOf "gob-cat") (bytesOf "store")
    store_a [[1, 2, 3, 4], [5, 6]] (by decide) rfl (by decide) (by decide)
    (checksum_spec 2) (by decide) (by decide) (fun _ _ => rfl) (by decide)

end GobCat
end Gob

namespace Gob
namespace GobCat

theorem head?_takeWhile (p : Nat → Bool) (l : List Nat) (c : Nat)
    (h : (l.takeWhile p).head? = some c) : l.head? = some c := by
  cases l with
  | nil => simp at h
  | cons a l =>
    rw [List.takeWhile_cons] at h
    split at h
    · simpa using h
    · simp at h

theorem head?_dropLast (l : List Nat) (c : Nat)
    (h : l.dropLast.head? = some c) : l.head? = some c := by
  cases l with
  | nil => simp at h
  | cons a l =>
    cases l with
    | nil => simp at h
    | cons b l => simpa using h

theorem head?_line (raw : List Nat) (h : raw.head? ≠ some 62) :
    (cstr (chomp raw)).head? ≠ some 62 := by
  intro hc
  apply h
  have h1 := head?_takeWhile _ _ 62 hc
  unfold chomp at h1
  split at h1
  · exact head?_dropLast raw 62 h1
  · exact h1

theorem finish_not_trailer (env : Env) (st : State) (line : List Nat)
    (h : line.head? ≠ some 62) :
    finish env st line = ⟨Exit.die Diag.last_line_not_trailer, st.out, st.opened⟩ := by
  simp [finish, parse_trailer, h]

/-- What a successful end of `main` says about the state after the loop. -/
theorem finish_success (env : Env) (st : State) (line : List Nat)
    (h : (finish env st line).exit = Exit.success) :
    ∃ D L, parse_trailer env.HASH_LEN line = Except.ok (D, L) ∧ st.total = L ∧
      env.hash st.hashed = D ∧ finish env st line = ⟨Exit.success, st.out, st.opened⟩ := by
  unfold finish at h ⊢
  cases hp : parse_trailer env.HASH_LEN line with
  | error d => simp [hp] at h
  | ok r =>
    obtain ⟨D, L⟩ := r
    simp only [hp] at h ⊢
    by_cases h1 : st.total = L
    · by_cases h2 : env.hash st.hashed = D
      · exact ⟨D, L, rfl, h1, h2, by simp [h1, h2]⟩
      · simp [h1, h2] at h
    · simp [h1] at h

theorem loop_trailer (env : Env) (store : List Nat → Option File) (raw : List Nat)
    (rest : List (List Nat)) (buf : Option (List Nat)) (st : State)
    (h : raw.head? = some 62) :
    loop env store (raw :: rest) buf st = finish env st (cstr raw) := by
  rw [loop]; simp [h]

theorem loop_nil (env : Env) (store : List Nat → Option File) (buf : Option (List Nat))
    (st : State) :
    loop env store [] buf st =
      if env.io.stdin_error then ⟨Exit.die Diag.unable_to_read_index, st.out, st.opened⟩
      else
        match buf with
        | none => ⟨Exit.undefined, st.out, st.opened⟩
        | some line => finish env st line := by
  simp only [loop]

/-- An iteration on a line that is not a trailer line, in a run that does not die:
the line was accepted and its block was opened, read and written. -/
theorem loop_cons_alive (env : Env) (store : List Nat → Option File) (raw : List Nat)
    (rest : List (List Nat)) (buf : Option (List Nat)) (st : State)
    (hraw : raw.head? ≠ some 62)
    (hs : ∀ d, (loop env store (raw :: rest) buf st).exit ≠ Exit.die d) :
    ∃ f block, strspn (cstr (chomp raw)) hexdigits = 2 * env.HASH_LEN ∧
      store (cstr (chomp raw)) = some f ∧ read_bytes f env.BLOCK_LEN = some block ∧
      block.length ≠ 0 ∧ env.io.stdout_ok st.out.length block.length = true ∧
      loop env store (raw :: rest) buf st =
        loop env store rest (some (cstr (chomp raw)))
          { hashed := st.hashed ++ block
            total := (st.total + block.length) % SIZE_MOD
            out := st.out ++ block
            opened := st.opened ++ [cstr (chomp raw)] } := by
  rw [loop] at hs ⊢
  simp only [hraw, if_false] at hs ⊢
  by_cases h1 : strspn (cstr (chomp raw)) hexdigits = 2 * env.HASH_LEN
  · simp only [h1, ne_eq, not_true_eq_false, if_false] at hs ⊢
    cases h2 : store (cstr (chomp raw)) with
    | none => simp only [h2] at hs; exact absurd rfl (hs _)
    | some f =>
      simp only [h2] at hs ⊢
      cases h3 : read_bytes f env.BLOCK_LEN with
      | none => simp only [h3] at hs; exact absurd rfl (hs _)
      | some block =>
        simp only [h3] at hs ⊢
        by_cases h4 : block.length = 0
        · simp only [h4, if_true] at hs; exact absurd rfl (hs _)
        · simp only [h4, if_false] at hs ⊢
          by_cases h5 : env.io.stdout_ok st.out.length block.length = false
          · simp only [h5, if_true] at hs; exact absurd rfl (hs _)
          · simp only [h5] at hs ⊢
            exact ⟨f, block, trivial, rfl, h3, h4, by simpa using h5, by simp⟩
  · simp only [h1, ne_eq, not_false_eq_true, if_true] at hs
    exact absurd rfl (hs _)

/-- Soundness of the loop: a successful run has read a trailer line, and its
length and digest are those of the bytes written. -/
theorem loop_sound (env : Env) (store : List Nat → Option File) (lines : List (List Nat))
    (buf : Option (List Nat)) (st : State)
    (hbuf : ∀ l, buf = some l → l.head? ≠ some 62)
    (ht : st.total < SIZE_MOD)
    (hs : (loop env store lines buf st).exit = Exit.success) :
    ∃ tl D L names,
      lines.find? (fun l => l.head? == some 62) = some tl ∧
      parse_trailer env.HASH_LEN (cstr tl) = Except.ok (D, L) ∧
      loop env store lines buf st =
        ⟨Exit.success, st.out ++ (names.map (fetch env.BLOCK_LEN store)).flatten,
          st.opened ++ names⟩ ∧
      (st.total + (names.map (fetch env.BLOCK_LEN store)).flatten.length) % SIZE_MOD = L ∧
      env.hash (st.hashed ++ (names.map (fetch env.BLOCK_LEN store)).flatten) = D := by
  induction lines generalizing buf st with
  | nil =>
    exfalso
    rw [loop_nil] at hs
    split at hs
    · simp at hs
    · split at hs
      · simp at hs
      · rename_i line
        rw [finish_not_trailer env st line (hbuf line rfl)] at hs
        simp at hs
  | cons raw rest ih =>
    by_cases hraw : raw.head? = some 62
    · rw [loop_trailer _ _ _ _ _ _ hraw] at hs ⊢
      obtain ⟨D, L, hp, h1, h2, h3⟩ := finish_success env st (cstr raw) hs
      refine ⟨raw, D, L, [], ?_, hp, ?_, ?_, ?_⟩
      · simp [List.find?, hraw]
      · simpa using h3
      · simpa [Nat.mod_eq_of_lt ht] using h1
      · simpa using h2
    · obtain ⟨f, block, _, hopen, hread, _, _, hstep⟩ :=
        loop_cons_alive env store raw rest buf st hraw (by rw [hs]; intro d hd; cases hd)
      rw [hstep] at hs ⊢
      obtain ⟨tl, D, L, names, h1, h2, h3, h4, h5⟩ :=
        ih (some (cstr (chomp raw))) _
          (by intro l hl; cases hl; exact head?_line raw hraw)
          (Nat.mod_lt _ (by decide)) hs
      have hf : fetch env.BLOCK_LEN store (cstr (chomp raw)) = block := by
        simp [fetch, hopen, hread]
      have hraw2 : (raw.head? == some 62) = false := by simpa using hraw
      refine ⟨tl, D, L, cstr (chomp raw) :: names, ?_, h2, ?_, ?_, ?_⟩
      · simpa [List.find?, hraw2] using h1
      · rw [h3]
        simp [hf, List.append_assoc]
      · rw [← h4]
        simp [hf, Nat.add_assoc]
      · rw [← h5]
        simp [hf, List.append_assoc]

end GobCat
end Gob

namespace Gob
namespace GobCat

/-- An iteration on an accepted line whose block is opened, read and written. -/
theorem loop_cons_ok (env : Env) (store : List Nat → Option File) (raw : List Nat)
    (rest : List (List Nat)) (buf : Option (List Nat)) (st : State) (f : File)
    (block : List Nat)
    (hraw : raw.head? ≠ some 62)
    (h1 : strspn (cstr (chomp raw)) hexdigits = 2 * env.HASH_LEN)
    (h2 : store (cstr (chomp raw)) = some f)
    (h3 : read_bytes f env.BLOCK_LEN = some block)
    (h4 : block.length ≠ 0)
    (h5 : env.io.stdout_ok st.out.length block.length = true) :
    loop env store (raw :: rest) buf st =
      loop env store rest (some (cstr (chomp raw)))
        { hashed := st.hashed ++ block
          total := (st.total + block.length) % SIZE_MOD
          out := st.out ++ block
          opened := st.opened ++ [cstr (chomp raw)] } := by
  rw [loop]
  simp only [hraw, if_false]
  simp only [h1, ne_eq, not_true_eq_false, if_false]
  simp only [h2]
  simp only [h3]
  simp only [h4, if_false]
  simp only [h5]
  simp

theorem read_bytes_tamper (B : Nat) (store : List Nat → Option File) (name : List Nat)
    (i v : Nat) (line : List Nat) (f : File) (block : List Nat)
    (hopen : store line = some f) (hread : read_bytes f B = some block) :
    ∃ f' block', tamper store name i v line = some f' ∧ read_bytes f' B = some block' ∧
      block'.length = block.length := by
  unfold tamper
  by_cases hl : line = name
  · subst hl
    cases f with
    | unreadable => simp [read_bytes] at hread
    | content bs =>
      simp only [read_bytes, Option.some.injEq] at hread
      refine ⟨File.content (bs.set i v), (bs.set i v).take B, ?_, rfl, ?_⟩
      · simp [hopen]
      · rw [← hread]; simp [List.length_take, List.length_set]
  · exact ⟨f, block, by simp [hl, hopen], hread, rfl⟩

theorem finish_tamper (env env' : Env) (st st' : State) (line : List Nat)
    (hH : env'.HASH_LEN = env.HASH_LEN) (ht : st.total = st'.total)
    (hs : (finish env st line).exit = Exit.success) :
    (finish env' st' line).exit = Exit.success ∨
      (finish env' st' line).exit = Exit.die Diag.hash_mismatch := by
  obtain ⟨D, L, hp, h1, _, _⟩ := finish_success env st line hs
  unfold finish
  rw [hH, hp]
  have h2 : st'.total = L := by rw [← ht, h1]
  by_cases h3 : env'.hash st'.hashed = D
  · left; simp [h2, h3]
  · right; simp [h2, h3]

/-- The loop over a store in which one byte of one block is changed: if the run
over the original store is successful, the run over the changed store passes
every check up to the comparison of the digests. -/
theorem loop_tamper (env env' : Env) (store : List Nat → Option File) (name : List Nat)
    (i v : Nat) (hH : env'.HASH_LEN = env.HASH_LEN) (hB : env'.BLOCK_LEN = env.BLOCK_LEN)
    (hio : env'.io = env.io)
    (lines : List (List Nat)) (buf : Option (List Nat)) (st st' : State)
    (ht : st.total = st'.total) (ho : st.out.length = st'.out.length)
    (hs : (loop env store lines buf st).exit = Exit.success) :
    (loop env' (tamper store name i v) lines buf st').exit = Exit.success ∨
      (loop env' (tamper store name i v) lines buf st').exit =
        Exit.die Diag.hash_mismatch := by
  induction lines generalizing buf st st' with
  | nil =>
    rw [loop_nil] at hs ⊢
    rw [hio]
    cases he : env.io.stdin_error with
    | true => simp [he] at hs
    | false =>
      simp only [he] at hs ⊢
      cases buf with
      | none => simp at hs
      | some line => exact finish_tamper env env' st st' line hH ht hs
  | cons raw rest ih =>
    by_cases hraw : raw.head? = some 62
    · rw [loop_trailer _ _ _ _ _ _ hraw] at hs ⊢
      exact finish_tamper env env' st st' (cstr raw) hH ht hs
    · obtain ⟨f, block, h1, h2, h3, h4, h5, hstep⟩ :=
        loop_cons_alive env store raw rest buf st hraw (by rw [hs]; intro d hd; cases hd)
      obtain ⟨f', block', h2', h3', hlen⟩ :=
        read_bytes_tamper env.BLOCK_LEN store name i v _ f block h2 h3
      rw [hstep] at hs
      rw [loop_cons_ok env' (tamper store name i v) raw rest buf st' f' block' hraw
        (by rw [hH]; exact h1) h2' (by rw [hB]; exact h3') (by rw [hlen]; exact h4)
        (by rw [hio, hlen, ← ho]; exact h5)]
      apply ih _ _ _ _ _ hs
      · simp [ht, hlen]
      · simp [ho, hlen]

theorem main_alive (env : Env) (argv : List (List Nat))
    (hs : (main env argv).exit = Exit.success) :
    ∃ store, argv.length = 2 ∧ argv.get? 1 ≠ some (bytesOf "--version") ∧
      env.open_store (argv.getD 1 []) = some store ∧
      main env argv = loop env store (getlines env.io.stdin) none State.init := by
  by_cases h1 : argv.length = 2
  · by_cases h2 : argv.get? 1 = some (bytesOf "--version")
    · have hm : main env argv = ⟨Exit.version, [], []⟩ := by
        unfold main; rw [if_neg (not_not.mpr h1), if_pos h2]
      rw [hm] at hs; cases hs
    · have hm : main env argv =
          match env.open_store (argv.getD 1 []) with
          | none => ⟨Exit.die Diag.unable_to_open_store, [], []⟩
          | some store => loop env store (getlines env.io.stdin) none State.init := by
        unfold main; rw [if_neg (not_not.mpr h1), if_neg h2]
      cases h3 : env.open_store (argv.getD 1 []) with
      | none => rw [hm, h3] at hs; cases hs
      | some store => exact ⟨store, h1, h2, rfl, by rw [hm, h3]⟩
  · have hm : main env argv = ⟨Exit.die Diag.usage, [], []⟩ := by
      unfold main; rw [if_pos h1]
    rw [hm] at hs; cases hs

/-- C2. Soundness of the verification of gob-cat. A run that exits successfully
has read a trailer line (the first line of the input that begins with '>')
that parses to a digest D and a length L; the bytes written are the blocks
of the opened names in order, their number is L (for an output within the
range of `size_t`) and their digest is D. Moreover, when one byte of a stored
block is then changed, the run over the changed store either still exits
successfully or dies with "Hash mismatch", and it dies with "Hash mismatch"
whenever the digest of the bytes it wrote differs from D. -/
theorem verification_sound (env : Env) (argv : List (List Nat))
    (hs : (main env argv).exit = Exit.success)
    (hsz : (main env argv).out.length < SIZE_MOD) :
    ∃ tl D L,
      (getlines env.io.stdin).find? (fun l => l.head? == some 62) = some tl ∧
      parse_trailer env.HASH_LEN (cstr tl) = Except.ok (D, L) ∧
      (main env argv).out = ((main env argv).opened.map (block_of env argv)).flatten ∧
      (main env argv).out.length = L ∧
      env.hash (main env argv).out = D ∧
      ∀ name i v,
        ((main (env.tamper name i v) argv).exit = Exit.success ∨
          (main (env.tamper name i v) argv).exit = Exit.die Diag.hash_mismatch) ∧
        (env.hash (main (env.tamper name i v) argv).out ≠ D →
          (main (env.tamper name i v) argv).exit = Exit.die Diag.hash_mismatch) := by
  obtain ⟨store, hlen, hver, hstore, hmain⟩ := main_alive env argv hs
  have hs0 := hs
  rw [hmain] at hs
  obtain ⟨tl, D, L, names, h1, h2, h3, h4, h5⟩ :=
    loop_sound env store _ none State.init (by intro l hl; cases hl) (by decide) hs
  have hrun : main env argv =
      ⟨Exit.success, (names.map (fetch env.BLOCK_LEN store)).flatten, names⟩ := by
    rw [hmain, h3]; simp [State.init]
  have hblock : block_of env argv = fetch env.BLOCK_LEN store := by
    funext nm; unfold block_of store_of; rw [hstore]
  have hmain' : ∀ name i v, main (env.tamper name i v) argv =
      loop (env.tamper name i v) (tamper store name i v) (getlines env.io.stdin) none
        State.init := by
    intro name i v
    have ho : (env.tamper name i v).open_store (argv.getD 1 []) =
        some (tamper store name i v) := by
      show (env.open_store (argv.getD 1 [])).map (fun s => tamper s name i v) = _
      rw [hstore]; rfl
    unfold main
    rw [if_neg (not_not.mpr hlen), if_neg hver, ho]
    rfl
  have hL : (names.map (fetch env.BLOCK_LEN store)).flatten.length = L := by
    rw [hrun] at hsz
    simp only [State.init, Nat.zero_add] at h4
    rw [← h4, Nat.mod_eq_of_lt hsz]
  refine ⟨tl, D, L, h1, h2, ?_, ?_, ?_, ?_⟩
  · rw [hrun, hblock]
  · rw [hrun]; exact hL
  · rw [hrun]; simpa [State.init] using h5
  · intro name i v
    have hdis := loop_tamper env (env.tamper name i v) store name i v rfl rfl rfl _ none
      State.init State.init rfl rfl hs
    rw [← hmain' name i v] at hdis
    refine ⟨hdis, ?_⟩
    intro hne
    rcases hdis with hok | hbad
    · exfalso
      apply hne
      rw [hmain' name i v] at hok ⊢
      obtain ⟨tl', D', L', names', g1, g2, g3, _, g5⟩ :=
        loop_sound (env.tamper name i v) (tamper store name i v) _ none State.init
          (by intro l hl; cases hl) (by decide) hok
      have e1 : tl' = tl := by
        rw [h1] at g1; exact (Option.some.inj g1).symm
      subst e1
      have e2 : (D', L') = (D, L) := by
        have : parse_trailer (env.tamper name i v).HASH_LEN (cstr tl') =
            parse_trailer env.HASH_LEN (cstr tl') := rfl
        rw [this, h2] at g2
        exact (Except.ok.inj g2).symm
      rw [g3]
      simp only [State.init, List.nil_append] at g5 ⊢
      have e3 : D' = D := congrArg Prod.fst e2
      rw [← e3, ← g5]
      rfl
    · exact hbad

end GobCat
end Gob

namespace Gob
namespace GobCat

/-- The soundness statement on the successful run over `store_a`. -/
theorem verification_sound_witness :
    (main (env_a (bytesOf "0a0a\n0b0b\n>1515 6\n")) argv_a).exit = Exit.success ∧
    ∃ tl D L,
      (getlines (env_a (bytesOf "0a0a\n0b0b\n>1515 6\n")).io.stdin).find?
        (fun l => l.head? == some 62) = some tl ∧
      parse_trailer (env_a (bytesOf "0a0a\n0b0b\n>1515 6\n")).HASH_LEN (cstr tl) =
        Except.ok (D, L) ∧
      (main (env_a (bytesOf "0a0a\n0b0b\n>1515 6\n")) argv_a).out =
        ((main (env_a (bytesOf "0a0a\n0b0b\n>1515 6\n")) argv_a).opened.map
          (block_of (env_a (bytesOf "0a0a\n0b0b\n>1515 6\n")) argv_a)).flatten ∧
      (main (env_a (bytesOf "0a0a\n0b0b\n>1515 6\n")) argv_a).out.length = L ∧
      (env_a (bytesOf "0a0a\n0b0b\n>1515 6\n")).hash
        (main (env_a (bytesOf "0a0a\n0b0b\n>1515 6\n")) argv_a).out = D ∧
      ∀ name i v,
        ((main ((env_a (bytesOf "0a0a\n0b0b\n>1515 6\n")).tamper name i v) argv_a).exit =
            Exit.success ∨
          (main ((env_a (bytesOf "0a0a\n0b0b\n>1515 6\n")).tamper name i v) argv_a).exit =
            Exit.die Diag.hash_mismatch) ∧
        ((env_a (bytesOf "0a0a\n0b0b\n>1515 6\n")).hash
            (main ((env_a (bytesOf "0a0a\n0b0b\n>1515 6\n")).tamper name i v) argv_a).out ≠ D →
          (main ((env_a (bytesOf "0a0a\n0b0b\n>1515 6\n")).tamper name i v) argv_a).exit =
            Exit.die Diag.hash_mismatch) :=
  ⟨by decide,
    verification_sound (env_a (bytesOf "0a0a\n0b0b\n>1515 6\n")) argv_a (by decide) (by decide)⟩

/-- Length enforcement in terms of the lines that `getline` returns and of the
parsed trailer. -/
theorem length_enforced_of_lines (env : Env) (prog dir : List Nat)
    (store : List Nat → Option File)
    (items : List (List Nat × List Nat)) (tl : List Nat) (rest : List (List Nat))
    (D : List Nat) (declared : Nat)
    (hdir : dir ≠ bytesOf "--version")
    (hstore : env.open_store dir = some store)
    (hlines : getlines env.io.stdin = items.map (fun it => it.1 ++ [10]) ++ tl :: rest)
    (hname : ∀ it ∈ items, IsHashLine env.HASH_LEN it.1)
    (hread : ∀ it ∈ items, ∃ f, store it.1 = some f ∧
      read_bytes f env.BLOCK_LEN = some it.2 ∧ it.2 ≠ [])
    (hout : ∀ a b, env.io.stdout_ok a b = true)
    (htl : tl.head? = some 62)
    (hparse : parse_trailer env.HASH_LEN (cstr tl) = Except.ok (D, declared))
    (hsz : (items.map Prod.snd).flatten.length < SIZE_MOD)
    (hne : declared ≠ (items.map Prod.snd).flatten.length) :
    main env [prog, dir] =
      ⟨Exit.die Diag.size_mismatch, (items.map Prod.snd).flatten, items.map Prod.fst⟩ := by
  rw [main_eq_loop env prog dir store hdir hstore, hlines,
    loop_blocks env store items _ none State.init hname hread hout (by decide),
    loop_trailer _ _ _ _ _ _ htl, finish, hparse]
  simp only [State.init, List.nil_append, Nat.zero_add, Nat.mod_eq_of_lt hsz, ne_eq]
  rw [if_pos (fun h => hne h.symm)]

/-- C6. Length enforcement in gob-cat. Let the chain text be valid hash lines whose
blocks are all read (L bytes in total, within the range of `size_t`), followed
by the trailer line of any digest D of HASH_LEN bytes and a declared length
of at least 1 other than L (L + 1 for instance). Then gob-cat dies with "Size
mismatch" after writing the L bytes, whether D is the digest of these bytes
or not. -/
theorem length_enforced (env : Env) (prog dir : List Nat) (store : List Nat → Option File)
    (items : List (List Nat × List Nat)) (D : List Nat) (declared : Nat)
    (hdir : dir ≠ bytesOf "--version")
    (hstore : env.open_store dir = some store)
    (hin : env.io.stdin = chain_text (items.map Prod.fst) (trailer_line D declared))
    (hname : ∀ it ∈ items, IsHashLine env.HASH_LEN it.1)
    (hread : ∀ it ∈ items, ∃ f, store it.1 = some f ∧
      read_bytes f env.BLOCK_LEN = some it.2 ∧ it.2 ≠ [])
    (hout : ∀ a b, env.io.stdout_ok a b = true)
    (hD : D.length = env.HASH_LEN) (hDb : ∀ b ∈ D, b < 256)
    (h1 : 1 ≤ declared) (hmax : declared ≤ LONG_MAX)
    (hsz : (items.map Prod.snd).flatten.length < SIZE_MOD)
    (hne : declared ≠ (items.map Prod.snd).flatten.length) :
    main env [prog, dir] =
      ⟨Exit.die Diag.size_mismatch, (items.map Prod.snd).flatten, items.map Prod.fst⟩ ∧
    (declared = (items.map Prod.snd).flatten.length + 1 →
      (main env [prog, dir]).exit = Exit.die Diag.size_mismatch) := by
  have hlines : getlines env.io.stdin =
      items.map (fun it => it.1 ++ [10]) ++ trailer_line D declared :: [] := by
    rw [hin, getlines_chain_text, getlines_trailer_line _ _ hDb, List.map_map]
    · rfl
    · intro l hl c hc
      obtain ⟨it, hit, rfl⟩ := List.mem_map.mp hl
      exact hex_ne_newline c ((hname it hit).2 c hc)
  have hrun := length_enforced_of_lines env prog dir store items (trailer_line D declared) []
    D declared hdir hstore hlines hname hread hout rfl
    (by
      rw [cstr_trailer_line _ _ hDb]
      exact parse_trailer_line _ _ _ hD hDb (by omega) hmax)
    hsz hne
  exact ⟨hrun, fun _ => by rw [hrun]⟩

/-- The trailer of the two blocks of `store_a` with the length 7 instead of 6. -/
theorem length_enforced_witness :
    main (env_a (bytesOf "0a0a\n0b0b\n>1515 7\n")) [bytesOf "gob-cat", bytesOf "store"] =
      ⟨Exit.die Diag.size_mismatch, [1, 2, 3, 4, 5, 6], [bytesOf "0a0a", bytesOf "0b0b"]⟩ :=
  (length_enforced (env_a (bytesOf "0a0a\n0b0b\n>1515 7\n")) (bytesOf "gob-cat")
    (bytesOf "store") store_a
    [(bytesOf "0a0a", [1, 2, 3, 4]), (bytesOf "0b0b", [5, 6])]
    [21, 21] 7 (by decide) rfl (by decide) (by decide)
    (by
      intro it hit
      simp only [List.mem_cons, List.mem_singleton, List.mem_nil_iff, or_false] at hit
      rcases hit with rfl | rfl
      · exact ⟨File.content [1, 2, 3, 4], by decide, by decide, by decide⟩
      · exact ⟨File.content [5, 6], by decide, by decide, by decide⟩)
    (fun _ _ => rfl) (by decide) (by decide) (by decide) (by decide) (by decide)
    (by decide)).1

/-- C9. Evaluation of gob-cat on a chain whose first line is 2 * HASH_LEN hex digits
followed by the letter z. The line is not rejected with "Invalid index hash":
gob-cat passes the whole line to `open_block`. With HASH_LEN = 2, over a store
without a block of that name the run dies with "Unable to open block", and
over a store with such a block the run exits successfully. With HASH_LEN = 32
and a line of 64 hex digits followed by z the run likewise reaches
`open_block` with the whole line. -/
theorem hash_line_with_trailing_garbage :
    main (env_a (bytesOf "0a0az\n>0f0f 2\n")) argv_a =
      ⟨Exit.die (Diag.unable_to_open_block (bytesOf "0a0az")), [], [bytesOf "0a0az"]⟩ ∧
    main (env_z (bytesOf "0a0az\n>0f0f 2\n")) argv_a =
      ⟨Exit.success, [7, 8], [bytesOf "0a0az"]⟩ ∧
    main (env_h32 (line_z ++ bytesOf "\n>00 1\n")) argv_a =
      ⟨Exit.die (Diag.unable_to_open_block line_z), [], [line_z]⟩ := by
  refine ⟨?_, ?_, ?_⟩ <;> decide

end GobCat
end Gob

namespace Gob
namespace SbDecrypt

/-! ## sb-decrypt -/

theorem le_bytes_zero (w : Nat) : le_bytes w 0 = List.replicate w 0 := by
  induction w with
  | zero => rfl
  | succ w ih => simp [le_bytes, ih, List.replicate_succ]

theorem length_le_bytes (w v : Nat) : (le_bytes w v).length = w := by
  induction w generalizing v with
  | zero => rfl
  | succ w ih => simp [le_bytes, ih]

theorem le_bytes_lt (w v : Nat) : ∀ b ∈ le_bytes w v, b < 256 := by
  induction w generalizing v with
  | zero => intro b hb; simp [le_bytes] at hb
  | succ w ih =>
    intro b hb
    simp only [le_bytes, List.mem_cons] at hb
    rcases hb with hb | hb
    · omega
    · exact ih _ b hb

theorem le_value_le_bytes (w v : Nat) : le_value (le_bytes w v) = v % 256 ^ w := by
  induction w generalizing v with
  | zero => simp [le_bytes, le_value, Nat.mod_one]
  | succ w ih =>
    simp only [le_bytes, le_value, ih]
    rw [Nat.pow_succ, Nat.mul_comm (256 ^ w) 256, Nat.mod_mul]

/-- The increment of libsodium on an encoded counter, with any carry. -/
theorem sodium_increment_carry_le_bytes (w v c : Nat) :
    sodium_increment_carry (le_bytes w v) c = le_bytes w (v + c) := by
  induction w generalizing v c with
  | zero => rfl
  | succ w ih =>
    simp only [le_bytes, sodium_increment_carry]
    rw [ih]
    have h1 : (c + v % 256) % 256 = (v + c) % 256 := by omega
    have h2 : v / 256 + (c + v % 256) / 256 = (v + c) / 256 := by omega
    rw [h1, h2]

theorem sodium_increment_le_bytes (w v : Nat) :
    sodium_increment (le_bytes w v) = le_bytes w (v + 1) :=
  sodium_increment_carry_le_bytes w v 1

/-- The loop of sb-decrypt on a stream whose first `k` chunks authenticate under the
successive counter nonces, the next one (if any) failing. -/
theorem loop_spec (env : Env) (key : List Nat) (f : Nat → List Nat) (cs : List (List Nat))
    (j k : Nat) (st : State)
    (hn : st.nonce = le_bytes env.NPUBBYTES j)
    (hout : ∀ a b, env.io.stdout_ok a b = true)
    (hk : k ≤ cs.length)
    (hgood : ∀ i, i < k →
      env.decrypt key (le_bytes env.NPUBBYTES (j + i)) (cs.getD i []) = some (f (j + i)))
    (hbad : k < cs.length →
      env.decrypt key (le_bytes env.NPUBBYTES (j + k)) (cs.getD k []) = none) :
    loop env key cs st =
      ⟨if k = cs.length then
          (if env.io.stdin_error then Exit.die Diag.unable_to_read_stdin else Exit.success)
        else Exit.die Diag.unable_to_decrypt,
        st.out ++ ((List.range' j k).map f).flatten,
        st.calls ++ ((cs.take (k + 1)).enumFrom j).map
          (fun p => (le_bytes env.NPUBBYTES p.1, p.2)),
        le_bytes env.NPUBBYTES (j + k)⟩ := by
  induction cs generalizing j k st with
  | nil =>
    have hk0 : k = 0 := by simpa using hk
    subst hk0
    rw [loop]
    cases h : env.io.stdin_error <;> simp [hn]
  | cons c cs ih =>
    rw [loop]
    cases k with
    | zero =>
      have h0 := hbad (by simp)
      simp only [Nat.add_zero, List.getD_cons_zero] at h0
      rw [hn, h0]
      simp
    | succ k =>
      have h0 := hgood 0 (by omega)
      simp only [Nat.add_zero, List.getD_cons_zero] at h0
      rw [hn, h0]
      simp only [hout]
      rw [if_neg (by simp)]
      rw [ih (j + 1) k _ (by simp [sodium_increment_le_bytes]) (by simpa using hk)
        (by
          intro i hi
          have := hgood (i + 1) (by omega)
          simpa [Nat.add_assoc, Nat.add_comm 1 i] using this)
        (by
          intro hlt
          have := hbad (by simpa using hlt)
          simpa [Nat.add_assoc, Nat.add_comm 1 k] using this)]
      simp [List.range'_succ, List.append_assoc, Nat.add_assoc, Nat.add_comm 1 k]

theorem main_eq_loop_d (env : Env) (argv : List (List Nat)) (key : List Nat)
    (hargs : 2 ≤ argv.length) (hinit : env.sodium_init = true)
    (hkey : env.read_key (argv.getD 1 []) = some key) :
    main env argv = loop env key (chunks env) ⟨List.replicate env.NPUBBYTES 0, [], []⟩ := by
  unfold main
  rw [if_neg (by omega), if_neg (by simp [hinit]), hkey]

end SbDecrypt
end Gob

namespace Gob
namespace SbDecrypt

theorem map_snd_enumFrom (g : Nat → List Nat) (l : List (List Nat)) (j : Nat) :
    ((l.enumFrom j).map (fun p => (g p.1, p.2))).map Prod.snd = l := by
  induction l generalizing j with
  | nil => rfl
  | cons a l ih => simp [ih]

/-- C4. Nonce sequence of sb-decrypt. The nonce starts as all-zero bytes, which is
the encoding of 0. When the first `k` chunks authenticate under the nonces
that encode 0, 1, ..., k - 1 and the chunk of index `k`, if there is one, does
not authenticate under the encoding of `k`, the decryption primitive is
called on the chunks of index 0 to k (at most), the chunk of index i under the
little-endian encoding of i over NPUBBYTES bytes, and the nonce buffer ends as
the encoding of `k`: it was advanced once per authenticated chunk, whatever
the plaintexts are, and not after the failing chunk. One advance maps the
encoding of i to that of i + 1; the encoding of i has NPUBBYTES bytes below
256 and the value i modulo 2 ^ (8 * NPUBBYTES). -/
theorem nonce_sequence (env : Env) (argv : List (List Nat)) (key : List Nat) (k : Nat)
    (hargs : 2 ≤ argv.length) (hinit : env.sodium_init = true)
    (hkey : env.read_key (argv.getD 1 []) = some key)
    (hout : ∀ a b, env.io.stdout_ok a b = true)
    (hk : k ≤ (chunks env).length)
    (hgood : ∀ i, i < k →
      (env.decrypt key (le_bytes env.NPUBBYTES i) ((chunks env).getD i [])).isSome = true)
    (hbad : k < (chunks env).length →
      env.decrypt key (le_bytes env.NPUBBYTES k) ((chunks env).getD k []) = none) :
    List.replicate env.NPUBBYTES 0 = le_bytes env.NPUBBYTES 0 ∧
    (main env argv).calls =
      (((chunks env).take (k + 1)).enum).map (fun p => (le_bytes env.NPUBBYTES p.1, p.2)) ∧
    (main env argv).nonce = le_bytes env.NPUBBYTES k ∧
    (∀ i, sodium_increment (le_bytes env.NPUBBYTES i) = le_bytes env.NPUBBYTES (i + 1)) ∧
    (∀ i, (le_bytes env.NPUBBYTES i).length = env.NPUBBYTES ∧
      (∀ b ∈ le_bytes env.NPUBBYTES i, b < 256) ∧
      le_value (le_bytes env.NPUBBYTES i) = i % 2 ^ (8 * env.NPUBBYTES)) := by
  have hrun := loop_spec env key
    (fun i => (env.decrypt key (le_bytes env.NPUBBYTES i) ((chunks env).getD i [])).getD [])
    (chunks env) 0 k ⟨List.replicate env.NPUBBYTES 0, [], []⟩
    (le_bytes_zero env.NPUBBYTES).symm hout hk
    (by
      intro i hi
      have h := hgood i hi
      simp only [Nat.zero_add]
      cases hd : env.decrypt key (le_bytes env.NPUBBYTES i) ((chunks env).getD i []) with
      | none => rw [hd] at h; cases h
      | some x => rfl)
    (by simpa using hbad)
  rw [← main_eq_loop_d env argv key hargs hinit hkey] at hrun
  refine ⟨(le_bytes_zero env.NPUBBYTES).symm, ?_, ?_, ?_, ?_⟩
  · rw [hrun]; simp [List.enum]
  · rw [hrun]; simp
  · intro i; exact sodium_increment_le_bytes _ i
  · intro i
    refine ⟨length_le_bytes _ i, le_bytes_lt _ i, ?_⟩
    rw [le_value_le_bytes, Nat.pow_mul]

/-- Three chunks that authenticate under the nonces 0, 1 and 2. -/
theorem nonce_sequence_witness :
    List.replicate 2 0 = le_bytes 2 0 ∧
    (main (env_d [8, 10, 11, 12, 9, 20, 21, 22, 10, 30]) argv_d).calls =
      [([0, 0], [8, 10, 11, 12]), ([1, 0], [9, 20, 21, 22]), ([2, 0], [10, 30])] ∧
    (main (env_d [8, 10, 11, 12, 9, 20, 21, 22, 10, 30]) argv_d).nonce = [3, 0] :=
  have h := nonce_sequence (env_d [8, 10, 11, 12, 9, 20, 21, 22, 10, 30]) argv_d [7] 3
    (by decide) rfl rfl (fun _ _ => rfl) (by decide) (by decide) (by decide)
  ⟨h.1, h.2.1, h.2.2.1⟩

/-- C5. Output and abort behaviour of sb-decrypt. Let `k` be the index of the first
chunk that does not authenticate under the key and the nonce that encodes its
index (`k` is the number of chunks when all authenticate), and let `p i` be the
plaintext of chunk `i` for `i < k`. With standard input read to its end and
writes that succeed, the output is the concatenation of `p 0`, ..., `p (k - 1)`,
each in full; the exit is successful if and only if `k` is the number of
chunks, and otherwise it is the failure of the decryption; the primitive is
called on the chunks of index 0 to `k` and on no later chunk. -/
theorem output_and_abort (env : Env) (argv : List (List Nat)) (key : List Nat)
    (p : Nat → List Nat) (k : Nat)
    (hargs : 2 ≤ argv.length) (hinit : env.sodium_init = true)
    (hkey : env.read_key (argv.getD 1 []) = some key)
    (hout : ∀ a b, env.io.stdout_ok a b = true)
    (herr : env.io.stdin_error = false)
    (hk : k ≤ (chunks env).length)
    (hgood : ∀ i, i < k →
      env.decrypt key (le_bytes env.NPUBBYTES i) ((chunks env).getD i []) = some (p i))
    (hbad : k < (chunks env).length →
      env.decrypt key (le_bytes env.NPUBBYTES k) ((chunks env).getD k []) = none) :
    (main env argv).out = ((List.range k).map p).flatten ∧
    ((main env argv).exit = Exit.success ↔ k = (chunks env).length) ∧
    (k < (chunks env).length → (main env argv).exit = Exit.die Diag.unable_to_decrypt) ∧
    (main env argv).calls.map Prod.snd = (chunks env).take (k + 1) := by
  have hrun := loop_spec env key p (chunks env) 0 k ⟨List.replicate env.NPUBBYTES 0, [], []⟩
    (le_bytes_zero env.NPUBBYTES).symm hout hk (by simpa using hgood) (by simpa using hbad)
  rw [← main_eq_loop_d env argv key hargs hinit hkey] at hrun
  refine ⟨?_, ?_, ?_, ?_⟩
  · rw [hrun]; simp [List.range_eq_range']
  · rw [hrun, herr]
    by_cases h : k = (chunks env).length <;> simp [h]
  · intro hlt
    rw [hrun]
    have h : k ≠ (chunks env).length := by omega
    simp [h]
  · rw [hrun]
    simp only [List.nil_append]
    exact map_snd_enumFrom _ _ 0

/-- Three chunks of which the second does not authenticate under the nonce 1. -/
theorem output_and_abort_witness :
    (main (env_d [8, 10, 11, 12, 0, 20, 21, 22, 10, 30]) argv_d).out = [10, 11, 12] ∧
    (main (env_d [8, 10, 11, 12, 0, 20, 21, 22, 10, 30]) argv_d).exit =
      Exit.die Diag.unable_to_decrypt ∧
    (main (env_d [8, 10, 11, 12, 0, 20, 21, 22, 10, 30]) argv_d).calls.map Prod.snd =
      [[8, 10, 11, 12], [0, 20, 21, 22]] :=
  have h := output_and_abort (env_d [8, 10, 11, 12, 0, 20, 21, 22, 10, 30]) argv_d [7]
    (fun _ => [10, 11, 12]) 1
    (by decide) rfl rfl (fun _ _ => rfl) rfl (by decide) (by decide) (by decide)
  ⟨h.1, h.2.2.1 (by decide), h.2.2.2⟩

end SbDecrypt
end Gob

namespace Gob
namespace SbCat

/-! ## sb-cat -/

theorem hex2bin_head (H : Nat) (l d : List Nat) (h : hex2bin H l = some d) :
    l.head? ≠ some 62 := by
  unfold hex2bin at h
  split at h
  · cases h
  · cases l with
    | nil => simp
    | cons a l =>
      cases l with
      | nil => simp [hex2bin_pairs] at h
      | cons b r =>
        intro ha
        simp only [List.head?_cons, Option.some.injEq] at ha
        subst ha
        simp [hex2bin_pairs, hexval] at h

theorem MIN_eq (x y : Nat) : MIN x y = min x y := by
  unfold MIN
  split <;> omega

/-- The successful outcome of `read_block`. -/
theorem read_block_ok_iff (B : Nat) (dirfd : List Nat → Option (List Nat → Option File))
    (hash data : List Nat) :
    read_block B dirfd hash = Except.ok data ↔
      ∃ shardfd fd, dirfd (hash.take 2) = some shardfd ∧ shardfd (hash.drop 2) = some fd ∧
        read_bytes fd B = some data ∧ data.length = B := by
  constructor
  · intro h
    cases h1 : dirfd (hash.take 2) with
    | none => simp [read_block, h1] at h
    | some shardfd =>
      cases h2 : shardfd (hash.drop 2) with
      | none => simp [read_block, h1, h2] at h
      | some fd =>
        cases h3 : read_bytes fd B with
        | none => simp [read_block, h1, h2, h3] at h
        | some x =>
          simp only [read_block, h1, h2, h3] at h
          by_cases h4 : x.length = B
          · rw [if_neg (not_not.mpr h4)] at h
            cases h
            exact ⟨shardfd, fd, rfl, h2, h3, h4⟩
          · rw [if_pos h4] at h
            cases h
  · rintro ⟨shardfd, fd, h1, h2, h3, h4⟩
    simp only [read_block, h1, h2, h3]
    rw [if_neg (not_not.mpr h4)]

/-- A block stored with exactly `BLOCK_LEN` bytes is read in full. -/
theorem read_block_stored (B : Nat) (dirfd : List Nat → Option (List Nat → Option File))
    (hash data : List Nat)
    (h : ∃ shardfd, dirfd (hash.take 2) = some shardfd ∧
      shardfd (hash.drop 2) = some (File.content data) ∧ data.length = B) :
    read_block B dirfd hash = Except.ok data := by
  obtain ⟨shardfd, h1, h2, h3⟩ := h
  rw [read_block_ok_iff]
  exact ⟨shardfd, File.content data, h1, h2, by simp [read_bytes, ← h3], h3⟩

theorem sb_loop_stop (env : Env) (dirfd : List Nat → Option (List Nat → Option File))
    (th : List Nat) (hash : List Nat) (rest : List (List Nat)) (st : State)
    (h : hash.head? = some 62) :
    loop env dirfd th (hash :: rest) st = finish env th st := by
  rw [loop]; simp [h]

theorem sb_loop_surplus (env : Env) (dirfd : List Nat → Option (List Nat → Option File))
    (th : List Nat) (hash : List Nat) (rest : List (List Nat)) (st : State)
    (h : hash.head? ≠ some 62) (h0 : st.data_len = 0) :
    loop env dirfd th (hash :: rest) st =
      ⟨Exit.die Diag.more_lines_but_all_data_read, st.out, st.opened⟩ := by
  rw [loop]; simp [h, h0]

theorem sb_loop_undecodable (env : Env) (dirfd : List Nat → Option (List Nat → Option File))
    (th : List Nat) (hash : List Nat) (rest : List (List Nat)) (st : State)
    (h : hash.head? ≠ some 62) (h0 : st.data_len ≠ 0)
    (hd : hex2bin env.HASH_LEN hash = none) :
    loop env dirfd th (hash :: rest) st =
      ⟨Exit.die Diag.unable_to_decode_hash, st.out, st.opened⟩ := by
  rw [loop]; simp [h, h0, hd]

/-- One iteration of the loop on a valid hash line whose block is read in full. -/
theorem sb_loop_step (env : Env) (dirfd : List Nat → Option (List Nat → Option File))
    (th : List Nat) (hash data : List Nat) (rest : List (List Nat)) (st : State)
    (hv : (hex2bin env.HASH_LEN hash).isSome = true)
    (h0 : st.data_len ≠ 0)
    (hr : read_block env.BLOCK_LEN dirfd hash = Except.ok data)
    (hout : ∀ a b, env.io.stdout_ok a b = true) :
    loop env dirfd th (hash :: rest) st =
      loop env dirfd th rest
        { hashed := st.hashed ++ data
          data_len := st.data_len - min st.data_len env.BLOCK_LEN
          out := st.out ++ data.take (min st.data_len env.BLOCK_LEN)
          opened := st.opened ++ [hash] } := by
  obtain ⟨d, hd⟩ := Option.isSome_iff_exists.mp hv
  have hh := hex2bin_head _ _ _ hd
  rw [loop]
  simp only [hh, if_false, h0, hd, hr, hout, MIN_eq]
  simp

end SbCat
end Gob

namespace Gob
namespace SbCat

theorem ceil_div_iff (B L n : Nat) (hB : 0 < B) (hL : 0 < L) :
    n = (L + B - 1) / B ↔ (n - 1) * B < L ∧ L ≤ n * B := by
  constructor
  · intro h
    have h1 : (L + B - 1) / B * B ≤ L + B - 1 := Nat.div_mul_le_self _ _
    have h2 : L + B - 1 < ((L + B - 1) / B + 1) * B := by
      have := Nat.div_add_mod (L + B - 1) B
      have hm := Nat.mod_lt (L + B - 1) hB
      rw [Nat.add_mul, Nat.one_mul, Nat.mul_comm]
      omega
    rw [← h] at h1 h2
    rw [Nat.add_mul, Nat.one_mul] at h2
    refine ⟨?_, by omega⟩
    cases n with
    | zero => simpa using hL
    | succ m =>
      rw [Nat.add_mul, Nat.one_mul] at h1
      simp only [Nat.add_sub_cancel]
      omega
  · rintro ⟨h1, h2⟩
    symm
    apply Nat.div_eq_of_lt_le
    · cases n with
      | zero => simp
      | succ m =>
        simp only [Nat.add_sub_cancel] at h1
        rw [Nat.add_mul, Nat.one_mul]
        omega
    · rw [Nat.succ_mul]
      omega

theorem take_min_length (d : List Nat) (n : Nat) : d.take (min n d.length) = d.take n := by
  by_cases h : n ≤ d.length
  · rw [Nat.min_eq_left h]
  · rw [Nat.min_eq_right (by omega), List.take_of_length_le (Nat.le_refl _),
      List.take_of_length_le (by omega)]

theorem read_block_length (B : Nat) (dirfd : List Nat → Option (List Nat → Option File))
    (hash data : List Nat) (h : read_block B dirfd hash = Except.ok data) :
    data.length = B := by
  obtain ⟨_, _, _, _, _, h4⟩ := (read_block_ok_iff B dirfd hash data).mp h
  exact h4

/-- The loop on a run of valid hash lines whose blocks are read in full, while the
declared length is not exhausted before the last of them. -/
theorem sb_loop_blocks (env : Env) (dirfd : List Nat → Option (List Nat → Option File))
    (th : List Nat) (items : List (List Nat × List Nat)) (more : List (List Nat)) (st : State)
    (hv : ∀ it ∈ items, (hex2bin env.HASH_LEN it.1).isSome = true)
    (hr : ∀ it ∈ items, read_block env.BLOCK_LEN dirfd it.1 = Except.ok it.2)
    (hout : ∀ a b, env.io.stdout_ok a b = true)
    (hlen : (items.length - 1) * env.BLOCK_LEN < st.data_len) :
    loop env dirfd th (items.map Prod.fst ++ more) st =
      loop env dirfd th more
        { hashed := st.hashed ++ (items.map Prod.snd).flatten
          data_len := st.data_len - items.length * env.BLOCK_LEN
          out := st.out ++ ((items.map Prod.snd).flatten).take st.data_len
          opened := st.opened ++ items.map Prod.fst } := by
  induction items generalizing st with
  | nil => simp
  | cons it items ih =>
    have h0 : st.data_len ≠ 0 := by omega
    have hB := read_block_length _ _ _ _ (hr it (List.mem_cons_self _ _))
    rw [List.map_cons, List.cons_append,
      sb_loop_step env dirfd th it.1 it.2 _ st (hv it (List.mem_cons_self _ _)) h0
        (hr it (List.mem_cons_self _ _)) hout]
    cases items with
    | nil =>
      simp only [List.map_nil, List.nil_append, List.map_cons, List.flatten_cons,
        List.flatten_nil, List.append_nil, List.length_cons, List.length_nil, Nat.zero_add,
        Nat.one_mul]
      congr 2
      · omega
      · rw [← hB, Nat.min_comm]
        rw [show min it.2.length st.data_len = min st.data_len it.2.length from Nat.min_comm _ _]
        exact congrArg _ (take_min_length it.2 st.data_len)
    | cons it2 items2 =>
      simp only [List.length_cons, Nat.add_sub_cancel] at hlen
      rw [Nat.add_mul, Nat.one_mul] at hlen
      have hmin : min st.data_len env.BLOCK_LEN = env.BLOCK_LEN := by
        apply Nat.min_eq_right; omega
      rw [hmin]
      rw [ih _ (fun x hx => hv x (List.mem_cons_of_mem _ hx))
        (fun x hx => hr x (List.mem_cons_of_mem _ hx))
        (by simp only [List.length_cons, Nat.add_sub_cancel]; omega)]
      congr 1
      have e1 : st.data_len - env.BLOCK_LEN - (it2 :: items2).length * env.BLOCK_LEN =
          st.data_len - (it :: it2 :: items2).length * env.BLOCK_LEN := by
        simp only [List.length_cons]
        rw [Nat.add_mul (items2.length + 1) 1, Nat.one_mul]
        omega
      have e2 : st.out ++ it.2.take env.BLOCK_LEN ++
            ((List.map Prod.snd (it2 :: items2)).flatten).take (st.data_len - env.BLOCK_LEN) =
          st.out ++ ((List.map Prod.snd (it :: it2 :: items2)).flatten).take st.data_len := by
        have t1 : it.2.take env.BLOCK_LEN = it.2 := List.take_of_length_le (by omega)
        have t2 : it.2.take st.data_len = it.2 := List.take_of_length_le (by omega)
        rw [List.map_cons _ it, List.flatten_cons, List.take_append_eq_append_take, t1, t2,
          hB, List.append_assoc]
      rw [e1, e2]
      simp [List.append_assoc]

end SbCat
end Gob

namespace Gob
namespace SbCat

/-- The loop on valid hash lines with stored blocks when the declared length is
exhausted before the last of them: the run dies on the first line reached
with nothing left to write. -/
theorem sb_loop_overrun (env : Env) (dirfd : List Nat → Option (List Nat → Option File))
    (th : List Nat) (items : List (List Nat × List Nat)) (more : List (List Nat)) (st : State)
    (hv : ∀ it ∈ items, (hex2bin env.HASH_LEN it.1).isSome = true)
    (hr : ∀ it ∈ items, read_block env.BLOCK_LEN dirfd it.1 = Except.ok it.2)
    (hout : ∀ a b, env.io.stdout_ok a b = true)
    (hne : items ≠ [])
    (hlen : st.data_len ≤ (items.length - 1) * env.BLOCK_LEN) :
    ∃ m, m < items.length ∧
      loop env dirfd th (items.map Prod.fst ++ more) st =
        ⟨Exit.die Diag.more_lines_but_all_data_read,
          st.out ++ ((items.map Prod.snd).flatten).take st.data_len,
          st.opened ++ (items.map Prod.fst).take m⟩ := by
  induction items generalizing st with
  | nil => exact absurd rfl hne
  | cons it items ih =>
    obtain ⟨d, hd⟩ := Option.isSome_iff_exists.mp (hv it (List.mem_cons_self _ _))
    have hh := hex2bin_head _ _ _ hd
    by_cases h0 : st.data_len = 0
    · refine ⟨0, by simp, ?_⟩
      rw [List.map_cons, List.cons_append, sb_loop_surplus env dirfd th _ _ st hh h0, h0]
      simp
    · have hB := read_block_length _ _ _ _ (hr it (List.mem_cons_self _ _))
      cases items with
      | nil => simp at hlen; exact absurd hlen h0
      | cons it2 items2 =>
        simp only [List.length_cons, Nat.add_sub_cancel] at hlen
        rw [Nat.add_mul, Nat.one_mul] at hlen
        obtain ⟨m, hm, hrun⟩ := ih
          { hashed := st.hashed ++ it.2
            data_len := st.data_len - min st.data_len env.BLOCK_LEN
            out := st.out ++ it.2.take (min st.data_len env.BLOCK_LEN)
            opened := st.opened ++ [it.1] }
          (fun x hx => hv x (List.mem_cons_of_mem _ hx))
          (fun x hx => hr x (List.mem_cons_of_mem _ hx)) (by simp)
          (by simp only [List.length_cons, Nat.add_sub_cancel]; omega)
        refine ⟨m + 1, by simp only [List.length_cons] at hm ⊢; omega, ?_⟩
        rw [List.map_cons, List.cons_append,
          sb_loop_step env dirfd th it.1 it.2 _ st (hv it (List.mem_cons_self _ _)) h0
            (hr it (List.mem_cons_self _ _)) hout, hrun]
        have e1 : st.data_len - min st.data_len env.BLOCK_LEN = st.data_len - it.2.length := by
          rw [hB]; omega
        have e2 : it.2.take (min st.data_len env.BLOCK_LEN) = it.2.take st.data_len := by
          rw [← hB]; exact take_min_length it.2 st.data_len
        simp only [e1, e2]
        rw [List.map_cons _ it, List.flatten_cons, List.take_append_eq_append_take]
        simp [List.append_assoc]

theorem sb_main_eq_loop (env : Env) (prog dir : List Nat)
    (dirfd : List Nat → Option (List Nat → Option File)) (D : List Nat) (L : Nat)
    (hdir : env.open_dir dir = some dirfd) (herr : env.io.stdin_error = false)
    (hparse : parse_trailer env.HASH_LEN env.io.stdin = Except.ok (D, L)) :
    main env [prog, dir] =
      loop env dirfd D (strtok_all (cstr env.io.stdin)) ⟨[], L, [], []⟩ := by
  have h1 : env.open_dir ([prog, dir].getD 1 []) = some dirfd := hdir
  unfold main
  rw [if_neg (by simp), h1]
  simp only [herr, hparse]
  simp

theorem sb_parse_trailer_pos (H : Nat) (stdin D : List Nat) (L : Nat)
    (h : parse_trailer H stdin = Except.ok (D, L)) : L ≠ 0 := by
  unfold parse_trailer at h
  split at h
  · cases h
  · cases h
  · dsimp only at h
    split at h
    · cases h
    · split at h
      · cases h
      · split at h
        · cases h
        · split at h
          · cases h
          · split at h
            · cases h
            · rename_i hz
              split at h
              · cases h
              · simp only [Except.ok.injEq, Prod.mk.injEq] at h
                rw [← h.2]
                exact hz

end SbCat
end Gob

namespace Gob
namespace SbCat

/-- The three ways an iteration on a line that does not begin with '>' can go: it
dies before the block is looked up, it dies on the block, or it goes on. -/
theorem sb_loop_cons_cases (env : Env) (dirfd : List Nat → Option (List Nat → Option File))
    (th : List Nat) (hash : List Nat) (rest : List (List Nat)) (st : State)
    (hh : hash.head? ≠ some 62) :
    (∃ d, loop env dirfd th (hash :: rest) st = ⟨Exit.die d, st.out, st.opened⟩) ∨
    (∃ d, (hex2bin env.HASH_LEN hash).isSome = true ∧ st.data_len ≠ 0 ∧
      loop env dirfd th (hash :: rest) st = ⟨Exit.die d, st.out, st.opened ++ [hash]⟩) ∨
    (∃ data, st.data_len ≠ 0 ∧ (hex2bin env.HASH_LEN hash).isSome = true ∧
      read_block env.BLOCK_LEN dirfd hash = Except.ok data ∧
      loop env dirfd th (hash :: rest) st =
        loop env dirfd th rest
          { hashed := st.hashed ++ data
            data_len := st.data_len - min st.data_len env.BLOCK_LEN
            out := st.out ++ data.take (min st.data_len env.BLOCK_LEN)
            opened := st.opened ++ [hash] }) := by
  rw [loop]
  simp only [hh, if_false, MIN_eq]
  by_cases h0 : st.data_len = 0
  · left; exact ⟨Diag.more_lines_but_all_data_read, by simp [h0]⟩
  · simp only [h0, if_false]
    cases hd : hex2bin env.HASH_LEN hash with
    | none => left; exact ⟨_, rfl⟩
    | some x =>
      simp only []
      cases hr : read_block env.BLOCK_LEN dirfd hash with
      | error d => right; left; exact ⟨d, rfl, h0, rfl⟩
      | ok data =>
        simp only []
        by_cases hw : env.io.stdout_ok st.out.length (min st.data_len env.BLOCK_LEN) = false
        · right; left
          exact ⟨Diag.unable_to_write_block hash, rfl, h0, by simp [hw]⟩
        · right; right
          exact ⟨data, h0, rfl, rfl, by simp [hw]⟩

/-- In every run, a block is looked up only for a line that decodes as a digest. -/
theorem sb_loop_opened_valid (env : Env) (dirfd : List Nat → Option (List Nat → Option File))
    (th : List Nat) (toks : List (List Nat)) (st : State) :
    ∀ nm ∈ (loop env dirfd th toks st).opened,
      nm ∈ st.opened ∨ (hex2bin env.HASH_LEN nm).isSome = true := by
  induction toks generalizing st with
  | nil =>
    intro nm hnm
    left
    rw [loop] at hnm
    unfold finish at hnm
    split at hnm
    · exact hnm
    · split at hnm <;> exact hnm
  | cons hash rest ih =>
    intro nm hnm
    by_cases hh : hash.head? = some 62
    · left
      rw [sb_loop_stop _ _ _ _ _ _ hh] at hnm
      unfold finish at hnm
      split at hnm
      · exact hnm
      · split at hnm <;> exact hnm
    · rcases sb_loop_cons_cases env dirfd th hash rest st hh with
        ⟨d, h⟩ | ⟨d, hv, _, h⟩ | ⟨data, _, hv, _, h⟩
      · rw [h] at hnm; left; exact hnm
      · rw [h] at hnm
        simp only [List.mem_append, List.mem_singleton] at hnm
        rcases hnm with hnm | hnm
        · left; exact hnm
        · right; rw [hnm]; exact hv
      · rw [h] at hnm
        rcases ih _ nm hnm with h1 | h1
        · simp only [List.mem_append, List.mem_singleton] at h1
          rcases h1 with h1 | h1
          · left; exact h1
          · right; rw [h1]; exact hv
        · right; exact h1

theorem sb_finish_opened (env : Env) (th : List Nat) (st : State) :
    (finish env th st).opened = st.opened := by
  unfold finish
  split
  · rfl
  · split <;> rfl

/-- In a successful run, every line before the first line that begins with '>'
decodes as a digest and every block that was looked up was read in full. -/
theorem sb_loop_success (env : Env) (dirfd : List Nat → Option (List Nat → Option File))
    (th : List Nat) (toks : List (List Nat)) (st : State)
    (hs : (loop env dirfd th toks st).exit = Exit.success) :
    (∀ t ∈ toks.takeWhile (fun t => t.head? != some 62),
      (hex2bin env.HASH_LEN t).isSome = true) ∧
    (∀ nm ∈ (loop env dirfd th toks st).opened,
      nm ∈ st.opened ∨ ∃ data, read_block env.BLOCK_LEN dirfd nm = Except.ok data) := by
  induction toks generalizing st with
  | nil =>
    refine ⟨by simp, ?_⟩
    intro nm hnm
    rw [loop, sb_finish_opened] at hnm
    left; exact hnm
  | cons hash rest ih =>
    by_cases hh : hash.head? = some 62
    · refine ⟨by simp [hh], ?_⟩
      intro nm hnm
      rw [sb_loop_stop _ _ _ _ _ _ hh, sb_finish_opened] at hnm
      left; exact hnm
    · rcases sb_loop_cons_cases env dirfd th hash rest st hh with
        ⟨d, h⟩ | ⟨d, _, _, h⟩ | ⟨data, _, hv, hr, h⟩
      · rw [h] at hs; cases hs
      · rw [h] at hs; cases hs
      · rw [h] at hs ⊢
        obtain ⟨h1, h2⟩ := ih _ hs
        constructor
        · intro t ht
          have hp : (hash.head? != some 62) = true := by simpa using hh
          simp only [List.takeWhile_cons, hp, if_true, List.mem_cons] at ht
          rcases ht with ht | ht
          · rw [ht]; exact hv
          · exact h1 t ht
        · intro nm hnm
          rcases h2 nm hnm with h3 | h3
          · simp only [List.mem_append, List.mem_singleton] at h3
            rcases h3 with h3 | h3
            · left; exact h3
            · right; rw [h3]; exact ⟨data, hr⟩
          · right; exact h3

end SbCat
end Gob

namespace Gob
namespace SbCat

theorem read_trailer_hash_error (n : Nat) (mem : List Nat) (e : Exit)
    (h : read_trailer_hash n mem = Except.error e) : e ≠ Exit.success := by
  induction n generalizing mem with
  | zero => simp [read_trailer_hash] at h
  | succ n ih =>
    cases mem with
    | nil =>
      simp only [read_trailer_hash] at h
      cases h
      intro h2; cases h2
    | cons c mem =>
      simp only [read_trailer_hash] at h
      split at h
      · cases h
        intro h2; cases h2
      · split at h
        · rename_i e2 hrd
          cases h
          exact ih mem hrd
        · cases h

theorem sb_parse_trailer_error (H : Nat) (stdin : List Nat) (e : Exit)
    (h : parse_trailer H stdin = Except.error e) : e ≠ Exit.success := by
  intro he
  subst he
  unfold parse_trailer at h
  split at h
  · cases h
  · cases h
  · dsimp only at h
    split at h
    · cases h
    · split at h
      · rename_i e hrd
        cases h
        exact read_trailer_hash_error _ _ _ hrd rfl
      · split at h
        · cases h
        · split at h
          · cases h
          · split at h
            · cases h
            · split at h
              · cases h
              · cases h

theorem sb_main_alive (env : Env) (argv : List (List Nat))
    (hs : (main env argv).exit = Exit.success) :
    ∃ dirfd D L, env.open_dir (argv.getD 1 []) = some dirfd ∧
      parse_trailer env.HASH_LEN env.io.stdin = Except.ok (D, L) ∧
      main env argv = loop env dirfd D (strtok_all (cstr env.io.stdin)) ⟨[], L, [], []⟩ := by
  unfold main at hs ⊢
  by_cases h1 : argv.length = 2
  · rw [if_neg (not_not.mpr h1)] at hs ⊢
    cases h2 : env.open_dir (argv.getD 1 []) with
    | none => rw [h2] at hs; cases hs
    | some dirfd =>
      rw [h2] at hs
      simp only [] at hs ⊢
      cases h3 : env.io.stdin_error with
      | true => rw [h3] at hs; cases hs
      | false =>
        rw [h3] at hs
        simp only [Bool.false_eq_true, if_false] at hs ⊢
        cases h4 : parse_trailer env.HASH_LEN env.io.stdin with
        | error e =>
          rw [h4] at hs
          exact absurd hs (sb_parse_trailer_error _ _ _ h4)
        | ok r =>
          obtain ⟨D, L⟩ := r
          exact ⟨dirfd, D, L, rfl, rfl, rfl⟩
  · rw [if_pos h1] at hs; cases hs

theorem length_flatten_blocks (B : Nat) (blocks : List (List Nat))
    (h : ∀ b ∈ blocks, b.length = B) : blocks.flatten.length = blocks.length * B := by
  induction blocks with
  | nil => simp
  | cons b bs ih =>
    rw [List.flatten_cons, List.length_append, h b (List.mem_cons_self _ _),
      ih (fun x hx => h x (List.mem_cons_of_mem _ hx)), List.length_cons, Nat.add_mul,
      Nat.one_mul, Nat.add_comm]

/-- The characterisation of sb-cat in terms of the tokens of the loop and of the
parsed trailer: n lines that decode as digests, with blocks stored with exactly
BLOCK_LEN bytes, followed by a last line that begins with '>', and a trailer
that parses to the digest D and the length L. -/
theorem sb_characterisation_of_tokens (env : Env) (prog dir : List Nat)
    (dirfd : List Nat → Option (List Nat → Option File))
    (items : List (List Nat × List Nat)) (tr D : List Nat) (L : Nat)
    (hB : 0 < env.BLOCK_LEN)
    (hdir : env.open_dir dir = some dirfd)
    (herr : env.io.stdin_error = false)
    (hout : ∀ a b, env.io.stdout_ok a b = true)
    (htok : strtok_all (cstr env.io.stdin) = items.map Prod.fst ++ [tr])
    (htr : tr.head? = some 62)
    (hparse : parse_trailer env.HASH_LEN env.io.stdin = Except.ok (D, L))
    (hvalid : ∀ it ∈ items, (hex2bin env.HASH_LEN it.1).isSome = true)
    (hstored : ∀ it ∈ items, Stored env.BLOCK_LEN dirfd it.1 it.2) :
    1 ≤ L ∧
    ((main env [prog, dir]).exit = Exit.success ↔
      items.length = (L + env.BLOCK_LEN - 1) / env.BLOCK_LEN ∧
      env.hash (items.map Prod.snd).flatten = D) ∧
    ((main env [prog, dir]).exit = Exit.success →
      (main env [prog, dir]).out = ((items.map Prod.snd).flatten).take L) ∧
    (∀ (env2 : Env) (argv2 : List (List Nat)),
      (main env2 argv2).exit = Exit.success →
      ∀ nm ∈ (main env2 argv2).opened, ∃ dirfd2 shardfd fd data,
        env2.open_dir (argv2.getD 1 []) = some dirfd2 ∧
        dirfd2 (nm.take 2) = some shardfd ∧ shardfd (nm.drop 2) = some fd ∧
        read_bytes fd env2.BLOCK_LEN = some data ∧ data.length = env2.BLOCK_LEN) := by
  have hL0 := sb_parse_trailer_pos _ _ _ _ hparse
  have hL : 0 < L := Nat.pos_of_ne_zero hL0
  have hmain := sb_main_eq_loop env prog dir dirfd D L hdir herr hparse
  rw [htok] at hmain
  have hr : ∀ it ∈ items, read_block env.BLOCK_LEN dirfd it.1 = Except.ok it.2 :=
    fun it h => read_block_stored _ _ _ _ (hstored it h)
  refine ⟨hL, ?_, ?_, ?_⟩
  · by_cases hc1 : (items.length - 1) * env.BLOCK_LEN < L
    · have hrun := sb_loop_blocks env dirfd D items [tr] ⟨[], L, [], []⟩ hvalid hr hout hc1
      rw [sb_loop_stop _ _ _ _ _ _ htr] at hrun
      rw [hmain, hrun, ceil_div_iff _ _ _ hB hL]
      unfold finish
      by_cases hc2 : L ≤ items.length * env.BLOCK_LEN
      · have hz : L - items.length * env.BLOCK_LEN = 0 := by omega
        simp only [hz, ne_eq, not_true_eq_false, if_false, List.nil_append]
        by_cases hh : env.hash (items.map Prod.snd).flatten = D
        · simp [hh, hc1, hc2]
        · simp [hh]
      · have hz : L - items.length * env.BLOCK_LEN ≠ 0 := by omega
        simp only [hz, ne_eq, not_false_eq_true, if_true]
        constructor
        · intro h; cases h
        · intro h; exact absurd h.1.2 hc2
    · have hne : items ≠ [] := by
        intro h; subst h; simp at hc1; omega
      obtain ⟨m, _, hrun⟩ := sb_loop_overrun env dirfd D items [tr] ⟨[], L, [], []⟩ hvalid hr
        hout hne (by simpa using Nat.le_of_not_lt hc1)
      rw [hmain, hrun, ceil_div_iff _ _ _ hB hL]
      constructor
      · intro h; cases h
      · intro h; exact absurd h.1.1 hc1
  · intro hs
    rw [hmain] at hs ⊢
    by_cases hc1 : (items.length - 1) * env.BLOCK_LEN < L
    · have hrun := sb_loop_blocks env dirfd D items [tr] ⟨[], L, [], []⟩ hvalid hr hout hc1
      rw [sb_loop_stop _ _ _ _ _ _ htr] at hrun
      rw [hrun] at hs ⊢
      unfold finish at hs ⊢
      split at hs
      · cases hs
      · split at hs
        · cases hs
        · rename_i h1 h2
          rw [if_neg h1, if_neg h2]
          simp
    · have hne : items ≠ [] := by
        intro h; subst h; simp at hc1; omega
      obtain ⟨m, _, hrun⟩ := sb_loop_overrun env dirfd D items [tr] ⟨[], L, [], []⟩ hvalid hr
        hout hne (by simpa using Nat.le_of_not_lt hc1)
      rw [hrun] at hs; cases hs
  · intro env2 argv2 hs nm hnm
    obtain ⟨dirfd2, D2, L2, h1, _, h3⟩ := sb_main_alive env2 argv2 hs
    rw [h3] at hs hnm
    rcases (sb_loop_success env2 dirfd2 D2 _ _ hs).2 nm hnm with h4 | ⟨data, h4⟩
    · simp at h4
    · obtain ⟨shardfd, fd, g1, g2, g3, g4⟩ := (read_block_ok_iff _ _ _ _).mp h4
      exact ⟨dirfd2, shardfd, fd, data, h1, g1, g2, g3, g4⟩

end SbCat
end Gob

namespace Gob
namespace SbCat

/-- A surplus line in terms of the tokens of the loop and of the parsed trailer: as
many valid lines with stored blocks as the ceiling of L / BLOCK_LEN, followed
by a further token that does not begin with '>'. -/
theorem sb_surplus_line_of_tokens (env : Env) (prog dir : List Nat)
    (dirfd : List Nat → Option (List Nat → Option File))
    (items : List (List Nat × List Nat)) (t : List Nat) (rest : List (List Nat))
    (D : List Nat) (L : Nat)
    (hB : 0 < env.BLOCK_LEN)
    (hdir : env.open_dir dir = some dirfd)
    (herr : env.io.stdin_error = false)
    (hout : ∀ a b, env.io.stdout_ok a b = true)
    (htok : strtok_all (cstr env.io.stdin) = items.map Prod.fst ++ t :: rest)
    (ht : t.head? ≠ some 62)
    (hparse : parse_trailer env.HASH_LEN env.io.stdin = Except.ok (D, L))
    (hvalid : ∀ it ∈ items, (hex2bin env.HASH_LEN it.1).isSome = true)
    (hstored : ∀ it ∈ items, Stored env.BLOCK_LEN dirfd it.1 it.2)
    (hn : items.length = (L + env.BLOCK_LEN - 1) / env.BLOCK_LEN) :
    main env [prog, dir] =
      ⟨Exit.die Diag.more_lines_but_all_data_read, ((items.map Prod.snd).flatten).take L,
        items.map Prod.fst⟩ ∧
    (main env [prog, dir]).out.length = L := by
  have hL : 0 < L := Nat.pos_of_ne_zero (sb_parse_trailer_pos _ _ _ _ hparse)
  obtain ⟨hc1, hc2⟩ := (ceil_div_iff _ _ _ hB hL).mp hn
  have hr : ∀ it ∈ items, read_block env.BLOCK_LEN dirfd it.1 = Except.ok it.2 :=
    fun it h => read_block_stored _ _ _ _ (hstored it h)
  have hrun : main env [prog, dir] =
      ⟨Exit.die Diag.more_lines_but_all_data_read, ((items.map Prod.snd).flatten).take L,
        items.map Prod.fst⟩ := by
    rw [sb_main_eq_loop env prog dir dirfd D L hdir herr hparse, htok,
      sb_loop_blocks env dirfd D items (t :: rest) ⟨[], L, [], []⟩ hvalid hr hout hc1,
      sb_loop_surplus _ _ _ _ _ _ ht (by simp only []; omega)]
    simp
  refine ⟨hrun, ?_⟩
  rw [hrun]
  have hflat : ((items.map Prod.snd).flatten).length = items.length * env.BLOCK_LEN := by
    rw [length_flatten_blocks env.BLOCK_LEN]
    · simp
    · intro b hb
      obtain ⟨it, hit, rfl⟩ := List.mem_map.mp hb
      obtain ⟨_, _, _, h3⟩ := hstored it hit
      exact h3
  simp only [List.length_take, hflat]
  omega

end SbCat
end Gob

namespace Gob
namespace SbCat

/-- An under-declared length in terms of the tokens of the loop and of the parsed
trailer: n >= 1 valid lines with stored blocks followed by a last line that
begins with '>', and a declared length of at most n * BLOCK_LEN. -/
theorem sb_underdeclared_of_tokens (env : Env) (prog dir : List Nat)
    (dirfd : List Nat → Option (List Nat → Option File))
    (items : List (List Nat × List Nat)) (tr D : List Nat) (declared : Nat)
    (hdir : env.open_dir dir = some dirfd)
    (herr : env.io.stdin_error = false)
    (hout : ∀ a b, env.io.stdout_ok a b = true)
    (htok : strtok_all (cstr env.io.stdin) = items.map Prod.fst ++ [tr])
    (htr : tr.head? = some 62)
    (hparse : parse_trailer env.HASH_LEN env.io.stdin = Except.ok (D, declared))
    (hvalid : ∀ it ∈ items, (hex2bin env.HASH_LEN it.1).isSome = true)
    (hstored : ∀ it ∈ items, Stored env.BLOCK_LEN dirfd it.1 it.2)
    (hne : items ≠ [])
    (hle : declared ≤ items.length * env.BLOCK_LEN) :
    (declared ≤ (items.length - 1) * env.BLOCK_LEN →
      (main env [prog, dir]).exit = Exit.die Diag.more_lines_but_all_data_read ∧
      (main env [prog, dir]).out = ((items.map Prod.snd).flatten).take declared) ∧
    ((items.length - 1) * env.BLOCK_LEN < declared →
      main env [prog, dir] =
        ⟨if env.hash (items.map Prod.snd).flatten = D then Exit.success
          else Exit.die Diag.trailer_hash_mismatch,
          ((items.map Prod.snd).flatten).take declared, items.map Prod.fst⟩) ∧
    (2 ≤ env.BLOCK_LEN → declared = items.length * env.BLOCK_LEN - 1 →
      (main env [prog, dir]).exit ≠ Exit.die Diag.more_lines_but_all_data_read ∧
      (main env [prog, dir]).out = ((items.map Prod.snd).flatten).take declared) := by
  have hmain := sb_main_eq_loop env prog dir dirfd D declared hdir herr hparse
  rw [htok] at hmain
  have hr : ∀ it ∈ items, read_block env.BLOCK_LEN dirfd it.1 = Except.ok it.2 :=
    fun it h => read_block_stored _ _ _ _ (hstored it h)
  have hsecond : (items.length - 1) * env.BLOCK_LEN < declared →
      main env [prog, dir] =
        ⟨if env.hash (items.map Prod.snd).flatten = D then Exit.success
          else Exit.die Diag.trailer_hash_mismatch,
          ((items.map Prod.snd).flatten).take declared, items.map Prod.fst⟩ := by
    intro hc
    rw [hmain, sb_loop_blocks env dirfd D items [tr] ⟨[], declared, [], []⟩ hvalid hr hout hc,
      sb_loop_stop _ _ _ _ _ _ htr]
    unfold finish
    have hz : declared - items.length * env.BLOCK_LEN = 0 := by omega
    simp only [hz, ne_eq, not_true_eq_false, if_false, List.nil_append]
    by_cases hh : env.hash (items.map Prod.snd).flatten = D <;> simp [hh]
  refine ⟨?_, hsecond, ?_⟩
  · intro hc
    obtain ⟨m, _, hrun⟩ := sb_loop_overrun env dirfd D items [tr] ⟨[], declared, [], []⟩
      hvalid hr hout hne hc
    rw [hmain, hrun]
    simp
  · intro hB hd
    have hn : 0 < items.length := List.length_pos.mpr hne
    have hc : (items.length - 1) * env.BLOCK_LEN < declared := by
      obtain ⟨k, hk⟩ : ∃ k, items.length = k + 1 := ⟨items.length - 1, by omega⟩
      rw [hd, hk, Nat.add_sub_cancel, Nat.add_mul, Nat.one_mul]
      omega
    rw [hsecond hc]
    refine ⟨?_, rfl⟩
    by_cases hh : env.hash (items.map Prod.snd).flatten = D
    · simp [hh]
    · simp [hh]

theorem sb_main_opened_valid (env : Env) (argv : List (List Nat)) :
    ∀ nm ∈ (main env argv).opened, (hex2bin env.HASH_LEN nm).isSome = true := by
  intro nm hnm
  unfold main at hnm
  split at hnm
  · simp at hnm
  · split at hnm
    · simp at hnm
    · split at hnm
      · simp at hnm
      · split at hnm
        · simp at hnm
        · rcases sb_loop_opened_valid _ _ _ _ _ nm hnm with h | h
          · simp at h
          · exact h

theorem strtok_all_ne_nil (s : List Nat) : [] ∉ strtok_all s := by
  intro h
  unfold strtok_all at h
  simp at h

/-- The validation of hash lines in terms of the tokens of the loop and of the
parsed trailer: valid lines with stored blocks that do not exhaust the
declared length, followed by a token that neither begins with '>' nor decodes
as a digest. -/
theorem sb_hash_line_validation_of_tokens (env : Env) (prog dir : List Nat)
    (dirfd : List Nat → Option (List Nat → Option File))
    (items : List (List Nat × List Nat)) (t : List Nat) (rest : List (List Nat))
    (D : List Nat) (L : Nat)
    (hdir : env.open_dir dir = some dirfd)
    (herr : env.io.stdin_error = false)
    (hout : ∀ a b, env.io.stdout_ok a b = true)
    (htok : strtok_all (cstr env.io.stdin) = items.map Prod.fst ++ t :: rest)
    (ht : t.head? ≠ some 62)
    (hbad : hex2bin env.HASH_LEN t = none)
    (hparse : parse_trailer env.HASH_LEN env.io.stdin = Except.ok (D, L))
    (hvalid : ∀ it ∈ items, (hex2bin env.HASH_LEN it.1).isSome = true)
    (hstored : ∀ it ∈ items, Stored env.BLOCK_LEN dirfd it.1 it.2)
    (hlen : items.length * env.BLOCK_LEN < L) :
    main env [prog, dir] =
      ⟨Exit.die Diag.unable_to_decode_hash, (items.map Prod.snd).flatten,
        items.map Prod.fst⟩ ∧
    (∀ (env2 : Env) (argv2 : List (List Nat)),
      (∀ nm ∈ (main env2 argv2).opened, (hex2bin env2.HASH_LEN nm).isSome = true) ∧
      ((main env2 argv2).exit = Exit.success →
        ∀ l ∈ (strtok_all (cstr env2.io.stdin)).takeWhile (fun l => l.head? != some 62),
          (hex2bin env2.HASH_LEN l).isSome = true)) ∧
    (∀ s, [] ∉ strtok_all s) := by
  have hr : ∀ it ∈ items, read_block env.BLOCK_LEN dirfd it.1 = Except.ok it.2 :=
    fun it h => read_block_stored _ _ _ _ (hstored it h)
  have hflat : ((items.map Prod.snd).flatten).length = items.length * env.BLOCK_LEN := by
    rw [length_flatten_blocks env.BLOCK_LEN]
    · simp
    · intro b hb
      obtain ⟨it, hit, rfl⟩ := List.mem_map.mp hb
      obtain ⟨_, _, _, h3⟩ := hstored it hit
      exact h3
  have hc : (items.length - 1) * env.BLOCK_LEN < L :=
    Nat.lt_of_le_of_lt (Nat.mul_le_mul_right _ (Nat.sub_le _ _)) hlen
  refine ⟨?_, ?_, strtok_all_ne_nil⟩
  · rw [sb_main_eq_loop env prog dir dirfd D L hdir herr hparse, htok,
      sb_loop_blocks env dirfd D items (t :: rest) ⟨[], L, [], []⟩ hvalid hr hout hc,
      sb_loop_undecodable _ _ _ _ _ _ ht (by simp only []; omega) hbad]
    simp only [List.nil_append]
    rw [List.take_of_length_le (by omega)]
  · intro env2 argv2
    refine ⟨sb_main_opened_valid env2 argv2, ?_⟩
    intro hs
    obtain ⟨dirfd2, D2, L2, _, _, h3⟩ := sb_main_alive env2 argv2 hs
    rw [h3] at hs
    exact (sb_loop_success env2 dirfd2 D2 _ _ hs).1

end SbCat
end Gob

namespace Gob
namespace SbCat

/-! ## The text of a chain as sb-cat reads it -/

theorem split_newline_line (l rest : List Nat) (h : ∀ c ∈ l, c ≠ 10) :
    split_newline (l ++ 10 :: rest) = l :: split_newline rest := by
  induction l with
  | nil => simp [split_newline]
  | cons a l ih =>
    have ha : a ≠ 10 := h a (List.mem_cons_self _ _)
    rw [List.cons_append, split_newline]
    simp only [ha, if_false]
    rw [ih (fun x hx => h x (List.mem_cons_of_mem _ hx))]

theorem strtok_all_line (l rest : List Nat) (hne : l ≠ []) (h : ∀ c ∈ l, c ≠ 10) :
    strtok_all (l ++ 10 :: rest) = l :: strtok_all rest := by
  unfold strtok_all
  rw [split_newline_line l rest h, List.filter_cons_of_pos]
  cases l with
  | nil => exact absurd rfl hne
  | cons a l => rfl

theorem strtok_all_nil : strtok_all [] = [] := by
  simp [strtok_all, split_newline]

theorem strtok_all_chain_text (lines : List (List Nat)) (tail : List Nat)
    (h : ∀ l ∈ lines, IsLine l) :
    strtok_all (chain_text lines tail) = lines ++ strtok_all tail := by
  unfold chain_text
  induction lines with
  | nil => simp
  | cons l lines ih =>
    have hl := h l (List.mem_cons_self _ _)
    simp only [List.map_cons, List.flatten_cons, List.append_assoc, List.singleton_append,
      List.cons_append]
    rw [strtok_all_line l _ hl.1 (fun c hc => (hl.2 c hc).1), List.nil_append,
      ih (fun x hx => h x (List.mem_cons_of_mem _ hx))]

theorem get?_append_add (l₁ l₂ : List Nat) (j : Nat) :
    (l₁ ++ l₂).get? (l₁.length + j) = l₂.get? j := by
  induction l₁ with
  | nil => rw [List.nil_append, List.length_nil, Nat.zero_add]
  | cons a l ih =>
    rw [List.cons_append, List.length_cons, Nat.add_right_comm, List.get?_cons_succ]
    exact ih

theorem get?_of_lt (l : List Nat) (j : Nat) (h : j < l.length) :
    ∃ c, l.get? j = some c ∧ c ∈ l := by
  cases hc : l.get? j with
  | none =>
    have := List.get?_eq_none.mp hc
    omega
  | some c => exact ⟨c, rfl, List.get?_mem hc⟩

/-- The first loop of `find_last_line` over trailing newlines. -/
theorem skip_newlines_spec (b0 : List Nat) (x : Nat) (nls : List Nat) (j : Nat)
    (hx : x ≠ 10) (hn : ∀ c ∈ nls, c = 10) (hj : j ≤ nls.length) :
    skip_newlines (b0 ++ x :: nls) (b0.length + j) = some b0.length := by
  induction j with
  | zero =>
    have hget : (b0 ++ x :: nls).get? b0.length = some x := by
      have := get?_append_add b0 (x :: nls) 0
      rw [Nat.add_zero] at this
      rw [this]; rfl
    cases hb : b0.length with
    | zero =>
      rw [hb] at hget
      simp only [Nat.add_zero, skip_newlines, hget, Option.some.injEq, hx, if_false]
    | succ e =>
      rw [hb] at hget
      simp only [Nat.add_zero, skip_newlines, hget, Option.some.injEq, hx, if_false]
  | succ j ih =>
    have hget : (b0 ++ x :: nls).get? (b0.length + j + 1) = some 10 := by
      have hlt : j < nls.length := by omega
      rw [Nat.add_assoc, get?_append_add, List.get?_cons_succ]
      obtain ⟨c, hc, hmem⟩ := get?_of_lt nls j hlt
      rw [hc, hn c hmem]
    rw [← Nat.add_assoc, skip_newlines, hget]
    simp only [if_true]
    exact ih (by omega)

theorem get?_append_lt (l₁ l₂ : List Nat) (j : Nat) (h : j < l₁.length) :
    (l₁ ++ l₂).get? j = l₁.get? j := by
  induction l₁ generalizing j with
  | nil => simp at h
  | cons a l ih =>
    cases j with
    | zero => rfl
    | succ j =>
      rw [List.cons_append, List.get?_cons_succ, List.get?_cons_succ]
      exact ih j (by simpa using h)

/-- The second loop of `find_last_line` inside the last line. -/
theorem line_start_spec (pre line rest : List Nat) (j : Nat)
    (hpre : pre = [] ∨ ∃ p, pre = p ++ [10]) (hl : ∀ c ∈ line, c ≠ 10)
    (hj : j ≤ line.length) :
    line_start (pre ++ (line ++ rest)) (pre.length + j) = pre.length := by
  induction j with
  | zero =>
    rcases hpre with hp | ⟨p, hp⟩
    · subst hp; rfl
    · subst hp
      have hget : (p ++ [10] ++ (line ++ rest)).get? p.length = some 10 := by
        have := get?_append_add p ([10] ++ (line ++ rest)) 0
        rw [Nat.add_zero] at this
        rw [List.append_assoc, this]; rfl
      simp only [List.length_append, List.length_singleton, Nat.add_zero, line_start, hget,
        ne_eq, not_true_eq_false, if_false]
  | succ j ih =>
    have hlt : j < line.length := by omega
    obtain ⟨c, hc, hmem⟩ := get?_of_lt line j hlt
    have hget : (pre ++ (line ++ rest)).get? (pre.length + j) = some c := by
      rw [get?_append_add, get?_append_lt _ _ _ hlt, hc]
    have hne : c ≠ 10 := hl c hmem
    rw [← Nat.add_assoc, line_start, hget]
    simp only [ne_eq, Option.some.injEq, hne, not_false_eq_true, if_true]
    exact ih (by omega)

/-- `find_last_line` on a text that ends with a non-empty line and newlines. -/
theorem find_last_line_spec (pre line nls : List Nat)
    (hpre : pre = [] ∨ ∃ p, pre = p ++ [10])
    (hne : line ≠ []) (hl : ∀ c ∈ line, c ≠ 10) (hn : ∀ c ∈ nls, c = 10) :
    find_last_line (pre ++ (line ++ nls)) =
      if pre = [] then Line.null else Line.at pre.length := by
  obtain ⟨l0, x, rfl⟩ : ∃ l0 x, line = l0 ++ [x] :=
    ⟨line.dropLast, line.getLast hne, (List.dropLast_append_getLast hne).symm⟩
  have hx : x ≠ 10 := hl x (by simp)
  have hs : pre ++ (l0 ++ [x] ++ nls) = (pre ++ l0) ++ x :: nls := by simp
  have hlen : (pre ++ (l0 ++ [x] ++ nls)).length - 1 = (pre ++ l0).length + nls.length := by
    simp only [List.length_append, List.length_singleton]; omega
  have h1 : skip_newlines (pre ++ (l0 ++ [x] ++ nls)) ((pre ++ (l0 ++ [x] ++ nls)).length - 1)
      = some (pre ++ l0).length := by
    rw [hlen, hs]
    exact skip_newlines_spec (pre ++ l0) x nls nls.length hx hn (Nat.le_refl _)
  have h2 : line_start (pre ++ (l0 ++ [x] ++ nls)) (pre ++ l0).length = pre.length := by
    rw [List.length_append]
    exact line_start_spec pre (l0 ++ [x]) nls l0.length hpre hl (by simp)
  unfold find_last_line
  rw [if_neg (by simp), h1]
  simp only [h2]
  by_cases hp : pre = []
  · subst hp; simp
  · have : pre.length ≠ 0 := fun h => hp (List.length_eq_zero.mp h)
    simp [hp, this]

theorem read_trailer_hash_hex (hex rest : List Nat) (h : ∀ c ∈ hex, c ∈ hexdigits) :
    read_trailer_hash hex.length (hex ++ rest) = Except.ok (hex, rest) := by
  induction hex with
  | nil => rfl
  | cons a hex ih =>
    have ha : strchr hexdigits a = true := by
      have := h a (List.mem_cons_self _ _)
      simp [strchr, this]
    rw [List.length_cons, List.cons_append, read_trailer_hash, ha,
      ih (fun x hx => h x (List.mem_cons_of_mem _ hx))]
    simp

theorem strtol_skip_space (s : List Nat) : strtol (32 :: s) = strtol s := by
  unfold strtol
  rw [List.dropWhile_cons_of_pos (by decide)]

end SbCat
end Gob

namespace Gob
namespace SbCat

theorem cstr_append_nul (a b : List Nat) (h : ∀ c ∈ a, c ≠ 0) : cstr (a ++ 0 :: b) = a := by
  unfold cstr
  induction a with
  | nil => simp
  | cons x a ih =>
    have hx : x ≠ 0 := h x (List.mem_cons_self _ _)
    rw [List.cons_append, List.takeWhile_cons_of_pos (by simpa using hx),
      ih (fun c hc => h c (List.mem_cons_of_mem _ hc))]

theorem trailer_line_no_nul (D : List Nat) (L : Nat) (hb : ∀ b ∈ D, b < 256) :
    ∀ c ∈ trailer_line D L, c ≠ 0 := by
  intro c hc
  simp only [trailer_line, List.mem_cons, List.mem_append, List.mem_singleton,
    List.mem_nil_iff, or_false] at hc
  rcases hc with hc | hc | hc | hc | hc
  · omega
  · exact hex_ne_zero c (bin2hex_mem D hb c hc)
  · omega
  · exact (isdigit_ne c (decimal_digits L c hc)).2
  · omega

theorem chain_text_no_nul (lines : List (List Nat)) (tail : List Nat)
    (h : ∀ l ∈ lines, IsLine l) (ht : ∀ c ∈ tail, c ≠ 0) :
    ∀ c ∈ chain_text lines tail, c ≠ 0 := by
  intro c hc
  unfold chain_text at hc
  rw [List.mem_append] at hc
  rcases hc with hc | hc
  · rw [List.mem_flatten] at hc
    obtain ⟨l', hl', hcl⟩ := hc
    obtain ⟨l, hl, rfl⟩ := List.mem_map.mp hl'
    rw [List.mem_append] at hcl
    rcases hcl with hcl | hcl
    · exact ((h l hl).2 c hcl).2
    · simp only [List.mem_singleton] at hcl; omega
  · exact ht c hc

theorem chain_lines_end (lines : List (List Nat)) :
    (lines = [] ∧ (lines.map (fun l => l ++ [10])).flatten = []) ∨
    (lines ≠ [] ∧ ∃ p, (lines.map (fun l => l ++ [10])).flatten = p ++ [10]) := by
  rcases List.eq_nil_or_concat lines with h | ⟨ls, l, h⟩
  · left; subst h; exact ⟨rfl, rfl⟩
  · right
    subst h
    refine ⟨by simp, (ls.map (fun l => l ++ [10])).flatten ++ l, ?_⟩
    simp [List.append_assoc]

/-- The canonical chain text as sb-cat reads it: the hash lines and the trailer
line are the tokens of the loop, and the trailer is parsed from the last line
when at least one line precedes it. -/
theorem sb_canonical_text (H : Nat) (lines : List (List Nat)) (D : List Nat) (L : Nat)
    (hlines : ∀ l ∈ lines, IsLine l)
    (hl : D.length = H) (hb : ∀ b ∈ D, b < 256)
    (h0 : L ≠ 0) (hn : L ≤ LONG_MAX) :
    cstr (chain_text lines (trailer_line D L)) = chain_text lines (trailer_line D L) ∧
    strtok_all (chain_text lines (trailer_line D L)) =
      lines ++ [62 :: (bin2hex D ++ 32 :: decimal L)] ∧
    parse_trailer H (chain_text lines (trailer_line D L)) =
      if lines = [] then Except.error (Exit.die Diag.invalid_input_without_trailer)
      else Except.ok (D, L) := by
  have hc : cstr (chain_text lines (trailer_line D L)) = chain_text lines (trailer_line D L) :=
    cstr_of_no_nul _ (chain_text_no_nul lines _ hlines (trailer_line_no_nul D L hb))
  have htok_nl : ∀ c ∈ 62 :: (bin2hex D ++ 32 :: decimal L), c ≠ 10 := by
    intro c hc
    simp only [List.mem_cons, List.mem_append] at hc
    rcases hc with hc | hc | hc | hc
    · omega
    · exact hex_ne_newline c (bin2hex_mem D hb c hc)
    · omega
    · exact (isdigit_ne c (decimal_digits L c hc)).1
  have hline : trailer_line D L = (62 :: (bin2hex D ++ 32 :: decimal L)) ++ 10 :: [] := by
    simp [trailer_line]
  refine ⟨hc, ?_, ?_⟩
  · rw [strtok_all_chain_text lines _ hlines, hline,
      strtok_all_line _ _ (by simp) htok_nl, strtok_all_nil]
  · unfold parse_trailer
    rw [hc]
    have hfind : find_last_line (chain_text lines (trailer_line D L)) =
        if (lines.map (fun l => l ++ [10])).flatten = [] then Line.null
        else Line.at ((lines.map (fun l => l ++ [10])).flatten).length := by
      unfold chain_text
      rw [hline]
      apply find_last_line_spec
      · rcases chain_lines_end lines with ⟨_, h⟩ | ⟨_, h⟩
        · left; exact h
        · right; exact h
      · simp
      · exact htok_nl
      · intro c hc; simpa using hc
    rw [hfind]
    rcases chain_lines_end lines with ⟨h1, h2⟩ | ⟨h1, p, h2⟩
    · simp [h1]
    · have hpne : (lines.map (fun l => l ++ [10])).flatten ≠ [] := by
        rw [h2]; simp
      rw [if_neg hpne, if_neg h1]
      have hdrop : (chain_text lines (trailer_line D L) ++ [0]).drop
          ((lines.map (fun l => l ++ [10])).flatten).length =
          62 :: (bin2hex D ++ (32 :: (decimal L ++ [10]) ++ [0])) := by
        unfold chain_text
        rw [List.append_assoc, List.drop_left]
        simp [trailer_line]
      simp only [hdrop, List.head?_cons, ne_eq, not_true_eq_false, if_false, List.tail_cons]
      have hlen : H * 2 = (bin2hex D).length := by rw [length_bin2hex, hl, Nat.mul_comm]
      rw [hlen, read_trailer_hash_hex _ _ (bin2hex_mem D hb)]
      have hcs : cstr (32 :: (decimal L ++ [10]) ++ [0]) = 32 :: (decimal L ++ [10]) := by
        apply cstr_append_nul
        intro c hc
        simp only [List.mem_cons, List.mem_append, List.mem_singleton, List.mem_nil_iff,
          or_false] at hc
        rcases hc with hc | hc | hc
        · omega
        · exact (isdigit_ne c (decimal_digits L c hc)).2
        · omega
      have hst : strtol (32 :: (decimal L ++ [10])) = (L : Int) := by
        rw [strtol_skip_space]
        exact strtol_decimal L [10] hn (by intro c hc; simp at hc; subst hc; decide)
      have hsz : to_size_t (L : Int) = L := to_size_t_natCast L (by
        have : LONG_MAX < SIZE_MOD := by decide
        omega)
      simp only [List.cons_append, ne_eq, not_true_eq_false, if_false]
      rw [← List.cons_append, hcs, hst, hsz, if_neg h0, hex2bin_bin2hex H D hl hb]

end SbCat
end Gob

namespace Gob
namespace SbCat

/-! ## sb-cat on the canonical chain text -/

theorem hexval_isSome_iff (c : Nat) : (hexval c).isSome = true ↔ c ∈ hexdigits := by
  rw [mem_hexdigits_iff]
  unfold hexval
  split
  · simp; omega
  · split
    · simp; omega
    · simp; omega

theorem hex2bin_pairs_isSome (n : Nat) (l : List Nat) (hlen : l.length = 2 * n) :
    (hex2bin_pairs l).isSome = true ↔ ∀ c ∈ l, c ∈ hexdigits := by
  induction n generalizing l with
  | zero =>
    have : l = [] := List.length_eq_zero.mp (by simpa using hlen)
    subst this
    simp [hex2bin_pairs]
  | succ n ih =>
    cases l with
    | nil => exfalso; simp only [List.length_nil] at hlen; omega
    | cons a l =>
      cases l with
      | nil => exfalso; simp only [List.length_cons, List.length_nil] at hlen; omega
      | cons b rest =>
        have hr : rest.length = 2 * n := by
          simp only [List.length_cons] at hlen; omega
        have ih1 := ih rest hr
        have ha := hexval_isSome_iff a
        have hb := hexval_isSome_iff b
        simp only [hex2bin_pairs, List.mem_cons, forall_eq_or_imp]
        rw [← ih1, ← ha, ← hb]
        cases hexval a <;> cases hexval b <;> cases hex2bin_pairs rest <;> simp

/-- The lines that `hex2bin` decodes are the lines of exactly 2 * H lowercase
hexadecimal characters. -/
theorem hex2bin_isSome_iff (H : Nat) (l : List Nat) :
    (hex2bin H l).isSome = true ↔ IsHashLine H l := by
  unfold hex2bin IsHashLine
  by_cases h : l.length = 2 * H
  · simp only [h, ne_eq, not_true_eq_false, if_false, true_and]
    exact hex2bin_pairs_isSome H l h
  · simp [h]

theorem isLine_of_isHashLine (H : Nat) (l : List Nat) (hH : 0 < H) (h : IsHashLine H l) :
    IsLine l := by
  refine ⟨?_, ?_⟩
  · intro hl
    have := h.1
    rw [hl] at this
    simp at this
    omega
  · intro c hc
    exact ⟨hex_ne_newline c (h.2 c hc), hex_ne_zero c (h.2 c hc)⟩

theorem sb_main_parse_error (env : Env) (prog dir : List Nat)
    (dirfd : List Nat → Option (List Nat → Option File)) (e : Exit)
    (hdir : env.open_dir dir = some dirfd) (herr : env.io.stdin_error = false)
    (hparse : parse_trailer env.HASH_LEN env.io.stdin = Except.error e) :
    main env [prog, dir] = ⟨e, [], []⟩ := by
  have h1 : env.open_dir ([prog, dir].getD 1 []) = some dirfd := hdir
  unfold main
  rw [if_neg (by simp), h1]
  simp only [herr, hparse]
  simp

/-- C3. Characterisation of sb-cat. Let the chain text be n valid hash lines (each
exactly 2 * HASH_LEN hex characters) followed by the trailer line of a digest
D and a length L >= 1, and let every referenced block be stored with exactly
BLOCK_LEN bytes. Then sb-cat exits successfully if and only if n is the
ceiling of L / BLOCK_LEN and the hash of the concatenation of the n full
blocks is D, and when it exits successfully its output is the first L bytes
of that concatenation. In every successful run of sb-cat, in any environment,
each block that was looked up was opened and read with exactly BLOCK_LEN
bytes: a fetched block of another length makes sb-cat fail. -/
theorem sb_characterisation (env : Env) (prog dir : List Nat)
    (dirfd : List Nat → Option (List Nat → Option File))
    (items : List (List Nat × List Nat)) (D : List Nat) (L : Nat)
    (hH : 0 < env.HASH_LEN) (hB : 0 < env.BLOCK_LEN)
    (hdir : env.open_dir dir = some dirfd)
    (herr : env.io.stdin_error = false)
    (hout : ∀ a b, env.io.stdout_ok a b = true)
    (hin : env.io.stdin = chain_text (items.map Prod.fst) (trailer_line D L))
    (hvalid : ∀ it ∈ items, IsHashLine env.HASH_LEN it.1)
    (hD : D.length = env.HASH_LEN) (hDb : ∀ b ∈ D, b < 256)
    (hL : 1 ≤ L) (hLmax : L ≤ LONG_MAX)
    (hstored : ∀ it ∈ items, Stored env.BLOCK_LEN dirfd it.1 it.2) :
    ((main env [prog, dir]).exit = Exit.success ↔
      items.length = (L + env.BLOCK_LEN - 1) / env.BLOCK_LEN ∧
      env.hash (items.map Prod.snd).flatten = D) ∧
    ((main env [prog, dir]).exit = Exit.success →
      (main env [prog, dir]).out = ((items.map Prod.snd).flatten).take L) ∧
    (∀ (env2 : Env) (argv2 : List (List Nat)),
      (main env2 argv2).exit = Exit.success →
      ∀ nm ∈ (main env2 argv2).opened, ∃ dirfd2 shardfd fd data,
        env2.open_dir (argv2.getD 1 []) = some dirfd2 ∧
        dirfd2 (nm.take 2) = some shardfd ∧ shardfd (nm.drop 2) = some fd ∧
        read_bytes fd env2.BLOCK_LEN = some data ∧ data.length = env2.BLOCK_LEN) := by
  have hlines : ∀ l ∈ items.map Prod.fst, IsLine l := by
    intro l hl
    obtain ⟨it, hit, rfl⟩ := List.mem_map.mp hl
    exact isLine_of_isHashLine _ _ hH (hvalid it hit)
  obtain ⟨hc, htok, hparse⟩ := sb_canonical_text env.HASH_LEN (items.map Prod.fst) D L hlines
    hD hDb (by omega) hLmax
  rw [← hin] at hc htok hparse
  have hv : ∀ it ∈ items, (hex2bin env.HASH_LEN it.1).isSome = true :=
    fun it hit => (hex2bin_isSome_iff _ _).mpr (hvalid it hit)
  by_cases hn : items = []
  · subst hn
    have hrun := sb_main_parse_error env prog dir dirfd
      (Exit.die Diag.invalid_input_without_trailer) hdir herr (by rw [hparse]; simp)
    have hceil : ¬ (0 = (L + env.BLOCK_LEN - 1) / env.BLOCK_LEN) := by
      rw [ceil_div_iff _ _ _ hB (by omega)]
      omega
    refine ⟨?_, ?_, ?_⟩
    · rw [hrun]
      constructor
      · intro h; cases h
      · intro h; exact absurd h.1 (by simpa using hceil)
    · rw [hrun]; intro h; cases h
    · intro env2 argv2 hs nm hnm
      obtain ⟨dirfd2, D2, L2, h1, _, h3⟩ := sb_main_alive env2 argv2 hs
      rw [h3] at hs hnm
      rcases (sb_loop_success env2 dirfd2 D2 _ _ hs).2 nm hnm with h4 | ⟨data, h4⟩
      · simp at h4
      · obtain ⟨shardfd, fd, g1, g2, g3, g4⟩ := (read_block_ok_iff _ _ _ _).mp h4
        exact ⟨dirfd2, shardfd, fd, data, h1, g1, g2, g3, g4⟩
  · have hp : parse_trailer env.HASH_LEN env.io.stdin = Except.ok (D, L) := by
      rw [hparse, if_neg (by simpa using hn)]
    have hgen := sb_characterisation_of_tokens env prog dir dirfd items
      (62 :: (bin2hex D ++ 32 :: decimal L)) D L hB hdir herr hout (by rw [hc, htok]) rfl hp hv
      hstored
    exact hgen.2

/-- Two stored blocks and the trailer line of their digest that declares 7 of
their 8 bytes. -/
theorem sb_characterisation_witness :
    (main (env_b (bytesOf "abcd\nabce\n>2424 7\n")) argv_b).exit = Exit.success ∧
    (main (env_b (bytesOf "abcd\nabce\n>2424 7\n")) argv_b).out = [1, 2, 3, 4, 5, 6, 7] :=
  have h := sb_characterisation (env_b (bytesOf "abcd\nabce\n>2424 7\n")) (bytesOf "sb-cat")
    (bytesOf "store") dir_b
    [(bytesOf "abcd", [1, 2, 3, 4]), (bytesOf "abce", [5, 6, 7, 8])] [36, 36] 7
    (by decide) (by decide) rfl rfl (fun _ _ => rfl) (by decide) (by decide) (by decide)
    (by decide) (by decide) (by decide)
    (by
      intro it hit
      simp only [List.mem_cons, List.mem_singleton, List.mem_nil_iff, or_false] at hit
      rcases hit with rfl | rfl
      · exact ⟨shard_ab, rfl, rfl, rfl⟩
      · exact ⟨shard_ab, rfl, rfl, rfl⟩)
  ⟨h.1.mpr ⟨by decide, by decide⟩, h.2.1 (h.1.mpr ⟨by decide, by decide⟩)⟩

end SbCat
end Gob

namespace Gob
namespace SbCat

theorem isLine_chain (H : Nat) (items : List (List Nat × List Nat)) (t : List Nat)
    (more : List (List Nat)) (hH : 0 < H)
    (hvalid : ∀ it ∈ items, IsHashLine H it.1) (ht : IsLine t)
    (hmore : ∀ l ∈ more, IsLine l) :
    ∀ l ∈ items.map Prod.fst ++ t :: more, IsLine l := by
  intro l hl
  rw [List.mem_append, List.mem_cons] at hl
  rcases hl with hl | hl | hl
  · obtain ⟨it, hit, rfl⟩ := List.mem_map.mp hl
    exact isLine_of_isHashLine _ _ hH (hvalid it hit)
  · rw [hl]; exact ht
  · exact hmore l hl

/-- C8. Surplus hash line in sb-cat. Let the chain text start with as many valid
hash lines as the ceiling of L / BLOCK_LEN, with blocks stored with exactly
BLOCK_LEN bytes, followed by a further line that does not begin with '>', by
any other lines, and by the trailer line of a digest D and the length L. Then
sb-cat dies with "More lines, but all data read"; what it has written is the
first L bytes of the concatenation of the blocks, exactly L bytes; and the
blocks it has looked up are those of the lines before the surplus line, which
is neither decoded nor fetched, whatever it contains. -/
theorem sb_surplus_line (env : Env) (prog dir : List Nat)
    (dirfd : List Nat → Option (List Nat → Option File))
    (items : List (List Nat × List Nat)) (t : List Nat) (more : List (List Nat))
    (D : List Nat) (L : Nat)
    (hH : 0 < env.HASH_LEN) (hB : 0 < env.BLOCK_LEN)
    (hdir : env.open_dir dir = some dirfd)
    (herr : env.io.stdin_error = false)
    (hout : ∀ a b, env.io.stdout_ok a b = true)
    (hin : env.io.stdin = chain_text (items.map Prod.fst ++ t :: more) (trailer_line D L))
    (hvalid : ∀ it ∈ items, IsHashLine env.HASH_LEN it.1)
    (ht : IsLine t) (ht62 : t.head? ≠ some 62)
    (hmore : ∀ l ∈ more, IsLine l)
    (hD : D.length = env.HASH_LEN) (hDb : ∀ b ∈ D, b < 256)
    (hL : 1 ≤ L) (hLmax : L ≤ LONG_MAX)
    (hstored : ∀ it ∈ items, Stored env.BLOCK_LEN dirfd it.1 it.2)
    (hn : items.length = (L + env.BLOCK_LEN - 1) / env.BLOCK_LEN) :
    main env [prog, dir] =
      ⟨Exit.die Diag.more_lines_but_all_data_read, ((items.map Prod.snd).flatten).take L,
        items.map Prod.fst⟩ ∧
    (main env [prog, dir]).out.length = L := by
  obtain ⟨hc, htok, hparse⟩ := sb_canonical_text env.HASH_LEN _ D L
    (isLine_chain _ items t more hH hvalid ht hmore) hD hDb (by omega) hLmax
  rw [← hin] at hc htok hparse
  rw [if_neg (by simp)] at hparse
  exact sb_surplus_line_of_tokens env prog dir dirfd items t
    (more ++ [62 :: (bin2hex D ++ 32 :: decimal L)]) D L hB hdir herr hout
    (by rw [hc, htok]; simp) ht62 hparse
    (fun it hit => (hex2bin_isSome_iff _ _).mpr (hvalid it hit)) hstored hn

/-- One block for a declared length of 4 bytes, followed by a second hash line. -/
theorem sb_surplus_line_witness :
    main (env_b (bytesOf "abcd\nabce\n>2424 4\n")) argv_b =
      ⟨Exit.die Diag.more_lines_but_all_data_read, [1, 2, 3, 4], [bytesOf "abcd"]⟩ :=
  (sb_surplus_line (env_b (bytesOf "abcd\nabce\n>2424 4\n")) (bytesOf "sb-cat")
    (bytesOf "store") dir_b [(bytesOf "abcd", [1, 2, 3, 4])] (bytesOf "abce") []
    [36, 36] 4 (by decide) (by decide) rfl rfl (fun _ _ => rfl) (by decide) (by decide)
    (by decide) (by decide) (by decide) (by decide) (by decide) (by decide) (by decide)
    (by
      intro it hit
      simp only [List.mem_singleton] at hit
      subst hit
      exact ⟨shard_ab, rfl, rfl, rfl⟩)
    (by decide)).1

/-- C7, as stated, fails: one stored block of BLOCK_LEN = 4 bytes and a trailer that
declares 3 bytes. sb-cat does not die with "More lines, but all data read": it
writes the first 3 bytes of the block and exits successfully. -/
theorem sb_underdeclared_counterexample :
    main (env_b (bytesOf "abcd\n>0a0a 3\n")) argv_b =
      ⟨Exit.success, [1, 2, 3], [bytesOf "abcd"]⟩ := by
  decide

/-- C7, amended. Let the chain text be n >= 1 valid hash lines, with blocks stored
with exactly BLOCK_LEN bytes (n * BLOCK_LEN bytes exist), followed by the
trailer line of a digest D and a declared length between 1 and n * BLOCK_LEN.
If the declared length is at most (n - 1) * BLOCK_LEN, so that a whole block
is left over, sb-cat dies with "More lines, but all data read" after writing
the declared number of bytes. If it is larger, all n blocks are consumed, the
declared number of bytes is written, and the run exits successfully when the
digest of the n full blocks is D and dies with "Trailer hash does not match
computed hash" otherwise; this is the case of a declared length of
n * BLOCK_LEN - 1 when BLOCK_LEN is at least 2. -/
theorem sb_underdeclared (env : Env) (prog dir : List Nat)
    (dirfd : List Nat → Option (List Nat → Option File))
    (items : List (List Nat × List Nat)) (D : List Nat) (declared : Nat)
    (hH : 0 < env.HASH_LEN)
    (hdir : env.open_dir dir = some dirfd)
    (herr : env.io.stdin_error = false)
    (hout : ∀ a b, env.io.stdout_ok a b = true)
    (hin : env.io.stdin = chain_text (items.map Prod.fst) (trailer_line D declared))
    (hvalid : ∀ it ∈ items, IsHashLine env.HASH_LEN it.1)
    (hD : D.length = env.HASH_LEN) (hDb : ∀ b ∈ D, b < 256)
    (h1 : 1 ≤ declared) (hmax : declared ≤ LONG_MAX)
    (hstored : ∀ it ∈ items, Stored env.BLOCK_LEN dirfd it.1 it.2)
    (hne : items ≠ [])
    (hle : declared ≤ items.length * env.BLOCK_LEN) :
    (declared ≤ (items.length - 1) * env.BLOCK_LEN →
      (main env [prog, dir]).exit = Exit.die Diag.more_lines_but_all_data_read ∧
      (main env [prog, dir]).out = ((items.map Prod.snd).flatten).take declared) ∧
    ((items.length - 1) * env.BLOCK_LEN < declared →
      main env [prog, dir] =
        ⟨if env.hash (items.map Prod.snd).flatten = D then Exit.success
          else Exit.die Diag.trailer_hash_mismatch,
          ((items.map Prod.snd).flatten).take declared, items.map Prod.fst⟩) ∧
    (2 ≤ env.BLOCK_LEN → declared = items.length * env.BLOCK_LEN - 1 →
      (main env [prog, dir]).exit ≠ Exit.die Diag.more_lines_but_all_data_read ∧
      (main env [prog, dir]).out = ((items.map Prod.snd).flatten).take declared) := by
  have hlines : ∀ l ∈ items.map Prod.fst, IsLine l := by
    intro l hl
    obtain ⟨it, hit, rfl⟩ := List.mem_map.mp hl
    exact isLine_of_isHashLine _ _ hH (hvalid it hit)
  obtain ⟨hc, htok, hparse⟩ := sb_canonical_text env.HASH_LEN (items.map Prod.fst) D declared
    hlines hD hDb (by omega) hmax
  rw [← hin] at hc htok hparse
  rw [if_neg (by simpa using hne)] at hparse
  exact sb_underdeclared_of_tokens env prog dir dirfd items
    (62 :: (bin2hex D ++ 32 :: decimal declared)) D declared hdir herr hout
    (by rw [hc, htok]) rfl hparse
    (fun it hit => (hex2bin_isSome_iff _ _).mpr (hvalid it hit)) hstored hne hle

/-- Two stored blocks and a trailer that declares the length of one. -/
theorem sb_underdeclared_witness :
    (main (env_b (bytesOf "abcd\nabce\n>2424 4\n")) argv_b).exit =
      Exit.die Diag.more_lines_but_all_data_read ∧
    (main (env_b (bytesOf "abcd\nabce\n>2424 4\n")) argv_b).out = [1, 2, 3, 4] :=
  (sb_underdeclared (env_b (bytesOf "abcd\nabce\n>2424 4\n")) (bytesOf "sb-cat")
    (bytesOf "store") dir_b
    [(bytesOf "abcd", [1, 2, 3, 4]), (bytesOf "abce", [5, 6, 7, 8])]
    [36, 36] 4 (by decide) rfl rfl (fun _ _ => rfl) (by decide) (by decide) (by decide)
    (by decide) (by decide) (by decide)
    (by
      intro it hit
      simp only [List.mem_cons, List.mem_singleton, List.mem_nil_iff, or_false] at hit
      rcases hit with rfl | rfl
      · exact ⟨shard_ab, rfl, rfl, rfl⟩
      · exact ⟨shard_ab, rfl, rfl, rfl⟩)
    (by decide) (by decide)).1 (by decide)

/-- C10, as stated, fails: a blank line between a hash line and the trailer line is
skipped, and sb-cat exits successfully. -/
theorem sb_blank_line_counterexample :
    main (env_b (bytesOf "abcd\n\n>0a0a 4\n")) argv_b =
      ⟨Exit.success, [1, 2, 3, 4], [bytesOf "abcd"]⟩ := by
  decide

/-- C10, amended. Blank lines are not lines of the chain for sb-cat: `strtok` yields
no empty token. For the other lines: when the chain text starts with valid
hash lines whose blocks, stored with exactly BLOCK_LEN bytes, do not exhaust
the declared length, followed by a non-blank line `t` that does not begin with
'>' and is not exactly 2 * HASH_LEN hex characters, then by any other lines
and the trailer line, sb-cat dies with "Unable to decode hash" after writing
these blocks, without looking up a block for `t`. In every run, in any
environment, a block is looked up only for a line of exactly 2 * HASH_LEN hex
characters, and a run exits successfully only if every non-blank line before
the first line that begins with '>' is such a line. -/
theorem sb_hash_line_validation (env : Env) (prog dir : List Nat)
    (dirfd : List Nat → Option (List Nat → Option File))
    (items : List (List Nat × List Nat)) (t : List Nat) (more : List (List Nat))
    (D : List Nat) (L : Nat)
    (hH : 0 < env.HASH_LEN)
    (hdir : env.open_dir dir = some dirfd)
    (herr : env.io.stdin_error = false)
    (hout : ∀ a b, env.io.stdout_ok a b = true)
    (hin : env.io.stdin = chain_text (items.map Prod.fst ++ t :: more) (trailer_line D L))
    (hvalid : ∀ it ∈ items, IsHashLine env.HASH_LEN it.1)
    (ht : IsLine t) (ht62 : t.head? ≠ some 62)
    (hbad : ¬ IsHashLine env.HASH_LEN t)
    (hmore : ∀ l ∈ more, IsLine l)
    (hD : D.length = env.HASH_LEN) (hDb : ∀ b ∈ D, b < 256)
    (hLmax : L ≤ LONG_MAX)
    (hstored : ∀ it ∈ items, Stored env.BLOCK_LEN dirfd it.1 it.2)
    (hlen : items.length * env.BLOCK_LEN < L) :
    main env [prog, dir] =
      ⟨Exit.die Diag.unable_to_decode_hash, (items.map Prod.snd).flatten,
        items.map Prod.fst⟩ ∧
    (∀ (env2 : Env) (argv2 : List (List Nat)),
      (∀ nm ∈ (main env2 argv2).opened, IsHashLine env2.HASH_LEN nm) ∧
      ((main env2 argv2).exit = Exit.success →
        ∀ l ∈ (strtok_all (cstr env2.io.stdin)).takeWhile (fun l => l.head? != some 62),
          IsHashLine env2.HASH_LEN l)) ∧
    (∀ s, [] ∉ strtok_all s) := by
  obtain ⟨hc, htok, hparse⟩ := sb_canonical_text env.HASH_LEN _ D L
    (isLine_chain _ items t more hH hvalid ht hmore) hD hDb (by omega) hLmax
  rw [← hin] at hc htok hparse
  rw [if_neg (by simp)] at hparse
  have hnone : hex2bin env.HASH_LEN t = none := by
    cases h : hex2bin env.HASH_LEN t with
    | none => rfl
    | some x =>
      exfalso
      apply hbad
      rw [← hex2bin_isSome_iff, h]
      rfl
  have hgen := sb_hash_line_validation_of_tokens env prog dir dirfd items t
    (more ++ [62 :: (bin2hex D ++ 32 :: decimal L)]) D L hdir herr hout
    (by rw [hc, htok]; simp) ht62 hnone hparse
    (fun it hit => (hex2bin_isSome_iff _ _).mpr (hvalid it hit)) hstored hlen
  refine ⟨hgen.1, ?_, hgen.2.2⟩
  intro env2 argv2
  refine ⟨?_, ?_⟩
  · intro nm hnm
    exact (hex2bin_isSome_iff _ _).mp ((hgen.2.1 env2 argv2).1 nm hnm)
  · intro hs l hl
    exact (hex2bin_isSome_iff _ _).mp ((hgen.2.1 env2 argv2).2 hs l hl)

/-- One stored block for a declared length of 8 bytes, followed by the line "zz". -/
theorem sb_hash_line_validation_witness :
    main (env_b (bytesOf "abcd\nzz\n>2424 8\n")) argv_b =
      ⟨Exit.die Diag.unable_to_decode_hash, [1, 2, 3, 4], [bytesOf "abcd"]⟩ :=
  (sb_hash_line_validation (env_b (bytesOf "abcd\nzz\n>2424 8\n")) (bytesOf "sb-cat")
    (bytesOf "store") dir_b [(bytesOf "abcd", [1, 2, 3, 4])] (bytesOf "zz") []
    [36, 36] 8 (by decide) rfl rfl (fun _ _ => rfl) (by decide) (by decide) (by decide)
    (by decide) (by decide) (by decide) (by decide) (by decide) (by decide)
    (by
      intro it hit
      simp only [List.mem_singleton] at hit
      subst hit
      exact ⟨shard_ab, rfl, rfl, rfl⟩)
    (by decide)).1

end SbCat
end Gob

namespace Gob

/-! ## The trailer of gob-cat -/

theorem strtol_no_number (s : List Nat)
    (h : ∀ c, s.head? = some c → isdigit c = false ∧ isspace c = false ∧ c ≠ 43 ∧ c ≠ 45) :
    strtol s = 0 := by
  cases s with
  | nil => simp [strtol, strtol_digits]
  | cons c cs =>
    obtain ⟨hd, hs, h43, h45⟩ := h c rfl
    have hdrop : (c :: cs).dropWhile isspace = c :: cs :=
      List.dropWhile_cons_of_neg (by simp [hs])
    unfold strtol
    simp only [hdrop, List.head?_cons, Option.some.injEq, h45, h43, if_false, strtol_digits, hd]
    simp

theorem strtol_leading_digits (ds rest : List Nat) (hd : ∀ c ∈ ds, isdigit c = true)
    (h : ∀ c, rest.head? = some c →
      isdigit c = false ∧ (ds = [] → isspace c = false ∧ c ≠ 43 ∧ c ≠ 45)) :
    strtol (ds ++ rest) = ((min (digits_value ds) LONG_MAX : Nat) : Int) := by
  cases ds with
  | nil =>
    rw [List.nil_append, strtol_no_number rest (fun c hc => ⟨(h c hc).1, (h c hc).2 rfl⟩)]
    simp [digits_value]
  | cons d ds =>
    have hd0 : isdigit d = true := hd d (List.mem_cons_self _ _)
    simp only [isdigit, Bool.and_eq_true, decide_eq_true_eq] at hd0
    have hsp : isspace d = false := by
      simp only [isspace, Bool.or_eq_false_iff, Bool.and_eq_false_iff, beq_eq_false_iff_ne,
        decide_eq_false_iff_not]
      omega
    have h45 : d ≠ 45 := by omega
    have h43 : d ≠ 43 := by omega
    have hdrop : ((d :: ds) ++ rest).dropWhile isspace = (d :: ds) ++ rest := by
      rw [List.cons_append, List.dropWhile_cons_of_neg (by simp [hsp])]
    unfold strtol
    simp only [hdrop]
    have hhead : ((d :: ds) ++ rest).head? = some d := rfl
    simp only [hhead, Option.some.injEq, h45, h43, if_false]
    rw [strtol_digits_append _ _ _ hd, strtol_digits_stop _ _ (fun c hc => (h c hc).1)]
    unfold digits_value
    by_cases hlt : LONG_MAX < List.foldl (fun a c => a * 10 + (c - 48)) 0 (d :: ds)
    · simp only [hlt, if_true]
      rw [Nat.min_eq_right (Nat.le_of_lt hlt)]
    · simp only [hlt, if_false]
      rw [Nat.min_eq_left (Nat.le_of_not_lt hlt)]

end Gob

namespace Gob
namespace GobCat

theorem to_size_t_clamped (v : Nat) :
    to_size_t ((min v LONG_MAX : Nat) : Int) = min v LONG_MAX :=
  to_size_t_natCast _ (by
    have h1 : LONG_MAX < SIZE_MOD := by decide
    have h2 : min v LONG_MAX ≤ LONG_MAX := Nat.min_le_right _ _
    omega)

theorem hex2bin_length (H : Nat) (l d : List Nat) (h : hex2bin H l = some d) :
    l.length = H * 2 := by
  unfold hex2bin at h
  split at h
  · cases h
  · rename_i hl
    simp only [ne_eq, Decidable.not_not] at hl
    omega

theorem hex2bin_none_of_not_hex (H : Nat) (l : List Nat) (h : ∃ c ∈ l, c ∉ hexdigits) :
    hex2bin H l = none := by
  cases hd : hex2bin H l with
  | none => rfl
  | some d =>
    exfalso
    have hs : (hex2bin H l).isSome = true := by rw [hd]; rfl
    obtain ⟨c, hc, hn⟩ := h
    exact hn (((SbCat.hex2bin_isSome_iff H l).mp hs).2 c hc)

theorem parse_trailer_too_short (H : Nat) (t : List Nat) (h : t.length < 2 * H) :
    parse_trailer H (62 :: t) = Except.error Diag.trailer_too_short := by
  have h1 : t.length < H * 2 := by omega
  simp [parse_trailer, h1]

theorem parse_trailer_hash (H : Nat) (hash rest : List Nat) (hl : hash.length = 2 * H) :
    parse_trailer H (62 :: (hash ++ rest)) =
      match hex2bin H hash with
      | none => Except.error Diag.unable_to_decode_trailer_hash
      | some hash_out =>
        if rest.head? ≠ some 32 then Except.error Diag.no_separator
        else
          if to_size_t (strtol rest.tail) = 0 then Except.error Diag.invalid_data_length
          else Except.ok (hash_out, to_size_t (strtol rest.tail)) := by
  have hlen : hash.length = H * 2 := by omega
  have h1 : ¬ (hash ++ rest).length < H * 2 := by
    simp only [List.length_append]; omega
  unfold parse_trailer
  simp only [List.head?_cons, ne_eq, not_true_eq_false, if_false, List.tail_cons, h1,
    List.take_left' hlen, List.drop_left' hlen]

/-- The length field of a trailer of gob-cat, as `strtol` reads it. -/
theorem parse_trailer_length (H : Nat) (hash D ds rest : List Nat)
    (hdec : hex2bin H hash = some D) (hds : ∀ c ∈ ds, isdigit c = true)
    (hrest : ∀ c, rest.head? = some c →
      isdigit c = false ∧ (ds = [] → isspace c = false ∧ c ≠ 43 ∧ c ≠ 45)) :
    parse_trailer H (62 :: (hash ++ 32 :: (ds ++ rest))) =
      if digits_value ds = 0 then Except.error Diag.invalid_data_length
      else Except.ok (D, min (digits_value ds) LONG_MAX) := by
  have hl : hash.length = 2 * H := by
    have := hex2bin_length H hash D hdec
    omega
  rw [parse_trailer_hash H hash _ hl, hdec]
  simp only [List.head?_cons, ne_eq, not_true_eq_false, if_false, List.tail_cons]
  rw [strtol_leading_digits ds rest hds hrest, to_size_t_clamped]
  have hpos : 0 < LONG_MAX := by decide
  by_cases h0 : digits_value ds = 0
  · simp [h0]
  · have hmin : min (digits_value ds) LONG_MAX ≠ 0 := by
      rw [Nat.min_def]; split <;> omega
    simp [h0, hmin]

end GobCat
end Gob

namespace Gob
namespace GobCat

/-- C11, as stated, fails. The length field "12x" is not a decimal number, and
yet `parse_trailer` accepts the trailer and returns the length 12; gob-cat run
on a chain whose trailer ends in "4x" exits successfully. The length field
"9223372036854775808" is a decimal number and not zero, and the length
returned is not its value but `LONG_MAX`. -/
theorem trailer_parsing_counterexample :
    (¬ IsDecimal (bytesOf "12x")) ∧
    parse_trailer 2 (bytesOf ">0a0a 12x") = Except.ok ([10, 10], 12) ∧
    main (env_a (bytesOf "0a0a\n>0a0a 4x\n")) argv_a =
      ⟨Exit.success, [1, 2, 3, 4], [bytesOf "0a0a"]⟩ ∧
    IsDecimal (bytesOf "9223372036854775808") ∧
    digits_value (bytesOf "9223372036854775808") = 9223372036854775808 ∧
    parse_trailer 2 (bytesOf ">0a0a 9223372036854775808") =
      Except.ok ([10, 10], 9223372036854775807) := by
  refine ⟨by decide, by decide, by decide, by decide, by decide, by decide⟩

/-- C11, amended. Trailer parsing in gob-cat, for a trailer line beginning with
'>'. (1) If the text after '>' is shorter than 2 * HASH_LEN characters,
`parse_trailer` fails with "Trailer is too short". (2) If one of the
2 * HASH_LEN hash characters is not a hex character it fails with "Unable to
decode trailer hash". (3) If the character that follows the hash characters is
not a space (or nothing follows) it fails, with that diagnostic or with "No
separator between trailer hash and length". (4) When the hash characters
decode to a digest and a space follows, the length is read by `strtol`: for a
length field that begins with a run `ds` of decimal digits, followed by
anything that is not a digit (and, when there is no digit at all, that is not
white space or a sign either), `parse_trailer` fails with "Invalid data length
in trailer" when the value of `ds` is zero (in particular when the field does
not begin with a digit), and otherwise returns the digest and the value of
`ds`, clamped to `LONG_MAX`; what follows the digits is ignored. -/
theorem trailer_parsing (H : Nat) :
    (∀ t : List Nat, t.length < 2 * H →
      parse_trailer H (62 :: t) = Except.error Diag.trailer_too_short) ∧
    (∀ hash rest : List Nat, hash.length = 2 * H → (∃ c ∈ hash, c ∉ hexdigits) →
      parse_trailer H (62 :: (hash ++ rest)) =
        Except.error Diag.unable_to_decode_trailer_hash) ∧
    (∀ hash rest : List Nat, hash.length = 2 * H → rest.head? ≠ some 32 →
      parse_trailer H (62 :: (hash ++ rest)) =
          Except.error Diag.unable_to_decode_trailer_hash ∨
        parse_trailer H (62 :: (hash ++ rest)) = Except.error Diag.no_separator) ∧
    (∀ hash D ds rest : List Nat, hex2bin H hash = some D →
      (∀ c ∈ ds, isdigit c = true) →
      (∀ c, rest.head? = some c →
        isdigit c = false ∧ (ds = [] → isspace c = false ∧ c ≠ 43 ∧ c ≠ 45)) →
      parse_trailer H (62 :: (hash ++ 32 :: (ds ++ rest))) =
        if digits_value ds = 0 then Except.error Diag.invalid_data_length
        else Except.ok (D, min (digits_value ds) LONG_MAX)) := by
  refine ⟨parse_trailer_too_short H, ?_, ?_, ?_⟩
  · intro hash rest hl hbad
    rw [parse_trailer_hash H hash rest hl, hex2bin_none_of_not_hex H hash hbad]
  · intro hash rest hl hsep
    rw [parse_trailer_hash H hash rest hl]
    cases hex2bin H hash with
    | none => exact Or.inl rfl
    | some d => right; simp [hsep]
  · intro hash D ds rest hdec hds hrest
    exact parse_trailer_length H hash D ds rest hdec hds hrest

/-- The four cases of `trailer_parsing` on concrete trailers with
`HASH_LEN = 2`: ">0a0" is too short, ">0a0g 4" has a character that is not
hexadecimal, ">0a0a-4" lacks the space, ">0a0a 0" and ">0a0a x" have no
non-zero number, and ">0a0a 42" followed by a newline parses to the digest
`[10, 10]` and the length 42. -/
theorem trailer_parsing_witness :
    parse_trailer 2 (bytesOf ">0a0") = Except.error Diag.trailer_too_short ∧
    parse_trailer 2 (bytesOf ">0a0g 4") = Except.error Diag.unable_to_decode_trailer_hash ∧
    (parse_trailer 2 (bytesOf ">0a0a-4") = Except.error Diag.unable_to_decode_trailer_hash ∨
      parse_trailer 2 (bytesOf ">0a0a-4") = Except.error Diag.no_separator) ∧
    parse_trailer 2 (bytesOf ">0a0a 0\n") = Except.error Diag.invalid_data_length ∧
    parse_trailer 2 (bytesOf ">0a0a x") = Except.error Diag.invalid_data_length ∧
    parse_trailer 2 (bytesOf ">0a0a 42\n") = Except.ok ([10, 10], 42) :=
  ⟨(trailer_parsing 2).1 (bytesOf "0a0") (by decide),
   (trailer_parsing 2).2.1 (bytesOf "0a0g") (bytesOf " 4") (by decide) (by decide),
   (trailer_parsing 2).2.2.1 (bytesOf "0a0a") (bytesOf "-4") (by decide) (by decide),
   (trailer_parsing 2).2.2.2 (bytesOf "0a0a") [10, 10] (bytesOf "0") [10]
     (by decide) (by decide) (by decide),
   (trailer_parsing 2).2.2.2 (bytesOf "0a0a") [10, 10] [] (bytesOf "x")
     (by decide) (by decide) (by decide),
   (trailer_parsing 2).2.2.2 (bytesOf "0a0a") [10, 10] (bytesOf "42") [10]
     (by decide) (by decide) (by decide)⟩

end GobCat
end Gob

namespace Gob

/-! ## Texts without a trailer line -/

theorem pair_mem_zip_cons (a : Nat) (q : List Nat) (p : Nat × Nat)
    (h : p ∈ q.zip q.tail) : p ∈ (a :: q).zip (a :: q).tail := by
  cases q with
  | nil => simp at h
  | cons c q => 
    simp only [List.tail_cons, List.zip_cons_cons, List.mem_cons]
    right
    simpa using h

theorem pair_mem_zip_append (p : List Nat) (x y : Nat) (r : List Nat) :
    (x, y) ∈ (p ++ x :: y :: r).zip (p ++ x :: y :: r).tail := by
  induction p with
  | nil => simp
  | cons a p ih => exact pair_mem_zip_cons a _ _ ih

/-- A line that begins with '>' after a newline makes a trailer line of the text. -/
theorem hasTrailerLine_append (p r : List Nat) : HasTrailerLine (p ++ 10 :: 62 :: r) :=
  Or.inr (pair_mem_zip_append p 10 62 r)

/-- The lines that `getline` returns: the first one begins like the text, and
one that begins with '>' makes a trailer line of the text. -/
theorem getlines_heads (t : List Nat) :
    (∀ l, (getlines t).head? = some l → l.head? = t.head?) ∧
    (∀ l ∈ (getlines t).tail, l.head? = some 62 → (10, 62) ∈ t.zip t.tail) := by
  induction t with
  | nil => simp [getlines]
  | cons b bs ih =>
    obtain ⟨ih1, ih2⟩ := ih
    by_cases hb : b = 10
    · subst hb
      have hg : getlines (10 :: bs) = [10] :: getlines bs := by simp [getlines]
      rw [hg]
      refine ⟨by intro l hl; simp at hl; subst hl; rfl, ?_⟩
      intro l hl h62
      simp only [List.tail_cons] at hl
      cases hgl : getlines bs with
      | nil => rw [hgl] at hl; simp at hl
      | cons l0 ls =>
        rw [hgl] at hl ih1 ih2
        rcases List.mem_cons.mp hl with h | h
        · subst h
          have := ih1 l rfl
          rw [h62] at this
          cases bs with
          | nil => simp at this
          | cons c cs =>
            simp only [List.head?_cons, Option.some.injEq] at this
            subst this
            simp
        · exact pair_mem_zip_cons 10 bs _ (ih2 l (by simpa using h) h62)
    · rw [getlines_cons_of_ne b bs hb]
      cases hgl : getlines bs with
      | nil => simp
      | cons l0 ls =>
        rw [hgl] at ih2
        refine ⟨by intro l hl; simp at hl; subst hl; rfl, ?_⟩
        intro l hl h62
        exact pair_mem_zip_cons b bs _ (ih2 l (by simpa using hl) h62)

theorem getlines_no_trailer (t : List Nat) (h : ¬ HasTrailerLine t) :
    ∀ l ∈ getlines t, l.head? ≠ some 62 := by
  intro l hl h62
  apply h
  obtain ⟨h1, h2⟩ := getlines_heads t
  cases hgl : getlines t with
  | nil => rw [hgl] at hl; simp at hl
  | cons l0 ls =>
    rw [hgl] at hl h1 h2
    rcases List.mem_cons.mp hl with e | e
    · subst e
      left
      rw [← h1 l rfl, h62]
    · right
      exact h2 l (by simpa using e) h62

theorem getlines_ne_nil (t : List Nat) (h : t ≠ []) : getlines t ≠ [] := by
  cases t with
  | nil => exact absurd rfl h
  | cons b bs =>
    by_cases hb : b = 10
    · simp [getlines, hb]
    · rw [getlines_cons_of_ne b bs hb]
      cases getlines bs <;> simp

/-- A text with a character other than newline ends with a non-empty line
followed by newlines only. -/
theorem text_last_line (t : List Nat) (h : ∃ c ∈ t, c ≠ 10) :
    ∃ pre line nls, t = pre ++ (line ++ nls) ∧ (pre = [] ∨ ∃ p, pre = p ++ [10]) ∧
      line ≠ [] ∧ (∀ c ∈ line, c ≠ 10) ∧ (∀ c ∈ nls, c = 10) := by
  induction t with
  | nil => obtain ⟨c, hc, _⟩ := h; simp at hc
  | cons b bs ih =>
    by_cases hbs : ∃ c ∈ bs, c ≠ 10
    · obtain ⟨pre, line, nls, ht, hpre, hne, hl, hn⟩ := ih hbs
      rcases hpre with hp | ⟨p, hp⟩
      · subst hp
        by_cases hb : b = 10
        · subst hb
          exact ⟨[10], line, nls, by rw [ht]; rfl, Or.inr ⟨[], rfl⟩, hne, hl, hn⟩
        · refine ⟨[], b :: line, nls, by rw [ht]; rfl, Or.inl rfl, by simp, ?_, hn⟩
          intro c hc
          rcases List.mem_cons.mp hc with e | e
          · subst e; exact hb
          · exact hl c e
      · subst hp
        exact ⟨b :: (p ++ [10]), line, nls, by rw [ht]; rfl, Or.inr ⟨b :: p, by simp⟩, hne, hl, hn⟩
    · have hall : ∀ c ∈ bs, c = 10 := by
        intro c hc
        by_contra hne
        exact hbs ⟨c, hc, hne⟩
      have hb : b ≠ 10 := by
        obtain ⟨c, hc, hc10⟩ := h
        rcases List.mem_cons.mp hc with e | e
        · subst e; exact hc10
        · exact absurd (hall c e) hc10
      refine ⟨[], [b], bs, rfl, Or.inl rfl, by simp, ?_, hall⟩
      intro c hc
      simp only [List.mem_singleton] at hc
      subst hc; exact hb

end Gob

namespace Gob
namespace GobCat

/-- The loop of gob-cat over lines none of which begins with '>': the run dies,
at a line that is rejected or whose block is not opened, read or written, or
at the end of the input. -/
theorem loop_no_trailer (env : Env) (store : List Nat → Option File)
    (lines : List (List Nat)) (buf : Option (List Nat)) (st : State)
    (hl : ∀ l ∈ lines, l.head? ≠ some 62)
    (hbuf : ∀ l, buf = some l → l.head? ≠ some 62)
    (hne : lines ≠ [] ∨ buf ≠ none) :
    ∃ d, (loop env store lines buf st).exit = Exit.die d ∧
      (d = Diag.last_line_not_trailer ∨
        (d = Diag.unable_to_read_index ∧ env.io.stdin_error = true) ∨
        ∃ line, d = Diag.invalid_index_hash line ∨ d = Diag.unable_to_open_block line ∨
          d = Diag.unable_to_read_block line ∨ d = Diag.unable_to_write_block line) := by
  induction lines generalizing buf st with
  | nil =>
    rw [loop_nil]
    by_cases he : env.io.stdin_error = true
    · exact ⟨Diag.unable_to_read_index, by simp [he], Or.inr (Or.inl ⟨rfl, he⟩)⟩
    · cases buf with
      | none => rcases hne with h | h <;> exact absurd rfl h
      | some line =>
        simp only [he, Bool.false_eq_true, if_false]
        rw [finish_not_trailer env st line (hbuf line rfl)]
        exact ⟨Diag.last_line_not_trailer, rfl, Or.inl rfl⟩
  | cons raw rest ih =>
    have hraw : raw.head? ≠ some 62 := hl raw (List.mem_cons_self _ _)
    by_cases h1 : strspn (cstr (chomp raw)) hexdigits = 2 * env.HASH_LEN
    · cases h2 : store (cstr (chomp raw)) with
      | none =>
        refine ⟨Diag.unable_to_open_block (cstr (chomp raw)), ?_,
          Or.inr (Or.inr ⟨_, Or.inr (Or.inl rfl)⟩)⟩
        rw [loop]; simp [hraw, h1, h2]
      | some f =>
        cases h3 : read_bytes f env.BLOCK_LEN with
        | none =>
          refine ⟨Diag.unable_to_read_block (cstr (chomp raw)), ?_,
            Or.inr (Or.inr ⟨_, Or.inr (Or.inr (Or.inl rfl))⟩)⟩
          rw [loop]; simp [hraw, h1, h2, h3]
        | some block =>
          by_cases h4 : block.length = 0
          · refine ⟨Diag.unable_to_read_block (cstr (chomp raw)), ?_,
              Or.inr (Or.inr ⟨_, Or.inr (Or.inr (Or.inl rfl))⟩)⟩
            rw [loop]; simp [hraw, h1, h2, h3, h4]
          · by_cases h5 : env.io.stdout_ok st.out.length block.length = true
            · rw [loop_cons_ok env store raw rest buf st f block hraw h1 h2 h3 h4 h5]
              exact ih _ _ (fun l hl1 => hl l (List.mem_cons_of_mem _ hl1))
                (by intro l hl1; cases hl1; exact head?_line raw hraw)
                (Or.inr (by simp))
            · refine ⟨Diag.unable_to_write_block (cstr (chomp raw)), ?_,
                Or.inr (Or.inr ⟨_, Or.inr (Or.inr (Or.inr rfl))⟩)⟩
              rw [loop]; simp [hraw, h1, h2, h3, h4, h5]
    · refine ⟨Diag.invalid_index_hash (cstr (chomp raw)), ?_,
        Or.inr (Or.inr ⟨_, Or.inl rfl⟩)⟩
      rw [loop]; simp [hraw, h1]

/-- The ways in which `main` of gob-cat ends. -/
theorem main_cases (env : Env) (argv : List (List Nat)) :
    (argv.length ≠ 2 ∧ main env argv = ⟨Exit.die Diag.usage, [], []⟩) ∨
    (argv.length = 2 ∧ argv.get? 1 = some (bytesOf "--version") ∧
      main env argv = ⟨Exit.version, [], []⟩) ∨
    (argv.length = 2 ∧ argv.get? 1 ≠ some (bytesOf "--version") ∧
      env.open_store (argv.getD 1 []) = none ∧
      main env argv = ⟨Exit.die Diag.unable_to_open_store, [], []⟩) ∨
    (∃ store, argv.length = 2 ∧ argv.get? 1 ≠ some (bytesOf "--version") ∧
      env.open_store (argv.getD 1 []) = some store ∧
      main env argv = loop env store (getlines env.io.stdin) none State.init) := by
  by_cases h1 : argv.length = 2
  · by_cases h2 : argv.get? 1 = some (bytesOf "--version")
    · right; left
      refine ⟨h1, h2, ?_⟩
      unfold main; rw [if_neg (not_not.mpr h1), if_pos h2]
    · cases h3 : env.open_store (argv.getD 1 []) with
      | none =>
        right; right; left
        refine ⟨h1, h2, rfl, ?_⟩
        unfold main; rw [if_neg (not_not.mpr h1), if_neg h2, h3]
      | some store =>
        right; right; right
        refine ⟨store, h1, h2, rfl, ?_⟩
        unfold main; rw [if_neg (not_not.mpr h1), if_neg h2, h3]
  · left
    refine ⟨h1, ?_⟩
    unfold main; rw [if_pos h1]

end GobCat
end Gob

namespace Gob
namespace SbCat

/-- The last line of a text without a trailer line does not begin with '>'. -/
theorem last_line_head (pre line nls : List Nat)
    (hpre : pre = [] ∨ ∃ p, pre = p ++ [10]) (hne : line ≠ [])
    (h : ¬ HasTrailerLine (pre ++ (line ++ nls))) : line.head? ≠ some 62 := by
  intro h62
  apply h
  cases line with
  | nil => exact absurd rfl hne
  | cons a x =>
    simp only [List.head?_cons, Option.some.injEq] at h62
    subst h62
    rcases hpre with hp | ⟨p, hp⟩
    · subst hp; left; rfl
    · subst hp
      have e : p ++ [10] ++ (62 :: x ++ nls) = p ++ 10 :: 62 :: (x ++ nls) := by simp
      rw [e]
      exact hasTrailerLine_append p (x ++ nls)

/-- `parse_trailer` of sb-cat on a text whose last line does not begin with '>'. -/
theorem sb_parse_trailer_not_trailer (H : Nat) (pre line nls : List Nat)
    (hpre : pre = [] ∨ ∃ p, pre = p ++ [10]) (hne : line ≠ [])
    (hl : ∀ c ∈ line, c ≠ 10) (hn : ∀ c ∈ nls, c = 10)
    (hnul : ∀ c ∈ pre ++ (line ++ nls), c ≠ 0)
    (h62 : line.head? ≠ some 62) :
    parse_trailer H (pre ++ (line ++ nls)) =
      Except.error (Exit.die (if pre = [] then Diag.invalid_input_without_trailer
        else Diag.last_line_not_trailer)) := by
  unfold parse_trailer
  rw [cstr_of_no_nul _ hnul, find_last_line_spec pre line nls hpre hne hl hn]
  by_cases hp : pre = []
  · simp [hp]
  · have hd : (pre ++ (line ++ nls) ++ [0]).drop pre.length = line ++ nls ++ [0] := by
      rw [List.append_assoc, List.drop_left]
    have hh : (line ++ nls ++ [0]).head? = line.head? := by
      cases line with
      | nil => exact absurd rfl hne
      | cons a x => rfl
    simp only [hp, if_false, hd, hh, ne_eq, h62, not_false_eq_true, if_true]

/-- The ways in which `main` of sb-cat ends before its loop. -/
theorem sb_main_cases (env : Env) (argv : List (List Nat)) :
    (argv.length ≠ 2 ∧ main env argv = ⟨Exit.die Diag.usage, [], []⟩) ∨
    (argv.length = 2 ∧ env.open_dir (argv.getD 1 []) = none ∧
      main env argv = ⟨Exit.die Diag.unable_to_open_storage, [], []⟩) ∨
    (∃ dirfd, argv.length = 2 ∧ env.open_dir (argv.getD 1 []) = some dirfd ∧
      env.io.stdin_error = true ∧
      main env argv = ⟨Exit.die Diag.unable_to_read_stdin, [], []⟩) ∨
    (∃ dirfd e, argv.length = 2 ∧ env.open_dir (argv.getD 1 []) = some dirfd ∧
      env.io.stdin_error = false ∧
      parse_trailer env.HASH_LEN env.io.stdin = Except.error e ∧
      main env argv = ⟨e, [], []⟩) ∨
    (∃ dirfd trailer_hash data_len, argv.length = 2 ∧
      env.open_dir (argv.getD 1 []) = some dirfd ∧ env.io.stdin_error = false ∧
      parse_trailer env.HASH_LEN env.io.stdin = Except.ok (trailer_hash, data_len) ∧
      main env argv =
        loop env dirfd trailer_hash (strtok_all (cstr env.io.stdin))
          ⟨[], data_len, [], []⟩) := by
  by_cases h1 : argv.length = 2
  · cases h2 : env.open_dir (argv.getD 1 []) with
    | none =>
      right; left
      refine ⟨h1, rfl, ?_⟩
      unfold main; rw [if_neg (not_not.mpr h1), h2]
    | some dirfd =>
      by_cases h3 : env.io.stdin_error = true
      · right; right; left
        refine ⟨dirfd, h1, rfl, h3, ?_⟩
        unfold main; rw [if_neg (not_not.mpr h1), h2]; simp only [h3, if_true]
      · have h3f : env.io.stdin_error = false := by simpa using h3
        cases h4 : parse_trailer env.HASH_LEN env.io.stdin with
        | error e =>
          right; right; right; left
          refine ⟨dirfd, e, h1, rfl, h3f, rfl, ?_⟩
          unfold main; rw [if_neg (not_not.mpr h1), h2]
          simp only [h3f, Bool.false_eq_true, if_false, h4]
        | ok r =>
          obtain ⟨th, dl⟩ := r
          right; right; right; right
          refine ⟨dirfd, th, dl, h1, rfl, h3f, rfl, ?_⟩
          unfold main; rw [if_neg (not_not.mpr h1), h2]
          simp only [h3f, Bool.false_eq_true, if_false, h4]
  · left
    refine ⟨h1, ?_⟩
    unfold main; rw [if_pos h1]

end SbCat
end Gob

namespace Gob

/-- C12, as stated, fails for gob-cat: on a chain text of one non-empty line and
no trailer line the failure depends on the store. The block of the line
"0c0c" is not in the store and gob-cat dies with "Unable to open block", and
the line "zz" is rejected with "Invalid index hash"; neither is the diagnostic
of a missing trailer. -/
theorem missing_trailer_counterexample :
    (¬ HasTrailerLine (bytesOf "0c0c\n")) ∧
    GobCat.main (GobCat.env_a (bytesOf "0c0c\n")) GobCat.argv_a =
      ⟨Exit.die (Diag.unable_to_open_block (bytesOf "0c0c")), [], [bytesOf "0c0c"]⟩ ∧
    (¬ HasTrailerLine (bytesOf "zz\n")) ∧
    GobCat.main (GobCat.env_a (bytesOf "zz\n")) GobCat.argv_a =
      ⟨Exit.die (Diag.invalid_index_hash (bytesOf "zz")), [], []⟩ := by
  refine ⟨by decide, by decide, by decide, by decide⟩

/-- C12, amended. Let `t` be a chain text without NUL that contains a non-empty
line and no line beginning with '>'. Whatever the store contains, and
whatever the other parameters are, both tools fail and never exit
successfully. sb-cat fails before it looks up any block or writes any byte,
and once its storage directory is opened and standard input is read, the
diagnostic is "Invalid input without trailer" (one line only) or "Last line is
not a trailer line". gob-cat (not started with --version) reads the lines in
order, and once the store is opened the diagnostic is "Last line is not a
trailer line" unless the run has died before, at a line that is rejected
("Invalid index hash") or whose block cannot be opened, read or written. -/
theorem missing_trailer (t : List Nat) (hnul : ∀ c ∈ t, c ≠ 0) (hline : ∃ c ∈ t, c ≠ 10)
    (hno : ¬ HasTrailerLine t) :
    (∀ (env : GobCat.Env) (argv : List (List Nat)), env.io.stdin = t →
      argv.get? 1 ≠ some (bytesOf "--version") →
      ∃ d, (GobCat.main env argv).exit = Exit.die d ∧
        (argv.length = 2 → env.open_store (argv.getD 1 []) ≠ none →
          env.io.stdin_error = false →
          d = Diag.last_line_not_trailer ∨
          ∃ line, d = Diag.invalid_index_hash line ∨ d = Diag.unable_to_open_block line ∨
            d = Diag.unable_to_read_block line ∨ d = Diag.unable_to_write_block line)) ∧
    (∀ (env : SbCat.Env) (argv : List (List Nat)), env.io.stdin = t →
      ∃ d, SbCat.main env argv = ⟨Exit.die d, [], []⟩ ∧
        (argv.length = 2 → env.open_dir (argv.getD 1 []) ≠ none →
          env.io.stdin_error = false →
          d = Diag.invalid_input_without_trailer ∨ d = Diag.last_line_not_trailer)) := by
  refine ⟨?_, ?_⟩
  · intro env argv hin hver
    rcases GobCat.main_cases env argv with ⟨h1, hm⟩ | ⟨_, h2, _⟩ | ⟨_, _, h3, hm⟩ |
      ⟨store, _, _, h3, hm⟩
    · exact ⟨Diag.usage, by rw [hm], fun h => absurd h h1⟩
    · exact absurd h2 hver
    · exact ⟨Diag.unable_to_open_store, by rw [hm], fun _ h => absurd h3 h⟩
    · have hne : t ≠ [] := by
        obtain ⟨c, hc, _⟩ := hline
        intro h; rw [h] at hc; simp at hc
      obtain ⟨d, hd, hcases⟩ := GobCat.loop_no_trailer env store (getlines env.io.stdin) none
        GobCat.State.init (by rw [hin]; exact getlines_no_trailer t hno)
        (by intro l hl; cases hl) (Or.inl (by rw [hin]; exact getlines_ne_nil t hne))
      refine ⟨d, by rw [hm]; exact hd, ?_⟩
      intro _ _ herr
      rcases hcases with h | ⟨_, h⟩ | h
      · exact Or.inl h
      · rw [herr] at h; cases h
      · exact Or.inr h
  · intro env argv hin
    obtain ⟨pre, line, nls, ht, hpre, hne, hl, hn⟩ := text_last_line t hline
    have hparse := SbCat.sb_parse_trailer_not_trailer env.HASH_LEN pre line nls hpre hne hl hn
      (by rw [← ht]; exact hnul)
      (SbCat.last_line_head pre line nls hpre hne (by rw [← ht]; exact hno))
    rw [← ht, ← hin] at hparse
    rcases SbCat.sb_main_cases env argv with ⟨h1, hm⟩ | ⟨_, h2, hm⟩ | ⟨_, _, _, h3, hm⟩ |
      ⟨_, e, _, _, _, h4, hm⟩ | ⟨_, th, dl, _, _, _, h4, _⟩
    · exact ⟨Diag.usage, hm, fun h => absurd h h1⟩
    · exact ⟨Diag.unable_to_open_storage, hm, fun _ h => absurd h2 h⟩
    · exact ⟨Diag.unable_to_read_stdin, hm, fun _ _ h => by rw [h] at h3; cases h3⟩
    · rw [hparse] at h4
      cases h4
      refine ⟨_, hm, fun _ _ _ => ?_⟩
      by_cases hp : pre = []
      · left; simp [hp]
      · right; simp [hp]
    · rw [hparse] at h4; cases h4

/-- The chain text of the single line "0a0a", whose block is stored: gob-cat
writes the block and then fails; sb-cat fails on the single line "abcd". -/
theorem missing_trailer_witness :
    (∃ d, (GobCat.main (GobCat.env_a (bytesOf "0a0a\n")) GobCat.argv_a).exit = Exit.die d) ∧
    (∃ d, SbCat.main (SbCat.env_b (bytesOf "0a0a\n")) SbCat.argv_b = ⟨Exit.die d, [], []⟩) :=
  ⟨((missing_trailer (bytesOf "0a0a\n") (by decide) (by decide) (by decide)).1
      (GobCat.env_a (bytesOf "0a0a\n")) GobCat.argv_a rfl (by decide)).imp (fun _ h => h.1),
   ((missing_trailer (bytesOf "0a0a\n") (by decide) (by decide) (by decide)).2
      (SbCat.env_b (bytesOf "0a0a\n")) SbCat.argv_b rfl).imp (fun _ h => h.1)⟩

end Gob

namespace Gob
namespace GobCat

/-- One iteration of the loop of gob-cat on a line that does not begin with
'>': the run dies at this line, with or without a look-up in the store, or
the block of the line is read and written and the loop goes on. -/
theorem loop_cons_cases (env : Env) (store : List Nat → Option File) (raw : List Nat)
    (rest : List (List Nat)) (buf : Option (List Nat)) (st : State)
    (hraw : raw.head? ≠ some 62) :
    (strspn (cstr (chomp raw)) hexdigits ≠ 2 * env.HASH_LEN ∧
      loop env store (raw :: rest) buf st =
        ⟨Exit.die (Diag.invalid_index_hash (cstr (chomp raw))), st.out, st.opened⟩) ∨
    (∃ d, strspn (cstr (chomp raw)) hexdigits = 2 * env.HASH_LEN ∧
      loop env store (raw :: rest) buf st =
        ⟨Exit.die d, st.out, st.opened ++ [cstr (chomp raw)]⟩) ∨
    (∃ f block, strspn (cstr (chomp raw)) hexdigits = 2 * env.HASH_LEN ∧
      store (cstr (chomp raw)) = some f ∧ read_bytes f env.BLOCK_LEN = some block ∧
      block.length ≠ 0 ∧ env.io.stdout_ok st.out.length block.length = true ∧
      loop env store (raw :: rest) buf st =
        loop env store rest (some (cstr (chomp raw)))
          { hashed := st.hashed ++ block
            total := (st.total + block.length) % SIZE_MOD
            out := st.out ++ block
            opened := st.opened ++ [cstr (chomp raw)] }) := by
  by_cases h1 : strspn (cstr (chomp raw)) hexdigits = 2 * env.HASH_LEN
  · right
    cases h2 : store (cstr (chomp raw)) with
    | none =>
      left
      refine ⟨Diag.unable_to_open_block (cstr (chomp raw)), h1, ?_⟩
      rw [loop]; simp [hraw, h1, h2]
    | some f =>
      cases h3 : read_bytes f env.BLOCK_LEN with
      | none =>
        left
        refine ⟨Diag.unable_to_read_block (cstr (chomp raw)), h1, ?_⟩
        rw [loop]; simp [hraw, h1, h2, h3]
      | some block =>
        by_cases h4 : block.length = 0
        · left
          refine ⟨Diag.unable_to_read_block (cstr (chomp raw)), h1, ?_⟩
          rw [loop]; simp [hraw, h1, h2, h3, h4]
        · by_cases h5 : env.io.stdout_ok st.out.length block.length = true
          · right
            exact ⟨f, block, h1, rfl, h3, h4, h5,
              loop_cons_ok env store raw rest buf st f block hraw h1 h2 h3 h4 h5⟩
          · left
            refine ⟨Diag.unable_to_write_block (cstr (chomp raw)), h1, ?_⟩
            rw [loop]; simp [hraw, h1, h2, h3, h4, h5]
  · left
    refine ⟨h1, ?_⟩
    rw [loop]; simp [hraw, h1]

theorem finish_out (env : Env) (st : State) (line : List Nat) :
    (finish env st line).out = st.out ∧ (finish env st line).opened = st.opened := by
  unfold finish
  cases parse_trailer env.HASH_LEN line with
  | error d => exact ⟨rfl, rfl⟩
  | ok r =>
    obtain ⟨D, L⟩ := r
    simp only []
    split
    · exact ⟨rfl, rfl⟩
    · split <;> exact ⟨rfl, rfl⟩

/-- The effects of a run of the loop extend those of its start. -/
theorem loop_extends (env : Env) (store : List Nat → Option File) (lines : List (List Nat))
    (buf : Option (List Nat)) (st : State) :
    (∃ o, (loop env store lines buf st).out = st.out ++ o) ∧
    (∃ m, (loop env store lines buf st).opened = st.opened ++ m) := by
  induction lines generalizing buf st with
  | nil =>
    rw [loop_nil]
    split
    · exact ⟨⟨[], by simp⟩, ⟨[], by simp⟩⟩
    · split
      · exact ⟨⟨[], by simp⟩, ⟨[], by simp⟩⟩
      · rename_i line
        exact ⟨⟨[], by simp [(finish_out env st line).1]⟩,
          ⟨[], by simp [(finish_out env st line).2]⟩⟩
  | cons raw rest ih =>
    by_cases hraw : raw.head? = some 62
    · rw [loop_trailer _ _ _ _ _ _ hraw]
      exact ⟨⟨[], by simp [(finish_out env st (cstr raw)).1]⟩,
        ⟨[], by simp [(finish_out env st (cstr raw)).2]⟩⟩
    · rcases loop_cons_cases env store raw rest buf st hraw with ⟨_, h⟩ | ⟨d, _, h⟩ |
        ⟨f, block, _, _, _, _, _, h⟩
      · rw [h]; exact ⟨⟨[], by simp⟩, ⟨[], by simp⟩⟩
      · rw [h]; exact ⟨⟨[], by simp⟩, ⟨[cstr (chomp raw)], rfl⟩⟩
      · rw [h]
        obtain ⟨⟨o, ho⟩, ⟨m, hm⟩⟩ := ih (some (cstr (chomp raw)))
          { hashed := st.hashed ++ block
            total := (st.total + block.length) % SIZE_MOD
            out := st.out ++ block
            opened := st.opened ++ [cstr (chomp raw)] }
        exact ⟨⟨block ++ o, by rw [ho]; simp⟩, ⟨cstr (chomp raw) :: m, by rw [hm]; simp⟩⟩

/-- A run whose first trailer line does not parse dies. -/
theorem loop_bad_trailer (env : Env) (store : List Nat → Option File)
    (hs : List (List Nat)) (tl : List Nat) (more : List (List Nat))
    (buf : Option (List Nat)) (st : State) (d0 : Diag)
    (hhs : ∀ l ∈ hs, l.head? ≠ some 62) (htl : tl.head? = some 62)
    (hp : parse_trailer env.HASH_LEN (cstr tl) = Except.error d0) :
    ∃ d, (loop env store (hs ++ tl :: more) buf st).exit = Exit.die d := by
  induction hs generalizing buf st with
  | nil =>
    rw [List.nil_append, loop_trailer _ _ _ _ _ _ htl]
    exact ⟨d0, by simp [finish, hp]⟩
  | cons raw rest ih =>
    have hraw : raw.head? ≠ some 62 := hhs raw (List.mem_cons_self _ _)
    rw [List.cons_append]
    rcases loop_cons_cases env store raw (rest ++ tl :: more) buf st hraw with ⟨_, h⟩ |
      ⟨d, _, h⟩ | ⟨f, block, _, _, _, _, _, h⟩
    · exact ⟨_, by rw [h]⟩
    · exact ⟨d, by rw [h]⟩
    · rw [h]
      exact ih _ _ (fun l hl => hhs l (List.mem_cons_of_mem _ hl))

/-- The first valid hash line of a run is looked up in the store. -/
theorem loop_first_opened (env : Env) (store : List Nat → Option File) (name : List Nat)
    (rest : List (List Nat)) (buf : Option (List Nat)) (st : State)
    (hname : IsHashLine env.HASH_LEN name) :
    ∃ m, (loop env store ((name ++ [10]) :: rest) buf st).opened = st.opened ++ name :: m := by
  have hc : cstr (chomp (name ++ [10])) = name := by
    rw [chomp_line]; exact cstr_of_no_nul _ (fun c hc => hex_ne_zero c (hname.2 c hc))
  have hs : strspn name hexdigits = 2 * env.HASH_LEN := by
    rw [strspn_hex_all _ hname.2, hname.1]
  rcases loop_cons_cases env store (name ++ [10]) rest buf st (isHashLine_head _ _ hname)
    with ⟨hbad, _⟩ | ⟨d, _, h⟩ | ⟨f, block, _, _, _, _, _, h⟩
  · rw [hc] at hbad; exact absurd hs hbad
  · rw [h, hc]; exact ⟨[], rfl⟩
  · rw [h, hc]
    obtain ⟨_, ⟨m, hm⟩⟩ := loop_extends env store rest (some name)
      { hashed := st.hashed ++ block
        total := (st.total + block.length) % SIZE_MOD
        out := st.out ++ block
        opened := st.opened ++ [name] }
    exact ⟨m, by rw [hm]; simp⟩

end GobCat
end Gob

namespace Gob
namespace GobCat

theorem parse_trailer_zero (H : Nat) (D : List Nat) (hD : D.length = H)
    (hDb : ∀ b ∈ D, b < 256) :
    parse_trailer H (trailer_line D 0) = Except.error Diag.invalid_data_length := by
  have h := parse_trailer_length H (bin2hex D) D (decimal 0) [10]
    (hex2bin_bin2hex H D hD hDb) (decimal_digits 0)
    (by intro c hc; simp at hc; subst hc; exact ⟨by decide, fun h => absurd h (decimal_ne_nil 0)⟩)
  have hv : digits_value (decimal 0) = 0 := decimal_value 0
  rw [hv] at h
  simpa [trailer_line] using h

/-- C13, as stated, fails: gob-cat reads the trailer line last. On the chain of
the stored block "0a0a" and a trailer whose length field is 0, the block is
fetched and its four bytes are written before the run dies with "Invalid data
length in trailer". -/
theorem zero_length_trailer_counterexample :
    main (env_a (bytesOf "0a0a\n>0a0a 0\n")) argv_a =
      ⟨Exit.die Diag.invalid_data_length, [1, 2, 3, 4], [bytesOf "0a0a"]⟩ := by
  decide

/-- C13, amended. For a chain of one or more valid hash lines followed by the
trailer line of a digest and the length 0, gob-cat fails, but not before any
fetch: the lines are processed in order and the trailer is parsed after the
loop. Whatever the store contains the run dies and the block of the first
hash line has been looked up in the store; when the blocks of all the lines
are read (and written), the run dies with "Invalid data length in trailer"
after it has fetched every block and written all their bytes. -/
theorem zero_length_trailer (env : Env) (prog dir : List Nat)
    (store : List Nat → Option File) (items : List (List Nat × List Nat)) (D : List Nat)
    (hdir : dir ≠ bytesOf "--version") (hstore : env.open_store dir = some store)
    (hne : items ≠ [])
    (hname : ∀ it ∈ items, IsHashLine env.HASH_LEN it.1)
    (hD : D.length = env.HASH_LEN) (hDb : ∀ b ∈ D, b < 256)
    (hin : env.io.stdin = chain_text (items.map Prod.fst) (trailer_line D 0)) :
    (∃ d, (main env [prog, dir]).exit = Exit.die d) ∧
    (main env [prog, dir]).opened.head? = (items.map Prod.fst).head? ∧
    ((∀ it ∈ items, ∃ f, store it.1 = some f ∧
        read_bytes f env.BLOCK_LEN = some it.2 ∧ it.2 ≠ []) →
      (∀ a b, env.io.stdout_ok a b = true) →
      main env [prog, dir] =
        ⟨Exit.die Diag.invalid_data_length, (items.map Prod.snd).flatten,
          items.map Prod.fst⟩) := by
  have hlines : getlines env.io.stdin =
      items.map (fun it => it.1 ++ [10]) ++ [trailer_line D 0] := by
    rw [hin, getlines_chain_text _ _ (by
      intro l hl c hc
      obtain ⟨it, hit, rfl⟩ := List.mem_map.mp hl
      exact hex_ne_newline c ((hname it hit).2 c hc)), getlines_trailer_line D 0 hDb]
    simp [List.map_map, Function.comp_def]
  have hparse : parse_trailer env.HASH_LEN (cstr (trailer_line D 0)) =
      Except.error Diag.invalid_data_length := by
    rw [cstr_trailer_line D 0 hDb]; exact parse_trailer_zero env.HASH_LEN D hD hDb
  have htl : (trailer_line D 0).head? = some 62 := rfl
  rw [main_eq_loop env prog dir store hdir hstore, hlines]
  refine ⟨?_, ?_, ?_⟩
  · apply loop_bad_trailer env store _ _ [] none State.init _ _ htl hparse
    intro l hl
    obtain ⟨it, hit, rfl⟩ := List.mem_map.mp hl
    exact isHashLine_head _ _ (hname it hit)
  · cases items with
    | nil => exact absurd rfl hne
    | cons it items =>
      obtain ⟨m, hm⟩ := loop_first_opened env store it.1
        (items.map (fun it => it.1 ++ [10]) ++ [trailer_line D 0]) none State.init
        (hname it (List.mem_cons_self _ _))
      simp only [List.map_cons, List.cons_append]
      rw [hm]
      rfl
  · intro hread hout
    rw [loop_blocks env store items [trailer_line D 0] none State.init hname hread hout
      (by decide), loop_trailer _ _ _ _ _ _ htl]
    simp [finish, hparse, State.init]

/-- The chain of the stored block "0a0a" and a trailer with the length 0. -/
theorem zero_length_trailer_witness :
    main (env_a (bytesOf "0a0a\n>0a0a 0\n")) argv_a =
      ⟨Exit.die Diag.invalid_data_length, [1, 2, 3, 4], [bytesOf "0a0a"]⟩ :=
  (zero_length_trailer (env_a (bytesOf "0a0a\n>0a0a 0\n")) (bytesOf "gob-cat")
    (bytesOf "store") store_a [(bytesOf "0a0a", [1, 2, 3, 4])] [10, 10]
    (by decide) rfl (by decide) (by decide) (by decide) (by decide) (by decide)).2.2
    (by
      intro it hit
      simp only [List.mem_singleton] at hit
      subst hit
      exact ⟨File.content [1, 2, 3, 4], rfl, rfl, by decide⟩)
    (fun _ _ => rfl)

end GobCat
end Gob

namespace Gob
namespace SbCat

/-! ## Which line sb-cat takes as the trailer -/

theorem split_newline_ne_nil (s : List Nat) : split_newline s ≠ [] := by
  cases s with
  | nil => simp [split_newline]
  | cons b bs =>
    rw [split_newline]
    split
    · simp
    · cases split_newline bs <;> simp

theorem split_newline_append (p r : List Nat) :
    split_newline (p ++ 10 :: r) = split_newline p ++ split_newline r := by
  induction p with
  | nil => simp [split_newline]
  | cons b p ih =>
    by_cases hb : b = 10
    · subst hb
      rw [List.cons_append, split_newline, split_newline]
      simp only [if_true]
      rw [ih]
      rfl
    · rw [List.cons_append, split_newline, split_newline]
      simp only [hb, if_false, ih]
      cases h : split_newline p with
      | nil => exact absurd h (split_newline_ne_nil p)
      | cons t ts => rfl

theorem strtok_all_append (p r : List Nat) :
    strtok_all (p ++ 10 :: r) = strtok_all p ++ strtok_all r := by
  unfold strtok_all
  rw [split_newline_append, List.filter_append]

theorem strtok_all_newlines (nls : List Nat) (hn : ∀ c ∈ nls, c = 10) : strtok_all nls = [] := by
  induction nls with
  | nil => exact strtok_all_nil
  | cons a nls ih =>
    have ha : a = 10 := hn a (List.mem_cons_self _ _)
    subst ha
    have := strtok_all_append [] nls
    rw [List.nil_append] at this
    rw [this, strtok_all_nil, List.nil_append]
    exact ih (fun c hc => hn c (List.mem_cons_of_mem _ hc))

theorem strtok_all_last (line nls : List Nat) (hne : line ≠ []) (hl : ∀ c ∈ line, c ≠ 10)
    (hn : ∀ c ∈ nls, c = 10) : strtok_all (line ++ nls) = [line] := by
  cases nls with
  | nil =>
    rw [List.append_nil]
    unfold strtok_all
    have : split_newline line = [line] := by
      induction line with
      | nil => exact absurd rfl hne
      | cons a l ih =>
        have ha : a ≠ 10 := hl a (List.mem_cons_self _ _)
        rw [split_newline]
        simp only [ha, if_false]
        cases l with
        | nil => simp [split_newline]
        | cons b l =>
          rw [ih (by simp) (fun c hc => hl c (List.mem_cons_of_mem _ hc))]
    rw [this]
    cases line with
    | nil => exact absurd rfl hne
    | cons a l => rfl
  | cons a nls =>
    have ha : a = 10 := hn a (List.mem_cons_self _ _)
    subst ha
    rw [strtok_all_line line nls hne hl,
      strtok_all_newlines nls (fun c hc => hn c (List.mem_cons_of_mem _ hc))]

/-- The loop of sb-cat stops at a line that begins with '>': what follows it in
the list of tokens, and the rest of that line, play no part. -/
theorem sb_loop_upto (env : Env) (dirfd : List Nat → Option (List Nat → Option File))
    (th : List Nat) (toks : List (List Nat)) (tok : List Nat) (more : List (List Nat))
    (st : State) (h : tok.head? = some 62) :
    loop env dirfd th (toks ++ tok :: more) st = loop env dirfd th toks st := by
  induction toks generalizing st with
  | nil =>
    rw [List.nil_append, sb_loop_stop env dirfd th tok more st h]
    simp only [loop]
  | cons hash rest ih =>
    rw [List.cons_append, loop]
    conv_rhs => rw [loop]
    simp only [ih]

end SbCat
end Gob

namespace Gob
namespace SbCat

theorem sb_loop_with_stdin (env : Env) (t : List Nat)
    (dirfd : List Nat → Option (List Nat → Option File)) (th : List Nat)
    (toks : List (List Nat)) (st : State) :
    loop (env.with_stdin t) dirfd th toks st = loop env dirfd th toks st := by
  induction toks generalizing st with
  | nil => rfl
  | cons hash rest ih =>
    rw [loop]
    conv_rhs => rw [loop]
    simp only [ih]
    rfl

/-- The run of sb-cat on a text: `main` with the text on standard input. -/
theorem sb_main_with_stdin (env : Env) (argv : List (List Nat)) (t : List Nat) :
    main (env.with_stdin t) argv =
      if argv.length ≠ 2 then ⟨Exit.die Diag.usage, [], []⟩
      else
        match env.open_dir (argv.getD 1 []) with
        | none => ⟨Exit.die Diag.unable_to_open_storage, [], []⟩
        | some dirfd =>
          if env.io.stdin_error then ⟨Exit.die Diag.unable_to_read_stdin, [], []⟩
          else
            match parse_trailer env.HASH_LEN t with
            | Except.error e => ⟨e, [], []⟩
            | Except.ok (trailer_hash, data_len) =>
              loop env dirfd trailer_hash (strtok_all (cstr t)) ⟨[], data_len, [], []⟩ := by
  unfold main
  simp only [sb_loop_with_stdin]
  rfl

/-- The trailer that sb-cat parses is the last line of the text: what precedes
that line plays no part, as long as something does. -/
theorem sb_parse_trailer_last (H : Nat) (p line nls : List Nat)
    (hne : line ≠ []) (hl : ∀ c ∈ line, c ≠ 10) (hn : ∀ c ∈ nls, c = 10)
    (hnul : ∀ c ∈ (p ++ [10]) ++ (line ++ nls), c ≠ 0) :
    parse_trailer H ((p ++ [10]) ++ (line ++ nls)) = parse_trailer H ([10] ++ (line ++ nls)) := by
  have hnul2 : ∀ c ∈ [10] ++ (line ++ nls), c ≠ 0 := by
    intro c hc
    apply hnul c
    simp only [List.mem_append, List.mem_singleton] at hc ⊢
    rcases hc with hc | hc | hc
    · left; right; exact hc
    · right; left; exact hc
    · right; right; exact hc
  have h1 : (p ++ [10]) ≠ [] := by simp
  have h2 : ([10] : List Nat) ≠ [] := by simp
  have hd1 : ((p ++ [10]) ++ (line ++ nls) ++ [0]).drop (p ++ [10]).length =
      line ++ nls ++ [0] := by
    rw [List.append_assoc, List.drop_left]
  have hd2 : (([10] : List Nat) ++ (line ++ nls) ++ [0]).drop ([10] : List Nat).length =
      line ++ nls ++ [0] := by
    rw [List.append_assoc, List.drop_left]
  unfold parse_trailer
  rw [cstr_of_no_nul _ hnul, cstr_of_no_nul _ hnul2,
    find_last_line_spec (p ++ [10]) line nls (Or.inr ⟨p, rfl⟩) hne hl hn,
    find_last_line_spec [10] line nls (Or.inr ⟨[], rfl⟩) hne hl hn, if_neg h1, if_neg h2]
  simp only [hd1, hd2]

end SbCat
end Gob

namespace Gob
namespace SbCat

theorem strtok_all_pre (pre rest : List Nat) (hpre : pre = [] ∨ ∃ p, pre = p ++ [10]) :
    strtok_all (pre ++ rest) = strtok_all pre ++ strtok_all rest := by
  rcases hpre with h | ⟨p, h⟩
  · subst h; simp [strtok_all_nil]
  · subst h
    have e1 : p ++ [10] ++ rest = p ++ 10 :: rest := by simp
    have e2 : p ++ [10] = p ++ 10 :: [] := rfl
    rw [e1, strtok_all_append, e2, strtok_all_append, strtok_all_nil, List.append_nil]

/-- A text in which a line beginning with '>' is followed by further lines, as
sb-cat reads it: the trailer is parsed from the last line, and the loop runs
over the lines before the first of the two. -/
theorem sb_text_upto (H : Nat) (pre x mid line nls : List Nat)
    (hpre : pre = [] ∨ ∃ p, pre = p ++ [10])
    (hx : ∀ c ∈ x, c ≠ 10)
    (hmid : mid = [] ∨ ∃ m, mid = m ++ [10])
    (hne : line ≠ []) (hl : ∀ c ∈ line, c ≠ 10) (hn : ∀ c ∈ nls, c = 10)
    (hnul : ∀ c ∈ pre ++ (62 :: x ++ 10 :: mid) ++ (line ++ nls), c ≠ 0) :
    parse_trailer H (pre ++ (62 :: x ++ 10 :: mid) ++ (line ++ nls)) =
      parse_trailer H ([10] ++ (line ++ nls)) ∧
    ∀ (env : Env) (dirfd : List Nat → Option (List Nat → Option File)) (th : List Nat)
      (st : State),
      loop env dirfd th
          (strtok_all (cstr (pre ++ (62 :: x ++ 10 :: mid) ++ (line ++ nls)))) st =
        loop env dirfd th (strtok_all pre) st := by
  refine ⟨?_, ?_⟩
  · obtain ⟨q, hq⟩ : ∃ q, pre ++ (62 :: x ++ 10 :: mid) = q ++ [10] := by
      rcases hmid with h | ⟨m, h⟩
      · subst h; exact ⟨pre ++ 62 :: x, by simp⟩
      · subst h; exact ⟨pre ++ 62 :: x ++ 10 :: m, by simp⟩
    rw [hq] at hnul ⊢
    exact sb_parse_trailer_last H q line nls hne hl hn hnul
  · intro env dirfd th st
    rw [cstr_of_no_nul _ hnul]
    have e : pre ++ (62 :: x ++ 10 :: mid) ++ (line ++ nls) =
        pre ++ ((62 :: x) ++ 10 :: (mid ++ (line ++ nls))) := by simp
    rw [e, strtok_all_pre pre _ hpre,
      strtok_all_line (62 :: x) _ (by simp) (by
        intro c hc
        rcases List.mem_cons.mp hc with h | h
        · omega
        · exact hx c h)]
    exact sb_loop_upto env dirfd th _ _ _ st rfl

/-- A text that ends with a line beginning with '>', as sb-cat reads it. -/
theorem sb_text_last (H : Nat) (p line nls : List Nat)
    (h62 : line.head? = some 62) (hl : ∀ c ∈ line, c ≠ 10) (hn : ∀ c ∈ nls, c = 10)
    (hnul : ∀ c ∈ (p ++ [10]) ++ (line ++ nls), c ≠ 0) :
    parse_trailer H ((p ++ [10]) ++ (line ++ nls)) =
      parse_trailer H ([10] ++ (line ++ nls)) ∧
    ∀ (env : Env) (dirfd : List Nat → Option (List Nat → Option File)) (th : List Nat)
      (st : State),
      loop env dirfd th (strtok_all (cstr ((p ++ [10]) ++ (line ++ nls)))) st =
        loop env dirfd th (strtok_all (p ++ [10])) st := by
  have hne : line ≠ [] := by
    intro h; rw [h] at h62; simp at h62
  refine ⟨sb_parse_trailer_last H p line nls hne hl hn hnul, ?_⟩
  intro env dirfd th st
  rw [cstr_of_no_nul _ hnul, strtok_all_pre _ _ (Or.inr ⟨p, rfl⟩),
    strtok_all_last line nls hne hl hn]
  exact sb_loop_upto env dirfd th _ line [] st h62

end SbCat
end Gob

namespace Gob
namespace SbCat

/-- C14, as stated, fails: the trailer that sb-cat verifies is the last line of
the input, not the first line beginning with '>', and what follows the first
such line changes outcome and output. The chain "abcd", ">0a0a 4" exits
successfully with four bytes; with the line ">0b0b 4" appended it dies with
"Trailer hash does not match computed hash"; with the line "zz" appended it
dies with "Last line is not a trailer line" and writes nothing; and with
the wrong trailer ">ffff 9" put before the right one it exits successfully. -/
theorem sb_trailer_selection_counterexample :
    main (env_b (bytesOf "abcd\n>0a0a 4\n")) argv_b =
      ⟨Exit.success, [1, 2, 3, 4], [bytesOf "abcd"]⟩ ∧
    main (env_b (bytesOf "abcd\n>0a0a 4\n>0b0b 4\n")) argv_b =
      ⟨Exit.die Diag.trailer_hash_mismatch, [1, 2, 3, 4], [bytesOf "abcd"]⟩ ∧
    main (env_b (bytesOf "abcd\n>0a0a 4\nzz\n")) argv_b =
      ⟨Exit.die Diag.last_line_not_trailer, [], []⟩ ∧
    main (env_b (bytesOf "abcd\n>ffff 9\n>0a0a 4\n")) argv_b =
      ⟨Exit.success, [1, 2, 3, 4], [bytesOf "abcd"]⟩ := by
  refine ⟨by decide, by decide, by decide, by decide⟩

/-- C14, amended. In sb-cat the reading of the hash sequence stops at the first
line beginning with '>', but the trailer whose digest and length are verified
is the last line of the input (`find_last_line`), trailing newlines apart; the
two are the same line only when nothing but newlines follows the first.
For a text without NUL made of a part `pre` of complete lines, a line
'>' `x`, any further complete lines `mid` and a last non-empty line `line`
followed by newlines only: the run does not depend on `x` and `mid`, that is,
on the text of the first trailer line and on what lies between it and the
last line; and when `pre` is not empty and the last line begins with '>', the
run is the run on `pre` followed by the last line alone. The last line does
have influence: it is the trailer. -/
theorem sb_trailer_selection (env : Env) (argv : List (List Nat))
    (pre x mid line nls : List Nat)
    (hpre : pre = [] ∨ ∃ p, pre = p ++ [10])
    (hx : ∀ c ∈ x, c ≠ 10)
    (hmid : mid = [] ∨ ∃ m, mid = m ++ [10])
    (hne : line ≠ []) (hl : ∀ c ∈ line, c ≠ 10) (hn : ∀ c ∈ nls, c = 10)
    (hnul : ∀ c ∈ pre ++ (62 :: x ++ 10 :: mid) ++ (line ++ nls), c ≠ 0) :
    (∀ x2 mid2 : List Nat, (∀ c ∈ x2, c ≠ 10) → (mid2 = [] ∨ ∃ m, mid2 = m ++ [10]) →
      (∀ c ∈ x2 ++ mid2, c ≠ 0) →
      main (env.with_stdin (pre ++ (62 :: x ++ 10 :: mid) ++ (line ++ nls))) argv =
        main (env.with_stdin (pre ++ (62 :: x2 ++ 10 :: mid2) ++ (line ++ nls))) argv) ∧
    (pre ≠ [] → line.head? = some 62 →
      main (env.with_stdin (pre ++ (62 :: x ++ 10 :: mid) ++ (line ++ nls))) argv =
        main (env.with_stdin (pre ++ (line ++ nls))) argv) := by
  obtain ⟨hP, hL⟩ := sb_text_upto env.HASH_LEN pre x mid line nls hpre hx hmid hne hl hn hnul
  have hpre0 : ∀ c ∈ pre, c ≠ 0 := fun c hc => hnul c (by simp [hc])
  have hline0 : ∀ c ∈ line ++ nls, c ≠ 0 := fun c hc => hnul c (by
    rw [List.mem_append]; right; exact hc)
  refine ⟨?_, ?_⟩
  · intro x2 mid2 hx2 hmid2 hnul2
    have hnul3 : ∀ c ∈ pre ++ (62 :: x2 ++ 10 :: mid2) ++ (line ++ nls), c ≠ 0 := by
      intro c hc
      simp only [List.mem_append, List.mem_cons, List.cons_append] at hc
      rcases hc with (hc | hc | hc | hc | hc) | hc
      · exact hpre0 c hc
      · omega
      · exact hnul2 c (by simp [hc])
      · omega
      · exact hnul2 c (by simp [hc])
      · exact hline0 c (by simpa using hc)
    obtain ⟨hP2, hL2⟩ :=
      sb_text_upto env.HASH_LEN pre x2 mid2 line nls hpre hx2 hmid2 hne hl hn hnul3
    rw [sb_main_with_stdin, sb_main_with_stdin, hP, hP2]
    simp only [hL, hL2]
  · intro hp h62
    rcases hpre with h | ⟨p, h⟩
    · exact absurd h hp
    · subst h
      have hnul3 : ∀ c ∈ (p ++ [10]) ++ (line ++ nls), c ≠ 0 := by
        intro c hc
        rw [List.mem_append] at hc
        rcases hc with hc | hc
        · exact hpre0 c hc
        · exact hline0 c hc
      obtain ⟨hP2, hL2⟩ := sb_text_last env.HASH_LEN p line nls h62 hl hn hnul3
      rw [sb_main_with_stdin, sb_main_with_stdin, hP, hP2]
      simp only [hL, hL2]

/-- The right trailer of the stored block "abcd" as last line, after a first
trailer line with a wrong digest and length and a line of other text. -/
theorem sb_trailer_selection_witness :
    main (env_b (bytesOf "abcd\n>ffff 9\njunk\n>0a0a 4\n")) argv_b =
      main (env_b (bytesOf "abcd\n>0a0a 4\n")) argv_b :=
  (sb_trailer_selection (env_b []) argv_b (bytesOf "abcd\n") (bytesOf "ffff 9")
    (bytesOf "junk\n") (bytesOf ">0a0a 4") [10] (Or.inr ⟨bytesOf "abcd", rfl⟩) (by decide)
    (Or.inr ⟨bytesOf "junk", rfl⟩) (by decide) (by decide) (by decide) (by decide)).2
    (by decide) rfl

end SbCat
end Gob

namespace Gob

/-- C15. The argument-count check of the three tools. gob-cat and sb-cat die
with the usage message, without output and without opening anything, whenever
the number of arguments is not exactly one (`argc != 2`), whatever the
environment is; sb-decrypt does so when there is no argument (`argc < 2`).
With extra arguments sb-decrypt does not die with the usage message: started
as `sb-decrypt key extra` it reads the key file, decrypts standard input and
exits successfully. -/
theorem argument_count :
    (∀ (env : GobCat.Env) (argv : List (List Nat)), argv.length ≠ 2 →
      GobCat.main env argv = ⟨Exit.die Diag.usage, [], []⟩) ∧
    (∀ (env : SbCat.Env) (argv : List (List Nat)), argv.length ≠ 2 →
      SbCat.main env argv = ⟨Exit.die Diag.usage, [], []⟩) ∧
    (∀ (env : SbDecrypt.Env) (argv : List (List Nat)), argv.length < 2 →
      SbDecrypt.main env argv = ⟨Exit.die Diag.usage, [], [], []⟩) ∧
    SbDecrypt.main (SbDecrypt.env_d [])
        [bytesOf "sb-decrypt", bytesOf "key", bytesOf "extra"] =
      ⟨Exit.success, [], [], [0, 0]⟩ ∧
    SbDecrypt.main (SbDecrypt.env_d [8, 1, 2, 3])
        [bytesOf "sb-decrypt", bytesOf "key", bytesOf "extra"] =
      ⟨Exit.success, [1, 2, 3], [([0, 0], [8, 1, 2, 3])], [1, 0]⟩ := by
  refine ⟨?_, ?_, ?_, by decide, by decide⟩
  · intro env argv h
    unfold GobCat.main; rw [if_pos h]
  · intro env argv h
    unfold SbCat.main; rw [if_pos h]
  · intro env argv h
    unfold SbDecrypt.main; rw [if_pos h]

end Gob

namespace Gob
namespace SbCat

/-! ## The output length of sb-cat -/

/-- An iteration that runs to its end is an iteration of the loop of `main`. -/
theorem sb_loop_of_step (env : Env) (dirfd : List Nat → Option (List Nat → Option File))
    (th : List Nat) (hash : List Nat) (rest : List (List Nat)) (st st' : State)
    (h : step env dirfd hash st = some st') :
    loop env dirfd th (hash :: rest) st = loop env dirfd th rest st' := by
  unfold step at h
  rw [loop]
  by_cases h62 : hash.head? = some 62
  · simp [h62] at h
  · by_cases h0 : st.data_len = 0
    · simp [h62, h0] at h
    · simp only [h62, h0, if_false] at h ⊢
      cases hd : hex2bin env.HASH_LEN hash with
      | none => simp [hd] at h
      | some x =>
        simp only [hd] at h ⊢
        cases hr : read_block env.BLOCK_LEN dirfd hash with
        | error d => simp [hr] at h
        | ok data =>
          simp only [hr] at h ⊢
          by_cases hw : env.io.stdout_ok st.out.length (MIN st.data_len env.BLOCK_LEN) = false
          · simp [hw] at h
          · have hw1 : env.io.stdout_ok st.out.length (MIN st.data_len env.BLOCK_LEN) = true := by
              simpa using hw
            simp only [hw1, Bool.true_eq_false, if_false, Option.some.injEq] at h ⊢
            rw [h]

/-- An iteration that does not run to its end ends the loop, and writes nothing. -/
theorem sb_loop_of_no_step (env : Env) (dirfd : List Nat → Option (List Nat → Option File))
    (th : List Nat) (hash : List Nat) (rest : List (List Nat)) (st : State)
    (h : step env dirfd hash st = none) :
    (loop env dirfd th (hash :: rest) st).out = st.out := by
  by_cases h62 : hash.head? = some 62
  · rw [sb_loop_stop env dirfd th hash rest st h62]
    unfold finish
    split
    · rfl
    · split <;> rfl
  · unfold step at h
    rw [loop]
    by_cases h0 : st.data_len = 0
    · simp [h62, h0]
    · simp only [h62, h0, if_false] at h ⊢
      cases hd : hex2bin env.HASH_LEN hash with
      | none => rfl
      | some x =>
        simp only [hd] at h ⊢
        cases hr : read_block env.BLOCK_LEN dirfd hash with
        | error d => rfl
        | ok data =>
          simp only [hr] at h ⊢
          by_cases hw : env.io.stdout_ok st.out.length (MIN st.data_len env.BLOCK_LEN) = false
          · simp [hw]
          · have hw1 : env.io.stdout_ok st.out.length (MIN st.data_len env.BLOCK_LEN) = true := by
              simpa using hw
            simp [hw1] at h

end SbCat
end Gob

namespace Gob
namespace SbCat

/-- What an iteration that runs to its end does to the variables. -/
theorem step_spec (env : Env) (dirfd : List Nat → Option (List Nat → Option File))
    (hash : List Nat) (st st' : State) (h : step env dirfd hash st = some st') :
    ∃ data, read_block env.BLOCK_LEN dirfd hash = Except.ok data ∧ st.data_len ≠ 0 ∧
      st' = { hashed := st.hashed ++ data
              data_len := st.data_len - min st.data_len env.BLOCK_LEN
              out := st.out ++ data.take (min st.data_len env.BLOCK_LEN)
              opened := st.opened ++ [hash] } := by
  unfold step at h
  by_cases h62 : hash.head? = some 62
  · simp [h62] at h
  · by_cases h0 : st.data_len = 0
    · simp [h62, h0] at h
    · simp only [h62, h0, if_false, MIN_eq] at h
      cases hd : hex2bin env.HASH_LEN hash with
      | none => simp [hd] at h
      | some x =>
        simp only [hd] at h
        cases hr : read_block env.BLOCK_LEN dirfd hash with
        | error d => simp [hr] at h
        | ok data =>
          simp only [hr] at h
          by_cases hw : env.io.stdout_ok st.out.length (min st.data_len env.BLOCK_LEN) = false
          · simp [hw] at h
          · have hw1 : env.io.stdout_ok st.out.length (min st.data_len env.BLOCK_LEN) = true := by
              simpa using hw
            simp only [hw1, Bool.true_eq_false, if_false, Option.some.injEq] at h
            exact ⟨data, rfl, h0, h.symm⟩

/-- The bytes that an iteration contributes: MIN(data_len, BLOCK_LEN) of them,
taken off the remaining declared length. -/
theorem step_lengths (env : Env) (dirfd : List Nat → Option (List Nat → Option File))
    (hash : List Nat) (st st' : State) (h : step env dirfd hash st = some st') :
    st'.out.length = st.out.length + min st.data_len env.BLOCK_LEN ∧
    st'.data_len = st.data_len - min st.data_len env.BLOCK_LEN := by
  obtain ⟨data, hr, _, rfl⟩ := step_spec env dirfd hash st st' h
  have hlen := read_block_length env.BLOCK_LEN dirfd hash data hr
  refine ⟨?_, rfl⟩
  simp only [List.length_append, List.length_take, hlen]
  have : min (min st.data_len env.BLOCK_LEN) env.BLOCK_LEN = min st.data_len env.BLOCK_LEN :=
    Nat.min_eq_left (Nat.min_le_right _ _)
  rw [this]

/-- The invariant of the loop: bytes written plus remaining declared length is
constant over the iterations. -/
theorem states_invariant (env : Env) (dirfd : List Nat → Option (List Nat → Option File))
    (toks : List (List Nat)) (st : State) :
    ∀ s ∈ states env dirfd toks st,
      s.out.length + s.data_len = st.out.length + st.data_len := by
  induction toks generalizing st with
  | nil =>
    intro s hs
    simp only [states, List.mem_singleton] at hs
    rw [hs]
  | cons hash rest ih =>
    intro s hs
    rw [states, List.mem_cons] at hs
    rcases hs with hs | hs
    · rw [hs]
    · cases hst : step env dirfd hash st with
      | none => rw [hst] at hs; simp at hs
      | some st' =>
        rw [hst] at hs
        obtain ⟨h1, h2⟩ := step_lengths env dirfd hash st st' hst
        rw [ih st' s hs, h1, h2]
        have : min st.data_len env.BLOCK_LEN ≤ st.data_len := Nat.min_le_left _ _
        omega

/-- The output of the loop is the output recorded in one of its states. -/
theorem sb_loop_out_state (env : Env) (dirfd : List Nat → Option (List Nat → Option File))
    (th : List Nat) (toks : List (List Nat)) (st : State) :
    ∃ s ∈ states env dirfd toks st, (loop env dirfd th toks st).out = s.out := by
  induction toks generalizing st with
  | nil =>
    refine ⟨st, by simp [states], ?_⟩
    simp only [loop]
    unfold finish
    split
    · rfl
    · split <;> rfl
  | cons hash rest ih =>
    cases hst : step env dirfd hash st with
    | none =>
      exact ⟨st, by rw [states]; exact List.mem_cons_self _ _,
        sb_loop_of_no_step env dirfd th hash rest st hst⟩
    | some st' =>
      obtain ⟨s, hs, ho⟩ := ih st'
      refine ⟨s, ?_, ?_⟩
      · rw [states, hst]; exact List.mem_cons_of_mem _ hs
      · rw [sb_loop_of_step env dirfd th hash rest st st' hst]; exact ho

/-- After an iteration that has written fewer than BLOCK_LEN bytes, no iteration
runs to its end. -/
theorem step_short_last (env : Env) (dirfd : List Nat → Option (List Nat → Option File))
    (hash hash2 : List Nat) (st st' : State) (h : step env dirfd hash st = some st')
    (hp : st'.out.length < st.out.length + env.BLOCK_LEN) :
    step env dirfd hash2 st' = none := by
  obtain ⟨h1, h2⟩ := step_lengths env dirfd hash st st' h
  have h0 : st'.data_len = 0 := by
    rw [h2]
    rw [h1] at hp
    have hlt : min st.data_len env.BLOCK_LEN < env.BLOCK_LEN := by omega
    have : min st.data_len env.BLOCK_LEN = st.data_len := by
      rw [Nat.min_def] at hlt ⊢
      split at hlt
      · rename_i hle; simp [hle]
      · omega
    omega
  unfold step
  by_cases h62 : hash2.head? = some 62
  · simp [h62]
  · simp [h62, h0]

end SbCat
end Gob

namespace Gob
namespace SbCat

/-- C16. The output-length invariant of sb-cat. Let the trailer of the input
parse to the digest D and the declared length L. (1) At the start of every
iteration of the reconstruction loop, and when the loop ends, the number of
bytes written so far plus the remaining declared length `data_len` is L.
(2) An iteration that runs to its end writes the first
MIN(data_len, BLOCK_LEN) bytes of the block it has read and takes as many off
`data_len`. (3) Hence the run, whether it exits successfully or dies, and
whatever its arguments and its storage directory are, writes at most L bytes.
(4) Only the last emitted block can be emitted partially: after an iteration
that has written fewer than BLOCK_LEN bytes no further iteration runs to its
end, so nothing more is written. -/
theorem sb_output_length (env : Env) (argv : List (List Nat)) (D : List Nat) (L : Nat)
    (hparse : parse_trailer env.HASH_LEN env.io.stdin = Except.ok (D, L)) :
    (∀ dirfd, ∀ s ∈ states env dirfd (strtok_all (cstr env.io.stdin)) ⟨[], L, [], []⟩,
      s.out.length + s.data_len = L) ∧
    (∀ dirfd hash (s s' : State), step env dirfd hash s = some s' →
      ∃ data, read_block env.BLOCK_LEN dirfd hash = Except.ok data ∧
        s'.out = s.out ++ data.take (min s.data_len env.BLOCK_LEN) ∧
        s'.out.length = s.out.length + min s.data_len env.BLOCK_LEN ∧
        s'.data_len = s.data_len - min s.data_len env.BLOCK_LEN) ∧
    (main env argv).out.length ≤ L ∧
    (∀ dirfd hash hash2 (s s' : State), step env dirfd hash s = some s' →
      s'.out.length < s.out.length + env.BLOCK_LEN → step env dirfd hash2 s' = none) := by
  refine ⟨?_, ?_, ?_, ?_⟩
  · intro dirfd s hs
    have := states_invariant env dirfd _ _ s hs
    simpa using this
  · intro dirfd hash s s' h
    obtain ⟨data, hr, _, he⟩ := step_spec env dirfd hash s s' h
    obtain ⟨h1, h2⟩ := step_lengths env dirfd hash s s' h
    exact ⟨data, hr, by rw [he], h1, h2⟩
  · rcases sb_main_cases env argv with ⟨_, hm⟩ | ⟨_, _, hm⟩ | ⟨_, _, _, _, hm⟩ |
      ⟨_, e, _, _, _, _, hm⟩ | ⟨dirfd, th, dl, _, _, _, h4, hm⟩
    · rw [hm]; exact Nat.zero_le _
    · rw [hm]; exact Nat.zero_le _
    · rw [hm]; exact Nat.zero_le _
    · rw [hm]; exact Nat.zero_le _
    · rw [hparse] at h4
      simp only [Except.ok.injEq, Prod.mk.injEq] at h4
      obtain ⟨rfl, rfl⟩ := h4
      rw [hm]
      obtain ⟨s, hs, ho⟩ := sb_loop_out_state env dirfd D
        (strtok_all (cstr env.io.stdin)) ⟨[], L, [], []⟩
      have := states_invariant env dirfd _ _ s hs
      rw [ho]
      simp only [List.length_nil, Nat.zero_add] at this
      omega
  · intro dirfd hash hash2 s s' h hp
    exact step_short_last env dirfd hash hash2 s s' h hp

/-- Two stored blocks of four bytes and a trailer that declares six bytes: the
run writes six bytes, the second block in part. -/
theorem sb_output_length_witness :
    (main (env_b (bytesOf "abcd\nabce\n>2424 6\n")) argv_b).out.length ≤ 6 ∧
    main (env_b (bytesOf "abcd\nabce\n>2424 6\n")) argv_b =
      ⟨Exit.success, [1, 2, 3, 4, 5, 6], [bytesOf "abcd", bytesOf "abce"]⟩ :=
  ⟨(sb_output_length (env_b (bytesOf "abcd\nabce\n>2424 6\n")) argv_b [36, 36] 6
    (by decide)).2.2.1, by decide⟩

end SbCat
end Gob

namespace Gob
namespace SbCat

/-! ## The trailer of sb-cat is validated first -/

theorem strchr_newline : strchr hexdigits 10 = false := by decide

theorem strchr_of_not_hex (c : Nat) (h0 : c ≠ 0) (h : c ∉ hexdigits) :
    strchr hexdigits c = false := by
  simp [strchr, h0, h]

theorem read_trailer_hash_short (n : Nat) (body rest : List Nat) (h : body.length < n) :
    read_trailer_hash n (body ++ 10 :: rest) =
      Except.error (Exit.die Diag.invalid_trailer_hash) := by
  induction body generalizing n with
  | nil =>
    cases n with
    | zero => simp at h
    | succ n => simp [read_trailer_hash, strchr_newline]
  | cons c b ih =>
    cases n with
    | zero => simp at h
    | succ n =>
      rw [List.cons_append, read_trailer_hash]
      by_cases hc : strchr hexdigits c = false
      · simp [hc]
      · have hc1 : strchr hexdigits c = true := by simpa using hc
        simp only [hc1, Bool.true_eq_false, if_false]
        rw [ih n (by simpa using h)]

theorem read_trailer_hash_bad (n : Nat) (body rest : List Nat) (hnul : ∀ c ∈ body, c ≠ 0)
    (h : ∃ c ∈ body.take n, c ∉ hexdigits) :
    read_trailer_hash n (body ++ rest) =
      Except.error (Exit.die Diag.invalid_trailer_hash) := by
  induction body generalizing n with
  | nil => obtain ⟨c, hc, _⟩ := h; simp at hc
  | cons a b ih =>
    cases n with
    | zero => obtain ⟨c, hc, _⟩ := h; simp at hc
    | succ n =>
      rw [List.cons_append, read_trailer_hash]
      by_cases ha : a ∈ hexdigits
      · have hs : strchr hexdigits a = true := by simp [strchr, ha]
        simp only [hs, Bool.true_eq_false, if_false]
        obtain ⟨c, hc, hn⟩ := h
        rw [List.take_succ_cons, List.mem_cons] at hc
        rcases hc with hc | hc
        · subst hc; exact absurd ha hn
        · rw [ih n (fun x hx => hnul x (List.mem_cons_of_mem _ hx)) ⟨c, hc, hn⟩]
      · simp [strchr_of_not_hex a (hnul a (List.mem_cons_self _ _)) ha]

theorem read_trailer_hash_take (n : Nat) (body rest : List Nat) (hlen : n ≤ body.length)
    (hhex : ∀ c ∈ body.take n, c ∈ hexdigits) :
    read_trailer_hash n (body ++ rest) = Except.ok (body.take n, body.drop n ++ rest) := by
  have h := read_trailer_hash_hex (body.take n) (body.drop n ++ rest) hhex
  rw [List.length_take, Nat.min_eq_left hlen, ← List.append_assoc, List.take_append_drop] at h
  exact h

theorem strtol_spaces (s : List Nat) (h : ∀ c ∈ s, isspace c = true) : strtol s = 0 := by
  have hd : s.dropWhile isspace = [] := by
    rw [List.dropWhile_eq_nil_iff]; exact h
  unfold strtol
  simp [hd, strtol_digits]

/-- The number that `strtol` reads from a length field without a number other
than zero, followed by newlines. -/
theorem strtol_noLength (field nls : List Nat) (h : NoLength field)
    (hn : ∀ c ∈ nls, c = 10) : strtol (field ++ nls) = 0 := by
  obtain ⟨h1, h2⟩ := h
  cases field with
  | nil =>
    rw [List.nil_append]
    apply strtol_spaces
    intro c hc
    rw [hn c hc]; rfl
  | cons a f =>
    have ha := h1 a (by simp)
    have hsplit : (a :: f) = (a :: f).takeWhile isdigit ++ (a :: f).dropWhile isdigit :=
      (List.takeWhile_append_dropWhile _ _).symm
    have hds : ∀ c ∈ (a :: f).takeWhile isdigit, isdigit c = true :=
      fun c hc => List.mem_takeWhile_imp hc
    have hrest : ∀ c, ((a :: f).dropWhile isdigit ++ nls).head? = some c →
        isdigit c = false ∧
          ((a :: f).takeWhile isdigit = [] → isspace c = false ∧ c ≠ 43 ∧ c ≠ 45) := by
      intro c hc
      cases hdw : (a :: f).dropWhile isdigit with
      | nil =>
        rw [hdw, List.nil_append] at hc
        have hc10 : c = 10 := hn c (List.mem_of_mem_head? hc)
        subst hc10
        refine ⟨by decide, ?_⟩
        intro htw
        rw [htw, hdw] at hsplit
        simp at hsplit
      | cons r rs =>
        rw [hdw] at hc
        simp only [List.cons_append, List.head?_cons, Option.some.injEq] at hc
        subst hc
        have hr : isdigit r = false := by
          have := List.head_dropWhile_not isdigit (a :: f) (by rw [hdw]; simp)
          simp only [hdw, List.head_cons] at this
          simpa using this
        refine ⟨hr, ?_⟩
        intro htw
        rw [htw, hdw, List.nil_append] at hsplit
        simp only [List.cons.injEq] at hsplit
        rw [← hsplit.1]
        exact ha
    have := strtol_leading_digits _ ((a :: f).dropWhile isdigit ++ nls) hds hrest
    rw [← List.append_assoc, ← hsplit, h2] at this
    rw [this]
    simp

end SbCat
end Gob

namespace Gob
namespace SbCat

/-- `parse_trailer` of sb-cat on a text whose last line is not a well-formed
trailer, when the text does not end inside the hash segment of that line. -/
theorem sb_parse_trailer_malformed (H : Nat) (line nls : List Nat)
    (hne : line ≠ []) (hl : ∀ c ∈ line, c ≠ 10) (hn : ∀ c ∈ nls, c = 10)
    (hend : ¬ EndsInHash H line nls)
    (hnul : ∀ c ∈ line, c ≠ 0) (hbad : MalformedTrailer H line) :
    ∃ d, parse_trailer H ([10] ++ (line ++ nls)) = Except.error (Exit.die d) := by
  have hnul2 : ∀ c ∈ [10] ++ (line ++ nls), c ≠ 0 := by
    intro c hc
    simp only [List.mem_append, List.mem_singleton] at hc
    rcases hc with hc | hc | hc
    · omega
    · exact hnul c hc
    · rw [hn c hc]; omega
  have hd : (([10] : List Nat) ++ (line ++ nls) ++ [0]).drop ([10] : List Nat).length =
      line ++ nls ++ [0] := by
    rw [List.append_assoc, List.drop_left]
  unfold parse_trailer
  rw [cstr_of_no_nul _ hnul2, find_last_line_spec [10] line nls (Or.inr ⟨[], rfl⟩) hne hl hn,
    if_neg (by simp)]
  simp only [hd]
  by_cases h62 : line.head? = some 62
  · obtain ⟨body, rfl⟩ : ∃ body, line = 62 :: body := by
      cases line with
      | nil => exact absurd rfl hne
      | cons a l =>
        simp only [List.head?_cons, Option.some.injEq] at h62
        exact ⟨l, by rw [h62]⟩
    have hb0 : ∀ c ∈ body, c ≠ 0 := fun c hc => hnul c (List.mem_cons_of_mem _ hc)
    simp only [List.cons_append, List.head?_cons, ne_eq, not_true_eq_false, if_false,
      List.tail_cons]
    rw [Nat.mul_comm H 2]
    by_cases hshort : body.length < 2 * H
    · by_cases hallhex : ∀ c ∈ body, c ∈ hexdigits
      · obtain ⟨nls1, hnls1⟩ : ∃ nls1, nls = 10 :: nls1 := by
          cases nls with
          | nil => exact absurd ⟨rfl, rfl, hshort, hallhex⟩ hend
          | cons a l => exact ⟨l, by rw [hn a (List.mem_cons_self _ _)]⟩
        have e : body ++ nls ++ [0] = body ++ 10 :: (nls1 ++ [0]) := by rw [hnls1]; simp
        rw [e, read_trailer_hash_short _ _ _ hshort]
        exact ⟨_, rfl⟩
      · have hbadc : ∃ c ∈ body.take (2 * H), c ∉ hexdigits := by
          rw [List.take_of_length_le (by omega)]
          by_contra hcon
          apply hallhex
          intro c hc
          by_contra hcn
          exact hcon ⟨c, hc, hcn⟩
        rw [List.append_assoc, read_trailer_hash_bad _ _ _ hb0 hbadc]
        exact ⟨_, rfl⟩
    · by_cases hhex : ∃ c ∈ body.take (2 * H), c ∉ hexdigits
      · rw [List.append_assoc, read_trailer_hash_bad _ _ _ hb0 hhex]
        exact ⟨_, rfl⟩
      · have hall : ∀ c ∈ body.take (2 * H), c ∈ hexdigits := by
          intro c hc
          by_contra hcn
          exact hhex ⟨c, hc, hcn⟩
        rw [List.append_assoc, read_trailer_hash_take _ _ _ (by omega) hall]
        simp only []
        cases hdrop : body.drop (2 * H) with
        | nil =>
          cases nls with
          | nil => exact ⟨Diag.no_separator, by simp⟩
          | cons a l =>
            rw [hn a (List.mem_cons_self _ _)]
            exact ⟨Diag.no_separator, by simp⟩
        | cons c f =>
          by_cases hc : c = 32
          · subst hc
            have hf : body.drop (2 * H + 1) = f := by
              rw [← List.tail_drop, hdrop]; rfl
            have hno : NoLength f := by
              rcases hbad with h | h | h | h | h
              · exact absurd rfl h
              · exact absurd h hshort
              · exact absurd h hhex
              · simp only [List.tail_cons, hdrop, List.head?_cons, ne_eq, not_true_eq_false] at h
              · simpa only [List.tail_cons, hf] using h
            have hf0 : ∀ x ∈ 32 :: (f ++ nls), x ≠ 0 := by
              intro x hx
              simp only [List.mem_cons, List.mem_append] at hx
              rcases hx with hx | hx | hx
              · omega
              · exact hb0 x (List.mem_of_mem_drop (by rw [hdrop]; exact List.mem_cons_of_mem _ hx))
              · rw [hn x hx]; omega
            have hcs : cstr (32 :: f ++ (nls ++ [0])) = 32 :: (f ++ nls) := by
              have e : 32 :: f ++ (nls ++ [0]) = (32 :: (f ++ nls)) ++ 0 :: [] := by simp
              rw [e]
              exact cstr_append_nul _ _ hf0
            have hst : strtol (32 :: (f ++ nls)) = 0 := by
              rw [strtol_skip_space]; exact strtol_noLength f nls hno hn
            refine ⟨Diag.invalid_data_length, ?_⟩
            simp only [List.cons_append, ne_eq, not_true_eq_false, if_false]
            rw [← List.cons_append, hcs, hst]
            simp [to_size_t]
          · exact ⟨Diag.no_separator, by simp [hc]⟩
  · exact ⟨Diag.last_line_not_trailer, by
      have hh : (line ++ nls ++ [0]).head? = line.head? := by
        cases line with
        | nil => exact absurd rfl hne
        | cons a x => rfl
      simp only [hh, ne_eq, h62, not_false_eq_true, if_true]⟩

end SbCat
end Gob

namespace Gob
namespace SbCat

theorem sb_parse_trailer_single (H : Nat) (line nls : List Nat)
    (hne : line ≠ []) (hl : ∀ c ∈ line, c ≠ 10) (hn : ∀ c ∈ nls, c = 10)
    (hnul : ∀ c ∈ line, c ≠ 0) :
    parse_trailer H (line ++ nls) =
      Except.error (Exit.die Diag.invalid_input_without_trailer) := by
  have hnul2 : ∀ c ∈ line ++ nls, c ≠ 0 := by
    intro c hc
    rw [List.mem_append] at hc
    rcases hc with hc | hc
    · exact hnul c hc
    · rw [hn c hc]; omega
  have h := find_last_line_spec [] line nls (Or.inl rfl) hne hl hn
  rw [List.nil_append] at h
  unfold parse_trailer
  rw [cstr_of_no_nul _ hnul2, h]
  rfl

/-- C17, as stated, fails: the length field "4x" is not a number, and sb-cat
accepts the trailer with the length 4, fetches the block and exits
successfully. -/
theorem sb_trailer_first_counterexample :
    (¬ IsDecimal (bytesOf "4x")) ∧
    main (env_b (bytesOf "abcd\n>0a0a 4x\n")) argv_b =
      ⟨Exit.success, [1, 2, 3, 4], [bytesOf "abcd"]⟩ := by
  refine ⟨by decide, by decide⟩

/-- C17, amended. sb-cat validates the trailer before its loop. Take a text
without NUL that does not end inside the hash segment of its last non-empty
line (a line '>' and fewer than 2 * HASH_LEN hex characters that no newline
follows). When that last line is not a well-formed trailer, in that it does not
begin with '>', or its hash segment is shorter than 2 * HASH_LEN characters or
has a character that is not a hex character, or the separator space is
missing, or the length field holds no number other than zero (it is empty or
zero or begins with a character that is not a digit, white space or a sign),
sb-cat dies before it fetches any block and before it writes any byte. The
length is read by `strtol`, so characters after a leading number are not
looked at. -/
theorem sb_trailer_first (env : Env) (argv : List (List Nat)) (pre line nls : List Nat)
    (hpre : pre = [] ∨ ∃ p, pre = p ++ [10])
    (hne : line ≠ []) (hl : ∀ c ∈ line, c ≠ 10)
    (hn : ∀ c ∈ nls, c = 10)
    (hend : ¬ EndsInHash env.HASH_LEN line nls)
    (hnul : ∀ c ∈ pre ++ line, c ≠ 0)
    (hin : env.io.stdin = pre ++ (line ++ nls))
    (hbad : MalformedTrailer env.HASH_LEN line) :
    ∃ d, main env argv = ⟨Exit.die d, [], []⟩ := by
  have hline0 : ∀ c ∈ line, c ≠ 0 := fun c hc => hnul c (List.mem_append_right _ hc)
  have hparse : ∃ d, parse_trailer env.HASH_LEN env.io.stdin = Except.error (Exit.die d) := by
    rw [hin]
    rcases hpre with h | ⟨p, h⟩
    · subst h
      rw [List.nil_append]
      exact ⟨_, sb_parse_trailer_single env.HASH_LEN line nls hne hl hn hline0⟩
    · subst h
      rw [sb_parse_trailer_last env.HASH_LEN p line nls hne hl hn (by
        intro c hc
        rw [List.mem_append] at hc
        rcases hc with hc | hc
        · exact hnul c (List.mem_append_left _ hc)
        · rw [List.mem_append] at hc
          rcases hc with hc | hc
          · exact hline0 c hc
          · rw [hn c hc]; omega)]
      exact sb_parse_trailer_malformed env.HASH_LEN line nls hne hl hn hend hline0 hbad
  obtain ⟨d, hd⟩ := hparse
  rcases sb_main_cases env argv with ⟨_, hm⟩ | ⟨_, _, hm⟩ | ⟨_, _, _, _, hm⟩ |
    ⟨_, e, _, _, _, h4, hm⟩ | ⟨_, th, dl, _, _, _, h4, _⟩
  · exact ⟨_, hm⟩
  · exact ⟨_, hm⟩
  · exact ⟨_, hm⟩
  · rw [hd] at h4
    cases h4
    exact ⟨d, hm⟩
  · rw [hd] at h4; cases h4

/-- A chain whose trailer declares the length 0: sb-cat dies without having
looked up the stored block "abcd". -/
theorem sb_trailer_first_witness :
    ∃ d, main (env_b (bytesOf "abcd\n>0a0a 0\n")) argv_b = ⟨Exit.die d, [], []⟩ :=
  sb_trailer_first (env_b (bytesOf "abcd\n>0a0a 0\n")) argv_b (bytesOf "abcd\n")
    (bytesOf ">0a0a 0") [10] (Or.inr ⟨bytesOf "abcd", rfl⟩) (by decide) (by decide)
    (by decide) (by decide) (by decide) rfl (by decide)

end SbCat
end Gob

namespace Gob

/-! ## gob-cat stops at the trailer line -/

theorem getlines_append_newline (p rest : List Nat) :
    getlines (p ++ 10 :: rest) = getlines (p ++ [10]) ++ getlines rest := by
  induction p with
  | nil => simp [getlines]
  | cons b p ih =>
    by_cases hb : b = 10
    · subst hb
      rw [List.cons_append, List.cons_append, getlines, getlines]
      simp only [if_true]
      rw [ih]
      rfl
    · rw [List.cons_append, List.cons_append, getlines_cons_of_ne b _ hb,
        getlines_cons_of_ne b _ hb, ih]
      cases h : getlines (p ++ [10]) with
      | nil => exact absurd h (getlines_ne_nil _ (by simp))
      | cons l ls => rfl

theorem getlines_pre (pre rest : List Nat) (hpre : pre = [] ∨ ∃ p, pre = p ++ [10]) :
    getlines (pre ++ rest) = getlines pre ++ getlines rest := by
  rcases hpre with h | ⟨p, h⟩
  · subst h; simp [getlines]
  · subst h
    have e : p ++ [10] ++ rest = p ++ 10 :: rest := by simp
    rw [e, getlines_append_newline]

namespace GobCat

theorem loop_with_stdin (env : Env) (t : List Nat) (store : List Nat → Option File)
    (lines : List (List Nat)) (buf : Option (List Nat)) (st : State) :
    loop (env.with_stdin t) store lines buf st = loop env store lines buf st := by
  induction lines generalizing buf st with
  | nil => simp only [loop]; rfl
  | cons raw rest ih =>
    rw [loop]
    conv_rhs => rw [loop]
    simp only [ih]
    rfl

/-- The run of gob-cat on a text: `main` with the text on standard input. -/
theorem main_with_stdin (env : Env) (argv : List (List Nat)) (t : List Nat) :
    main (env.with_stdin t) argv =
      if argv.length ≠ 2 then ⟨Exit.die Diag.usage, [], []⟩
      else if argv.get? 1 = some (bytesOf "--version") then ⟨Exit.version, [], []⟩
      else
        match env.open_store (argv.getD 1 []) with
        | none => ⟨Exit.die Diag.unable_to_open_store, [], []⟩
        | some store => loop env store (getlines t) none State.init := by
  unfold main
  simp only [loop_with_stdin]
  rfl

/-- Two runs of the loop over the same lines up to a line beginning with '>'
are related as the ends of `main` on the two trailer lines are. -/
theorem loop_upto_rel (env : Env) (store : List Nat → Option File)
    (R : Run → Run → Prop) (tl1 tl2 : List Nat) (m1 m2 : List (List Nat))
    (h1 : tl1.head? = some 62) (h2 : tl2.head? = some 62)
    (hrefl : ∀ r, R r r)
    (hfin : ∀ st, R (finish env st (cstr tl1)) (finish env st (cstr tl2)))
    (hs : List (List Nat)) (buf : Option (List Nat)) (st : State) :
    R (loop env store (hs ++ tl1 :: m1) buf st) (loop env store (hs ++ tl2 :: m2) buf st) := by
  induction hs generalizing buf st with
  | nil =>
    rw [List.nil_append, List.nil_append, loop_trailer _ _ _ _ _ _ h1,
      loop_trailer _ _ _ _ _ _ h2]
    exact hfin st
  | cons raw rest ih =>
    rw [List.cons_append, List.cons_append, loop, loop]
    by_cases hraw : raw.head? = some 62
    · simp only [hraw, if_true]
      exact hrefl _
    · simp only [hraw, if_false]
      by_cases h3 : strspn (cstr (chomp raw)) hexdigits = 2 * env.HASH_LEN
      · simp only [h3, ne_eq, not_true_eq_false, if_false]
        cases h4 : store (cstr (chomp raw)) with
        | none => exact hrefl _
        | some f =>
          simp only []
          cases h5 : read_bytes f env.BLOCK_LEN with
          | none => exact hrefl _
          | some block =>
            simp only []
            by_cases h6 : block.length = 0
            · simp only [h6, if_true]
              exact hrefl _
            · simp only [h6, if_false]
              by_cases h7 : env.io.stdout_ok st.out.length block.length = false
              · simp only [h7, if_true]
                exact hrefl _
              · simp only [h7, Bool.false_eq_true, if_false]
                exact ih _ _
      · simp only [h3, ne_eq, not_false_eq_true, if_true]
        exact hrefl _

end GobCat
end Gob

namespace Gob

theorem strtol_digits_newline (s : List Nat) (acc : Nat) :
    strtol_digits (s ++ [10]) acc = strtol_digits s acc := by
  induction s generalizing acc with
  | nil => simp [strtol_digits, isdigit]
  | cons c cs ih =>
    rw [List.cons_append, strtol_digits, strtol_digits]
    split
    · exact ih _
    · rfl

/-- A newline after its argument does not change what `strtol` reads. -/
theorem strtol_append_newline (s : List Nat) : strtol (s ++ [10]) = strtol s := by
  by_cases hall : ∀ c ∈ s, isspace c = true
  · rw [SbCat.strtol_spaces s hall]
    apply SbCat.strtol_spaces
    intro c hc
    rw [List.mem_append] at hc
    rcases hc with hc | hc
    · exact hall c hc
    · simp only [List.mem_singleton] at hc; subst hc; rfl
  · have hne : s.dropWhile isspace ≠ [] := by
      intro h
      rw [List.dropWhile_eq_nil_iff] at h
      exact hall h
    have hd : (s ++ [10]).dropWhile isspace = s.dropWhile isspace ++ [10] := by
      clear hall
      induction s with
      | nil => exact absurd rfl hne
      | cons a l ih =>
        by_cases ha : isspace a = true
        · rw [List.cons_append, List.dropWhile_cons_of_pos ha, List.dropWhile_cons_of_pos ha]
          rw [List.dropWhile_cons_of_pos ha] at hne
          exact ih hne
        · rw [List.cons_append, List.dropWhile_cons_of_neg ha, List.dropWhile_cons_of_neg ha]
          rfl
    obtain ⟨c, t, ht⟩ := List.exists_cons_of_ne_nil hne
    unfold strtol
    simp only [hd, ht, List.cons_append, List.head?_cons, List.tail_cons, Option.some.injEq]
    by_cases h45 : c = 45
    · simp only [h45, if_true, strtol_digits_newline]
    · simp only [h45, if_false]
      by_cases h43 : c = 43
      · simp only [h43, if_true, strtol_digits_newline]
      · simp only [h43, if_false]
        rw [← List.cons_append, strtol_digits_newline]

end Gob

namespace Gob
namespace GobCat

theorem cstr_append_newline (a : List Nat) :
    cstr (a ++ [10]) = cstr a ∨ (cstr a = a ∧ cstr (a ++ [10]) = a ++ [10]) := by
  induction a with
  | nil => right; exact ⟨rfl, by decide⟩
  | cons c a ih =>
    by_cases hc : c = 0
    · left
      subst hc
      simp [cstr]
    · have h1 : ∀ l, cstr (c :: l) = c :: cstr l := by
        intro l
        unfold cstr
        rw [List.takeWhile_cons_of_pos (by simpa using hc)]
      rcases ih with h | ⟨h, h'⟩
      · left; rw [List.cons_append, h1, h1, h]
      · right; rw [List.cons_append, h1, h1, h, h']; exact ⟨rfl, rfl⟩

/-- A newline at the end of a trailer line changes the result of
`parse_trailer` in one case only: a trailer one character short of the end of
its hash segment is no longer too short, and its hash does not decode. -/
theorem parse_trailer_newline (H : Nat) (x : List Nat) :
    parse_trailer H (62 :: (x ++ [10])) = parse_trailer H (62 :: x) ∨
    (parse_trailer H (62 :: x) = Except.error Diag.trailer_too_short ∧
      parse_trailer H (62 :: (x ++ [10])) = Except.error Diag.unable_to_decode_trailer_hash) := by
  by_cases hlen : x.length < 2 * H
  · by_cases hlen2 : x.length + 1 < 2 * H
    · left
      rw [parse_trailer_too_short H x hlen,
        parse_trailer_too_short H (x ++ [10]) (by simpa using hlen2)]
    · right
      refine ⟨parse_trailer_too_short H x hlen, ?_⟩
      have h := parse_trailer_hash H (x ++ [10]) [] (by
        simp only [List.length_append, List.length_singleton]; omega)
      rw [List.append_nil] at h
      rw [h, hex2bin_none_of_not_hex H (x ++ [10]) ⟨10, by simp, by decide⟩]
  · left
    have hl : (x.take (2 * H)).length = 2 * H := by
      rw [List.length_take]; omega
    have e1 : x = x.take (2 * H) ++ x.drop (2 * H) := (List.take_append_drop _ _).symm
    have e2 : x ++ [10] = x.take (2 * H) ++ (x.drop (2 * H) ++ [10]) := by
      rw [← List.append_assoc, List.take_append_drop]
    rw [e2, parse_trailer_hash H _ _ hl]
    conv_rhs => rw [e1, parse_trailer_hash H _ _ hl]
    cases hex2bin H (x.take (2 * H)) with
    | none => rfl
    | some D =>
      simp only []
      cases x.drop (2 * H) with
      | nil => simp
      | cons c f =>
        simp only [List.cons_append, List.head?_cons, List.tail_cons, strtol_append_newline]

/-- The opened blocks of a run up to a line beginning with '>' are those of
the lines before it. -/
theorem loop_opened_upto (env : Env) (store : List Nat → Option File)
    (hs : List (List Nat)) (tl : List Nat) (more : List (List Nat))
    (buf : Option (List Nat)) (st : State) (htl : tl.head? = some 62) :
    ∀ nm ∈ (loop env store (hs ++ tl :: more) buf st).opened,
      nm ∈ st.opened ∨ ∃ raw ∈ hs, nm = cstr (chomp raw) := by
  induction hs generalizing buf st with
  | nil =>
    intro nm hnm
    rw [List.nil_append, loop_trailer _ _ _ _ _ _ htl, (finish_out env st (cstr tl)).2] at hnm
    exact Or.inl hnm
  | cons raw rest ih =>
    intro nm hnm
    rw [List.cons_append] at hnm
    by_cases hraw : raw.head? = some 62
    · rw [loop_trailer _ _ _ _ _ _ hraw, (finish_out env st (cstr raw)).2] at hnm
      exact Or.inl hnm
    · rcases loop_cons_cases env store raw (rest ++ tl :: more) buf st hraw with ⟨_, h⟩ |
        ⟨d, _, h⟩ | ⟨f, block, _, _, _, _, _, h⟩
      · rw [h] at hnm; exact Or.inl hnm
      · rw [h] at hnm
        simp only [List.mem_append, List.mem_singleton] at hnm
        rcases hnm with hnm | hnm
        · exact Or.inl hnm
        · exact Or.inr ⟨raw, List.mem_cons_self _ _, hnm⟩
      · rw [h] at hnm
        rcases ih _ _ nm hnm with h1 | ⟨r1, hr1, h1⟩
        · simp only [List.mem_append, List.mem_singleton] at h1
          rcases h1 with h1 | h1
          · exact Or.inl h1
          · exact Or.inr ⟨raw, List.mem_cons_self _ _, h1⟩
        · exact Or.inr ⟨r1, List.mem_cons_of_mem _ hr1, h1⟩

end GobCat
end Gob

namespace Gob
namespace GobCat

theorem getlines_trailer (x r : List Nat) (hx : ∀ c ∈ x, c ≠ 10) :
    getlines (62 :: x ++ 10 :: r) = (62 :: x ++ [10]) :: getlines r := by
  have h := getlines_line (62 :: x) r (by
    intro c hc
    rcases List.mem_cons.mp hc with h | h
    · omega
    · exact hx c h)
  simpa using h

/-- C18. gob-cat stops at the trailer line. Let a text consist of complete
lines `pre`, a line '>' `x` and its newline, and any text `r` after it.
(1) The run, that is the outcome, the bytes written and the blocks looked up,
is the same for every text that follows the trailer line, so appending or
inserting lines after it changes nothing. (2) Every block that the run looks
up in the store is named by a line of `pre`: no line after the trailer line
is validated or causes a fetch. (3) When the trailer line is the end of the
text and lacks its newline, completing it with a newline and any text `s`
leaves the bytes written and the blocks looked up unchanged, and the outcome
too, except that a trailer exactly one character short of the end of its hash
segment fails with "Unable to decode trailer hash" instead of "Trailer is too
short". -/
theorem stops_at_trailer (env : Env) (argv : List (List Nat)) (pre x : List Nat)
    (hpre : pre = [] ∨ ∃ p, pre = p ++ [10]) (hx : ∀ c ∈ x, c ≠ 10) :
    (∀ r r2 : List Nat,
      main (env.with_stdin (pre ++ (62 :: x ++ 10 :: r))) argv =
        main (env.with_stdin (pre ++ (62 :: x ++ 10 :: r2))) argv) ∧
    (∀ r : List Nat, ∀ nm ∈ (main (env.with_stdin (pre ++ (62 :: x ++ 10 :: r))) argv).opened,
      ∃ raw ∈ getlines pre, nm = cstr (chomp raw)) ∧
    (∀ s : List Nat,
      (main (env.with_stdin (pre ++ 62 :: x)) argv).out =
        (main (env.with_stdin (pre ++ (62 :: x ++ 10 :: s))) argv).out ∧
      (main (env.with_stdin (pre ++ 62 :: x)) argv).opened =
        (main (env.with_stdin (pre ++ (62 :: x ++ 10 :: s))) argv).opened ∧
      ((main (env.with_stdin (pre ++ 62 :: x)) argv).exit =
          (main (env.with_stdin (pre ++ (62 :: x ++ 10 :: s))) argv).exit ∨
        ((main (env.with_stdin (pre ++ 62 :: x)) argv).exit =
            Exit.die Diag.trailer_too_short ∧
          (main (env.with_stdin (pre ++ (62 :: x ++ 10 :: s))) argv).exit =
            Exit.die Diag.unable_to_decode_trailer_hash))) := by
  have hg : ∀ r, getlines (pre ++ (62 :: x ++ 10 :: r)) =
      getlines pre ++ (62 :: x ++ [10]) :: getlines r := by
    intro r
    rw [getlines_pre pre _ hpre, getlines_trailer x r hx]
  have hg0 : getlines (pre ++ 62 :: x) = getlines pre ++ (62 :: x) :: [] := by
    rw [getlines_pre pre _ hpre, getlines_last (62 :: x) (by simp) (by
      intro c hc
      rcases List.mem_cons.mp hc with h | h
      · omega
      · exact hx c h)]
  refine ⟨?_, ?_, ?_⟩
  · intro r r2
    rw [main_with_stdin, main_with_stdin, hg r, hg r2]
    split
    · rfl
    · split
      · rfl
      · split
        · rfl
        · rename_i store _
          exact loop_upto_rel env store Eq (62 :: x ++ [10]) (62 :: x ++ [10])
            (getlines r) (getlines r2) (by simp) (by simp) (fun _ => rfl) (fun _ => rfl)
            (getlines pre) none State.init
  · intro r nm hnm
    rw [main_with_stdin, hg r] at hnm
    split at hnm
    · simp at hnm
    · split at hnm
      · simp at hnm
      · split at hnm
        · simp at hnm
        · rename_i store _
          rcases loop_opened_upto env store (getlines pre) (62 :: x ++ [10]) (getlines r)
            none State.init (by simp) nm hnm with h | h
          · simp [State.init] at h
          · exact h
  · intro s
    rw [main_with_stdin, main_with_stdin, hg s, hg0]
    split
    · exact ⟨rfl, rfl, Or.inl rfl⟩
    · split
      · exact ⟨rfl, rfl, Or.inl rfl⟩
      · split
        · exact ⟨rfl, rfl, Or.inl rfl⟩
        · rename_i store _
          apply loop_upto_rel env store
            (fun a b => a.out = b.out ∧ a.opened = b.opened ∧
              (a.exit = b.exit ∨ (a.exit = Exit.die Diag.trailer_too_short ∧
                b.exit = Exit.die Diag.unable_to_decode_trailer_hash)))
            (62 :: x) (62 :: x ++ [10]) [] (getlines s) rfl (by simp)
            (fun _ => ⟨rfl, rfl, Or.inl rfl⟩)
          intro st
          have hc1 : ∀ l, cstr (62 :: l) = 62 :: cstr l := by
            intro l
            unfold cstr
            rw [List.takeWhile_cons_of_pos (by decide)]
          rw [List.cons_append, hc1, hc1]
          rcases cstr_append_newline x with h | ⟨h, h'⟩
          · rw [h]; exact ⟨rfl, rfl, Or.inl rfl⟩
          · rw [h, h']
            rcases parse_trailer_newline env.HASH_LEN x with hp | ⟨hp1, hp2⟩
            · unfold finish
              rw [hp]
              exact ⟨rfl, rfl, Or.inl rfl⟩
            · unfold finish
              rw [hp1, hp2]
              exact ⟨rfl, rfl, Or.inr ⟨rfl, rfl⟩⟩

/-- The chain of the stored block "0a0a" with its trailer, alone and followed
by a hash line without block and by a line that is not a hash line. -/
theorem stops_at_trailer_witness :
    main (env_a (bytesOf "0a0a\n>0a0a 4\n")) argv_a =
      main (env_a (bytesOf "0a0a\n>0a0a 4\n0c0c\nzz\n")) argv_a ∧
    main (env_a (bytesOf "0a0a\n>0a0a 4\n0c0c\nzz\n")) argv_a =
      ⟨Exit.success, [1, 2, 3, 4], [bytesOf "0a0a"]⟩ :=
  ⟨(stops_at_trailer (env_a []) argv_a (bytesOf "0a0a\n") (bytesOf "0a0a 4")
    (Or.inr ⟨bytesOf "0a0a", rfl⟩) (by decide)).1 [] (bytesOf "0c0c\nzz\n"), by decide⟩

end GobCat
end Gob
